import Mathlib

/-!
# A splay-tree map (`TreeMap<KeyType, ValueType>` of `main.cpp`)

The C++ class stores its nodes on the heap and links them with raw `parent`,
`left` and `right` pointers.  The embedding keeps that representation: the heap
is a list of node records, a pointer is an optional index into that list, and
every method is a function on the explicit state `(nodes, root, size_)` that
fails (returns `none`) when it dereferences a null or dangling pointer or when a
loop runs out of the iteration budget it is given.
-/

namespace SplayTree

/-! ## The data model -/

/-- The class `Node`: a key, a value and the three links.  A pointer to a node is an
optional heap index: `none` is `nullptr`, `some a` is the node stored at index `a`. -/
structure Node (K V : Type) where
  key : K
  value : V
  parent : Option Nat
  left : Option Nat
  right : Option Nat
deriving DecidableEq, Repr

/-- The class `TreeMap`: the fields `root` and `size_`, together with the heap the nodes
live in, a list to which `new Node` appends one record.  `size_` is a `size_t` that counts
allocated nodes, each of which occupies its own memory, so it cannot wrap around and is
modelled as a natural number. -/
structure TreeMap (K V : Type) where
  nodes : List (Node K V)
  root : Option Nat
  size_ : Nat
deriving DecidableEq, Repr

/-- Outcome of `value(key)`: the value found, or the `runtime_error` the method throws. -/
inductive Lookup (V : Type) where
  | found (v : V)
  | notFound
deriving DecidableEq, Repr

variable {K V : Type}

/-- Reading through a pointer; fails on `nullptr` and on a dangling pointer. -/
def deref (h : List (Node K V)) : Option Nat → Option (Node K V)
  | none => none
  | some a => h[a]?

/-- Writing a field through a pointer: `p->field = ...`; fails like `deref`. -/
def store (h : List (Node K V)) (p : Option Nat) (f : Node K V → Node K V) :
    Option (List (Node K V)) :=
  match p with
  | none => none
  | some a =>
    match h[a]? with
    | none => none
    | some n => some (h.set a (f n))

/-- The C++ operator `a && b`, which evaluates `b` only when `a` is true. -/
def andAlso (a : Bool) (b : Option Bool) : Option Bool :=
  if a then b else some false

/-- The method `Node::isLeftChild`. -/
def isLeftChild (h : List (Node K V)) (p : Option Nat) : Option Bool := do
  let n ← deref h p
  match n.parent with
  | none => pure false
  | some _ => do
    let pn ← deref h n.parent
    pure (decide (pn.left = p))

/-- The method `Node::isRightChild`. -/
def isRightChild (h : List (Node K V)) (p : Option Nat) : Option Bool := do
  let n ← deref h p
  match n.parent with
  | none => pure false
  | some _ => do
    let pn ← deref h n.parent
    pure (decide (pn.right = p))

namespace TreeMap

/-- The constructor `TreeMap()`. -/
def empty : TreeMap K V := { nodes := [], root := none, size_ := 0 }

/-- The method `isEmpty`. -/
def isEmpty (m : TreeMap K V) : Bool := decide (m.root = none)

/-- The method `size`. -/
def size (m : TreeMap K V) : Nat := m.size_

/-- The loop of `findClosest`, one iteration per unit of fuel. -/
def findClosestLoop [LinearOrder K] (key : K) (h : List (Node K V)) :
    Nat → Option Nat → Option (Option Nat)
  | 0, _ => none
  | fuel + 1, currentRoot => do
    let n ← deref h currentRoot
    if key < n.key then
      if n.left.isSome then findClosestLoop key h fuel n.left else pure currentRoot
    else if key > n.key then
      if n.right.isSome then findClosestLoop key h fuel n.right else pure currentRoot
    else pure currentRoot

/-- The method `findClosest`.  The descent visits a node at most once on a tree-shaped
heap, so it is given one more iteration than the heap has nodes. -/
def findClosest [LinearOrder K] (m : TreeMap K V) (key : K) : Option (Option Nat) :=
  if m.isEmpty then some none
  else findClosestLoop key m.nodes (m.nodes.length + 1) m.root

/-- The method `rotateLeft`. -/
def rotateLeft (m : TreeMap K V) (el : Option Nat) : Option (TreeMap K V) := do
  let eln ← deref m.nodes el
  if eln.parent = m.root then
    let temp := m.root
    let root := el
    let h ← store m.nodes root (fun n => { n with parent := none })
    let eln ← deref h el
    let h ← store h temp (fun n => { n with right := eln.left })
    let tn ← deref h temp
    let h ← if tn.right.isSome then store h tn.right (fun n => { n with parent := temp })
      else pure h
    let h ← store h root (fun n => { n with left := temp })
    let h ← store h temp (fun n => { n with parent := root })
    pure { m with nodes := h, root := root }
  else
    let temp := eln.parent
    let isL ← isLeftChild m.nodes eln.parent
    let h ←
      if isL then do
        let pn ← deref m.nodes eln.parent
        store m.nodes pn.parent (fun n => { n with left := el })
      else do
        let isR ← isRightChild m.nodes eln.parent
        if isR then do
          let pn ← deref m.nodes eln.parent
          store m.nodes pn.parent (fun n => { n with right := el })
        else pure m.nodes
    let tn ← deref h temp
    let h ← store h el (fun n => { n with parent := tn.parent })
    let eln ← deref h el
    let h ← store h temp (fun n => { n with right := eln.left })
    let eln ← deref h el
    let h ← if eln.left.isSome then store h eln.left (fun n => { n with parent := temp })
      else pure h
    let h ← store h el (fun n => { n with left := temp })
    let h ← store h temp (fun n => { n with parent := el })
    pure { m with nodes := h }

/-- The method `rotateRight`. -/
def rotateRight (m : TreeMap K V) (el : Option Nat) : Option (TreeMap K V) := do
  let eln ← deref m.nodes el
  if eln.parent = m.root then
    let temp := m.root
    let root := el
    let h ← store m.nodes root (fun n => { n with parent := none })
    let eln ← deref h el
    let h ← store h temp (fun n => { n with left := eln.right })
    let tn ← deref h temp
    let h ← if tn.left.isSome then store h tn.left (fun n => { n with parent := temp })
      else pure h
    let h ← store h root (fun n => { n with right := temp })
    let h ← store h temp (fun n => { n with parent := root })
    pure { m with nodes := h, root := root }
  else
    let temp := eln.parent
    let isR ← isRightChild m.nodes eln.parent
    let h ←
      if isR then do
        let pn ← deref m.nodes eln.parent
        store m.nodes pn.parent (fun n => { n with right := el })
      else do
        let isL ← isLeftChild m.nodes eln.parent
        if isL then do
          let pn ← deref m.nodes eln.parent
          store m.nodes pn.parent (fun n => { n with left := el })
        else pure m.nodes
    let tn ← deref h temp
    let h ← store h el (fun n => { n with parent := tn.parent })
    let eln ← deref h el
    let h ← store h temp (fun n => { n with left := eln.right })
    let eln ← deref h el
    let h ← if eln.right.isSome then store h eln.right (fun n => { n with parent := temp })
      else pure h
    let h ← store h el (fun n => { n with right := temp })
    let h ← store h temp (fun n => { n with parent := el })
    pure { m with nodes := h }

/-- One iteration of the body of the `while` loop of `splay`, entered with `el != root`. -/
def splayStep (m : TreeMap K V) (el : Option Nat) : Option (TreeMap K V) := do
  let eln ← deref m.nodes el
  if eln.parent = m.root then
    let pn ← deref m.nodes eln.parent
    if pn.right.isSome ∧ el = pn.right then rotateLeft m el else rotateRight m el
  else
    let pn ← deref m.nodes eln.parent
    let zigZagL ← andAlso (decide (el = pn.left)) (do
      let gn ← deref m.nodes pn.parent
      pure (decide (gn.right = eln.parent)))
    if zigZagL then
      let m ← rotateRight m el
      rotateLeft m el
    else
      let zigZagR ← andAlso (decide (el = pn.right)) (do
        let gn ← deref m.nodes pn.parent
        pure (decide (gn.left = eln.parent)))
      if zigZagR then
        let m ← rotateLeft m el
        rotateRight m el
      else
        let zigZigL ← andAlso (decide (el = pn.left)) (do
          let gn ← deref m.nodes pn.parent
          pure (decide (gn.left = eln.parent)))
        if zigZigL then
          let m ← rotateRight m eln.parent
          rotateRight m el
        else
          let m ← rotateLeft m eln.parent
          rotateLeft m el

/-- The `while (el != this->root)` loop of `splay`, one iteration per unit of fuel. -/
def splayLoop : Nat → TreeMap K V → Option Nat → Option (TreeMap K V)
  | 0, _, _ => none
  | fuel + 1, m, el =>
    if el = m.root then some m
    else do
      let m ← splayStep m el
      splayLoop fuel m el

/-- The method `splay`.  Every iteration of the loop brings `el` closer to the root, so the
loop is given one more iteration than the heap has nodes. -/
def splay [LinearOrder K] (m : TreeMap K V) (key : K) : Option (TreeMap K V) := do
  let el ← findClosest m key
  splayLoop (m.nodes.length + 1) m el

/-- The method `insert(key, value)`.  The allocation `new Node(key, value)` is taken to
succeed: it appends a fresh record whose three links are null. -/
def insert [LinearOrder K] (m : TreeMap K V) (key : K) (value : V) : Option (TreeMap K V) := do
  let newNode : Option Nat := some m.nodes.length
  let m : TreeMap K V := { m with nodes := m.nodes ++ [⟨key, value, none, none, none⟩] }
  if m.isEmpty then
    pure { m with root := newNode, size_ := m.size_ + 1 }
  else
    let m ← splay m key
    let rn ← deref m.nodes m.root
    if rn.key = key then
      let h ← store m.nodes m.root (fun n => { n with value := value })
      pure { m with nodes := h }
    else
      let prevRoot := m.root
      let m : TreeMap K V := { m with root := newNode }
      let prn ← deref m.nodes prevRoot
      if key < prn.key then
        let h ← store m.nodes m.root (fun n => { n with left := prn.left })
        let rn ← deref h m.root
        let h ← if rn.left.isSome then store h rn.left (fun n => { n with parent := m.root })
          else pure h
        let h ← store h prevRoot (fun n => { n with left := none })
        let h ← store h m.root (fun n => { n with right := prevRoot })
        let h ← store h prevRoot (fun n => { n with parent := m.root })
        pure { m with nodes := h, size_ := m.size_ + 1 }
      else
        let h ← store m.nodes m.root (fun n => { n with right := prn.right })
        let rn ← deref h m.root
        let h ← if rn.right.isSome then store h rn.right (fun n => { n with parent := m.root })
          else pure h
        let h ← store h prevRoot (fun n => { n with right := none })
        let h ← store h m.root (fun n => { n with left := prevRoot })
        let h ← store h prevRoot (fun n => { n with parent := m.root })
        pure { m with nodes := h, size_ := m.size_ + 1 }

/-- The method `operator[]` (default-access); the result is the value the returned
reference designates, together with the new state. -/
def access [LinearOrder K] [Zero V] (m : TreeMap K V) (key : K) : Option (V × TreeMap K V) := do
  let m ← splay m key
  let absent ← if m.isEmpty then pure true else (do
    let rn ← deref m.nodes m.root
    pure (decide (rn.key ≠ key)))
  let m ← if absent then insert m key 0 else pure m
  let rn ← deref m.nodes m.root
  pure (rn.value, m)

/-- The method `value`. -/
def value [LinearOrder K] (m : TreeMap K V) (key : K) : Option (Lookup V × TreeMap K V) := do
  let m ← splay m key
  let hit ← andAlso (!m.isEmpty) (do
    let rn ← deref m.nodes m.root
    pure (decide (rn.key = key)))
  if hit then
    let rn ← deref m.nodes m.root
    pure (Lookup.found rn.value, m)
  else pure (Lookup.notFound, m)

/-- The method `contains`. -/
def contains [LinearOrder K] (m : TreeMap K V) (key : K) : Option (Bool × TreeMap K V) := do
  let m ← splay m key
  let hit ← andAlso (decide (m.root ≠ none)) (do
    let rn ← deref m.nodes m.root
    pure (decide (rn.key = key)))
  pure (hit, m)

end TreeMap

/-! ## The tree a heap represents

The proofs read the pointer structure back as an algebraic tree whose nodes remember the
heap index they live at. -/

/-- A binary tree of keys and values in which every node carries its heap index. -/
inductive Tree (K V : Type) where
  | nil
  | node (a : Nat) (l : Tree K V) (k : K) (v : V) (r : Tree K V)
deriving DecidableEq, Repr

namespace Tree

/-- The pointer to the root of a tree: null for the empty tree. -/
def ptr : Tree K V → Option Nat
  | nil => none
  | node a _ _ _ _ => some a

/-- The heap indices of the nodes of a tree. -/
def addrs : Tree K V → List Nat
  | nil => []
  | node a l _ _ r => a :: (addrs l ++ addrs r)

/-- The in-order sequence of the entries of a tree. -/
def toList : Tree K V → List (K × V)
  | nil => []
  | node _ l k v r => toList l ++ (k, v) :: toList r

/-- The number of nodes of a tree. -/
def size : Tree K V → Nat
  | nil => 0
  | node _ l _ _ r => size l + 1 + size r

/-- The number of nodes on the longest branch. -/
def height : Tree K V → Nat
  | nil => 0
  | node _ l _ _ r => max (height l) (height r) + 1

/-- The binary-search-tree order: at every node, every key of the left subtree is less than
the node's key and every key of the right subtree is greater. -/
def BST [LT K] : Tree K V → Prop
  | nil => True
  | node _ l k _ r =>
    (∀ x ∈ toList l, x.1 < k) ∧ (∀ x ∈ toList r, k < x.1) ∧ BST l ∧ BST r

/-- The heap `h` holds the tree `t` below the parent pointer `par`: every node of `t` is
stored at its index with its key, its value, the pointers to its two subtrees and the
pointer to its parent. -/
def Rep (h : List (Node K V)) : Option Nat → Tree K V → Prop
  | _, nil => True
  | par, node a l k v r =>
    h[a]? = some ⟨k, v, par, ptr l, ptr r⟩ ∧ Rep h (some a) l ∧ Rep h (some a) r

end Tree

/-- One step of a root-to-node path, seen from below: the node at index `a` with entry
`(k, v)`, whose other subtree is `sib`; `isLeft` tells that the path continues into the left
child. -/
structure Frame (K V : Type) where
  isLeft : Bool
  a : Nat
  k : K
  v : V
  sib : Tree K V
deriving DecidableEq, Repr

namespace Frame

/-- Fill the hole of a frame with a subtree. -/
def plug (f : Frame K V) (s : Tree K V) : Tree K V :=
  if f.isLeft then Tree.node f.a s f.k f.v f.sib else Tree.node f.a f.sib f.k f.v s

/-- The heap indices a frame accounts for. -/
def addrs (f : Frame K V) : List Nat := f.a :: f.sib.addrs

/-- The entries a frame puts before the hole in the in-order sequence. -/
def pre (f : Frame K V) : List (K × V) :=
  if f.isLeft then [] else f.sib.toList ++ [(f.k, f.v)]

/-- The entries a frame puts after the hole in the in-order sequence. -/
def post (f : Frame K V) : List (K × V) :=
  if f.isLeft then (f.k, f.v) :: f.sib.toList else []

/-- The frame of the parent after the first rotation of a zig-zig step: the grandparent
`g` has become the child of the parent `f` on the side away from the hole. -/
def zigZig (f g : Frame K V) : Frame K V :=
  { f with sib := if f.isLeft then Tree.node g.a f.sib g.k g.v g.sib
                  else Tree.node g.a g.sib g.k g.v f.sib }

end Frame

/-- Rebuild the tree from a path (innermost frame first) and the subtree in its hole. -/
def plug : List (Frame K V) → Tree K V → Tree K V
  | [], s => s
  | f :: fs, s => plug fs (f.plug s)

/-- The heap indices of a path. -/
def pathAddrs : List (Frame K V) → List Nat
  | [] => []
  | f :: fs => f.addrs ++ pathAddrs fs

/-- The entries before the hole of a path. -/
def pathPre : List (Frame K V) → List (K × V)
  | [] => []
  | f :: fs => pathPre fs ++ f.pre

/-- The entries after the hole of a path. -/
def pathPost : List (Frame K V) → List (K × V)
  | [] => []
  | f :: fs => f.post ++ pathPost fs

/-- The pointer to the innermost node of a path: the parent of the subtree in the hole. -/
def pathTop : List (Frame K V) → Option Nat
  | [] => none
  | f :: _ => some f.a

/-- The heap holds the path, whose hole contains the pointer `c`. -/
def RepPath (h : List (Node K V)) : List (Frame K V) → Option Nat → Prop
  | [], _ => True
  | f :: fs, c =>
    h[f.a]? = some ⟨f.k, f.v, pathTop fs, if f.isLeft then c else f.sib.ptr,
      if f.isLeft then f.sib.ptr else c⟩ ∧
    f.sib.Rep h (some f.a) ∧ RepPath h fs (some f.a)

/-- The search of `findClosest` on a tree: the path walked and the subtree it stops at. -/
def descend [LinearOrder K] (key : K) :
    Tree K V → List (Frame K V) → List (Frame K V) × Tree K V
  | .nil, path => (path, .nil)
  | .node a l k v r, path =>
    if key < k then
      if l.ptr.isSome then descend key l (⟨true, a, k, v, r⟩ :: path)
      else (path, .node a l k v r)
    else if k < key then
      if r.ptr.isSome then descend key r (⟨false, a, k, v, l⟩ :: path)
      else (path, .node a l k v r)
    else (path, .node a l k v r)

/-- A single rotation of the subtree in the hole over the frame above it. -/
def rotUp (f : Frame K V) : Tree K V → Tree K V
  | .nil => f.plug .nil
  | .node e l k v r =>
    if f.isLeft then .node e l k v (.node f.a r f.k f.v f.sib)
    else .node e (.node f.a f.sib f.k f.v l) k v r

/-- The loop of `splay` on a tree: zig at the root, zig-zig or zig-zag below it. -/
def splayUp : List (Frame K V) → Tree K V → Tree K V
  | [], s => s
  | [f], s => rotUp f s
  | f :: g :: rest, s =>
    if f.isLeft = g.isLeft then splayUp rest (rotUp (f.zigZig g) s)
    else splayUp rest (rotUp g (rotUp f s))

/-- The effect of `splay` on a tree. -/
def splayT [LinearOrder K] (key : K) (t : Tree K V) : Tree K V :=
  splayUp (descend key t []).1 (descend key t []).2

/-- The effect of `insert` on a tree; `new` is the index of the freshly allocated node. -/
def insertT [LinearOrder K] (key : K) (value : V) (new : Nat) (t : Tree K V) : Tree K V :=
  match splayT key t with
  | .nil => .node new .nil key value .nil
  | .node e l k v r =>
    if k = key then .node e l k value r
    else if key < k then .node new l key value (.node e .nil k v r)
    else .node new (.node e l k v .nil) key value r

/-- What `value` reads at the root of a tree: the value there if the key there is the one
sought. -/
def Tree.rootLookup [DecidableEq K] (key : K) : Tree K V → Option V
  | .nil => none
  | .node _ _ k v _ => if k = key then some v else none

/-- The map `m` is laid out as the tree `t`: the root pointer designates the root of `t`,
whose parent link is null, the heap holds `t`, and no node occurs twice. -/
def Models (m : TreeMap K V) (t : Tree K V) : Prop :=
  m.root = t.ptr ∧ t.Rep m.nodes none ∧ t.addrs.Nodup

/-- The invariant of the map: the heap is laid out as a binary search tree and `size_`
counts its nodes. -/
def Inv [LT K] (m : TreeMap K V) : Prop :=
  ∃ t : Tree K V, Models m t ∧ t.BST ∧ m.size_ = t.size

/-- In-order traversal of the nodes reachable from a pointer, to depth `fuel`. -/
def inorder (h : List (Node K V)) : Nat → Option Nat → List (K × V)
  | 0, _ => []
  | _ + 1, none => []
  | fuel + 1, some a =>
    match h[a]? with
    | none => []
    | some n => inorder h fuel n.left ++ (n.key, n.value) :: inorder h fuel n.right

/-- The heap indices of the nodes reachable from a pointer through `left` and `right`, to
depth `fuel`. -/
def reach (h : List (Node K V)) : Nat → Option Nat → List Nat
  | 0, _ => []
  | _ + 1, none => []
  | fuel + 1, some a =>
    match h[a]? with
    | none => []
    | some n => a :: (reach h fuel n.left ++ reach h fuel n.right)

/-- The reference finite map: `insert` with last-write-wins on a function from keys to
values. -/
def refInsert [DecidableEq K] (ref : K → Option V) (k : K) (v : V) : K → Option V :=
  fun x => if x = k then some v else ref x

/-- The reference finite map obtained from the empty one by a sequence of inserts. -/
def refOf [DecidableEq K] (ops : List (K × V)) : K → Option V :=
  ops.foldl (fun ref kv => refInsert ref kv.1 kv.2) (fun _ => none)

namespace TreeMap

/-- The in-order sequence of the entries stored in a map. -/
def toList (m : TreeMap K V) : List (K × V) := inorder m.nodes m.nodes.length m.root

/-- The keys stored in a map, in order. -/
def keys (m : TreeMap K V) : List K := m.toList.map Prod.fst

/-- The heap indices of the nodes reachable from the root. -/
def reachable (m : TreeMap K V) : List Nat := reach m.nodes m.nodes.length m.root

/-- The map satisfies the binary-search-tree order: its heap is laid out as a tree in
which, at every node, every key of the left subtree is less than the node's key and every
key of the right subtree is greater. -/
def IsBST [LT K] (m : TreeMap K V) : Prop := ∃ t : Tree K V, Models m t ∧ t.BST

/-- A sequence of calls of `insert`, first to last. -/
def insertAll [LinearOrder K] : List (K × V) → TreeMap K V → Option (TreeMap K V)
  | [], m => some m
  | kv :: rest, m => (m.insert kv.1 kv.2).bind (insertAll rest)

/-- The maps reachable from the empty map by the public operations. -/
inductive Reachable [LinearOrder K] [Zero V] : TreeMap K V → Prop where
  | empty : Reachable empty
  | insert {m m1 : TreeMap K V} (k : K) (v : V) :
      Reachable m → m.insert k v = some m1 → Reachable m1
  | access {m m1 : TreeMap K V} (k : K) (v : V) :
      Reachable m → m.access k = some (v, m1) → Reachable m1
  | value {m m1 : TreeMap K V} (k : K) (r : Lookup V) :
      Reachable m → m.value k = some (r, m1) → Reachable m1
  | contains {m m1 : TreeMap K V} (k : K) (b : Bool) :
      Reachable m → m.contains k = some (b, m1) → Reachable m1

end TreeMap

/-! ## Further observations of a map -/

/-- The number of `parent` links between a node and the node whose `parent` link is null;
`fuel` bounds the walk. -/
def depth (h : List (Node K V)) : Nat → Option Nat → Option Nat
  | 0, _ => none
  | fuel + 1, p =>
    match deref h p with
    | none => none
    | some n =>
      match n.parent with
      | none => some 0
      | some q => (depth h fuel (some q)).map (· + 1)

/-- The root-to-leaf search path for `key` as the specification describes it: the nodes met
from the pointer down, going left where `key` is less than the key of the node, right where
it is greater, and ending at a node with the key or at a null link; `fuel` bounds the
length. -/
def searchPath [LinearOrder K] (key : K) (h : List (Node K V)) : Nat → Option Nat → List Nat
  | 0, _ => []
  | _ + 1, none => []
  | fuel + 1, some a =>
    match h[a]? with
    | none => []
    | some n =>
      a :: (if key < n.key then searchPath key h fuel n.left
        else if n.key < key then searchPath key h fuel n.right
        else [])

/-- The subtree at the grandparent `g` before a double rotation, as the specification draws
it: `xLeft` tells that `x` is the left child of its parent `p`, `pLeft` that `p` is the left
child of `g`; `A`, `B`, `C`, `D` are the four subtrees in in-order position. -/
def doubleBefore (xLeft pLeft : Bool) (x p g : Nat) (ex ep eg : K × V)
    (A B C D : Tree K V) : Tree K V :=
  match xLeft, pLeft with
  | true, true => .node g (.node p (.node x A ex.1 ex.2 B) ep.1 ep.2 C) eg.1 eg.2 D
  | false, true => .node g (.node p A ep.1 ep.2 (.node x B ex.1 ex.2 C)) eg.1 eg.2 D
  | true, false => .node g A eg.1 eg.2 (.node p (.node x B ex.1 ex.2 C) ep.1 ep.2 D)
  | false, false => .node g A eg.1 eg.2 (.node p B ep.1 ep.2 (.node x C ex.1 ex.2 D))

/-- The subtree the specification puts in the place of `doubleBefore` after the double
rotation: `x` on top, with the same four subtrees in in-order position. -/
def doubleAfter (xLeft pLeft : Bool) (x p g : Nat) (ex ep eg : K × V)
    (A B C D : Tree K V) : Tree K V :=
  match xLeft, pLeft with
  | true, true => .node x A ex.1 ex.2 (.node p B ep.1 ep.2 (.node g C eg.1 eg.2 D))
  | false, true => .node x (.node p A ep.1 ep.2 B) ex.1 ex.2 (.node g C eg.1 eg.2 D)
  | true, false => .node x (.node g A eg.1 eg.2 B) ex.1 ex.2 (.node p C ep.1 ep.2 D)
  | false, false => .node x (.node p (.node g A eg.1 eg.2 B) ep.1 ep.2 C) ex.1 ex.2 D

/-- The links of the node at index `a` are consistent: the node is stored, a node that is
its `left` or its `right` child is stored and has `a` as its `parent`, and its two children
are not the same node. -/
def LinkConsistent (h : List (Node K V)) (a : Nat) : Prop :=
  ∃ n, h[a]? = some n ∧
    (∀ c, n.left = some c → ∃ cn, h[c]? = some cn ∧ cn.parent = some a) ∧
    (∀ c, n.right = some c → ∃ cn, h[c]? = some cn ∧ cn.parent = some a) ∧
    ∀ c, n.left = some c → n.right ≠ some c

/-- The node reached from the node at index `a` by following `i` `parent` links. -/
def ancestor (h : List (Node K V)) : Nat → Nat → Option Nat
  | 0, a => some a
  | i + 1, a =>
    match h[a]? with
    | none => none
    | some n =>
      match n.parent with
      | none => none
      | some q => ancestor h i q

/-- The tree read off the heap from a pointer down through `left` and `right`, to depth
`fuel`. -/
def build (h : List (Node K V)) : Nat → Option Nat → Tree K V
  | 0, _ => .nil
  | _ + 1, none => .nil
  | fuel + 1, some a =>
    match h[a]? with
    | none => .nil
    | some n => .node a (build h fuel n.left) n.key n.value (build h fuel n.right)

/-- A call of a public operation. -/
inductive Op (K V : Type) where
  | insert (k : K) (v : V)
  | access (k : K)
  | value (k : K)
  | contains (k : K)
deriving DecidableEq, Repr

namespace TreeMap

/-- The key of the root node, if there is a root. -/
def rootKey (m : TreeMap K V) : Option K := (deref m.nodes m.root).map Node.key

/-- The depth of the node at index `a` in the map. -/
def depthOf (m : TreeMap K V) (a : Nat) : Option Nat := depth m.nodes m.nodes.length (some a)

/-- The search path for `key` from the root. -/
def searchPath [LinearOrder K] (m : TreeMap K V) (key : K) : List Nat :=
  SplayTree.searchPath key m.nodes m.nodes.length m.root

/-- The in-order sequence of the entries of the subtree a pointer designates. -/
def entriesBelow (m : TreeMap K V) (p : Option Nat) : List (K × V) :=
  inorder m.nodes m.nodes.length p

/-- The map is a parent-consistent tree: the nodes reachable from the root form a tree, no
node occurring twice, in which every node is stored with the pointers to its two subtrees
and with a `parent` link that designates its parent, the root's being null. -/
def IsTree (m : TreeMap K V) : Prop := ∃ t : Tree K V, Models m t

/-- The parent-consistency of the links, node by node: the root pointer, if not null,
designates a stored node whose `parent` link is null, and the links of every node reachable
from the root are consistent: a node that is the `left` or the `right` child of a node is
stored and has that node as its `parent`, and no node is both the `left` and the `right`
child of a node. -/
def ParentConsistent (m : TreeMap K V) : Prop :=
  (∀ a, m.root = some a → ∃ rn, m.nodes[a]? = some rn ∧ rn.parent = none) ∧
  ∀ a ∈ m.reachable, LinkConsistent m.nodes a

/-- The effect of a call on the map; the value the call returns is dropped. -/
def applyOp [LinearOrder K] [Zero V] (m : TreeMap K V) : Op K V → Option (TreeMap K V)
  | .insert k v => m.insert k v
  | .access k => (m.access k).map Prod.snd
  | .value k => (m.value k).map Prod.snd
  | .contains k => (m.contains k).map Prod.snd

/-- A sequence of calls, first to last. -/
def runOps [LinearOrder K] [Zero V] : List (Op K V) → TreeMap K V → Option (TreeMap K V)
  | [], m => some m
  | op :: rest, m => (m.applyOp op).bind (runOps rest)

/-- The call inserts: it is a call of `insert`, or a call of `operator[]` on a key that is
not stored. -/
def opInserts [LinearOrder K] (m : TreeMap K V) : Op K V → Bool
  | .insert _ _ => true
  | .access k => decide (k ∉ m.keys)
  | .value _ => false
  | .contains _ => false

/-- No call of the sequence inserts. -/
def insertionFree [LinearOrder K] [Zero V] : List (Op K V) → TreeMap K V → Bool
  | [], _ => true
  | op :: rest, m =>
    !m.opInserts op &&
      match m.applyOp op with
      | none => true
      | some m1 => insertionFree rest m1

end TreeMap

/-! # Proofs -/

open TreeMap

/-! ## Reading and writing the heap -/

theorem get_set_self {h : List (Node K V)} {a : Nat} {n : Node K V} (x : Node K V)
    (hn : h[a]? = some n) : (h.set a x)[a]? = some x := by
  have hlt : a < h.length := by
    rcases List.getElem?_eq_some.1 hn with ⟨hl, _⟩
    exact hl
  simp [List.getElem?_set, hlt]

theorem get_set_ne {h : List (Node K V)} {a b : Nat} (x : Node K V) (hab : a ≠ b) :
    (h.set a x)[b]? = h[b]? := by
  simp [List.getElem?_set, hab]

theorem store_some {h : List (Node K V)} {a : Nat} {n : Node K V} (f : Node K V → Node K V)
    (hn : h[a]? = some n) : store h (some a) f = some (h.set a (f n)) := by
  simp [store, hn]

theorem lt_length_of_get {h : List (Node K V)} {a : Nat} {n : Node K V} (hn : h[a]? = some n) :
    a < h.length := by
  rcases List.getElem?_eq_some.1 hn with ⟨hl, _⟩
  exact hl

namespace Tree

@[simp]
theorem ptr_nil : (nil : Tree K V).ptr = none := rfl

@[simp]
theorem ptr_node (a : Nat) (l r : Tree K V) (k : K) (v : V) :
    (node a l k v r).ptr = some a := rfl

theorem ptr_eq_none {t : Tree K V} : t.ptr = none ↔ t = nil := by
  cases t <;> simp [ptr]

theorem ptr_mem_addrs {t : Tree K V} {a : Nat} (h : t.ptr = some a) : a ∈ t.addrs := by
  cases t with
  | nil => simp [ptr] at h
  | node b l k v r =>
    simp only [ptr, Option.some.injEq] at h
    simp [addrs, h]

theorem length_addrs (t : Tree K V) : t.addrs.length = t.size := by
  induction t with
  | nil => rfl
  | node a l k v r ihl ihr => simp [addrs, size, ihl, ihr]; omega

theorem length_toList (t : Tree K V) : t.toList.length = t.size := by
  induction t with
  | nil => rfl
  | node a l k v r ihl ihr => simp [toList, size, ihl, ihr]; omega

theorem height_le_size (t : Tree K V) : t.height ≤ t.size := by
  induction t with
  | nil => simp [height, size]
  | node a l k v r ihl ihr => simp only [height, size]; omega

/-- A heap that agrees with `h` on the nodes of `t` holds `t` as well. -/
theorem Rep.congr {h h1 : List (Node K V)} {t : Tree K V} :
    ∀ {par : Option Nat}, (∀ a ∈ t.addrs, h1[a]? = h[a]?) → t.Rep h par → t.Rep h1 par := by
  induction t with
  | nil => intro _ _ _; trivial
  | node a l k v r ihl ihr =>
    intro par hag hrep
    simp only [Rep] at hrep ⊢
    refine ⟨?_, ihl ?_ hrep.2.1, ihr ?_ hrep.2.2⟩
    · rw [hag a (by simp [addrs])]; exact hrep.1
    · intro b hb; exact hag b (by simp [addrs, hb])
    · intro b hb; exact hag b (by simp [addrs, hb])

theorem Rep.lt_length {h : List (Node K V)} {t : Tree K V} :
    ∀ {par : Option Nat}, t.Rep h par → ∀ a ∈ t.addrs, a < h.length := by
  induction t with
  | nil => intro _ _ a ha; simp [addrs] at ha
  | node a l k v r ihl ihr =>
    intro par hrep b hb
    simp only [Rep] at hrep
    simp only [addrs, List.mem_cons, List.mem_append] at hb
    rcases hb with rfl | hb | hb
    · exact lt_length_of_get hrep.1
    · exact ihl hrep.2.1 b hb
    · exact ihr hrep.2.2 b hb

/-- Rewriting the parent link of the root of `t`, and nothing else of `t`, hangs `t`
below another parent. -/
theorem Rep.reparent {h h1 : List (Node K V)} {t : Tree K V} {par par1 : Option Nat}
    (hrep : t.Rep h par) (hnd : t.addrs.Nodup)
    (hroot : ∀ a n, t.ptr = some a → h[a]? = some n →
      h1[a]? = some { n with parent := par1 })
    (hrest : ∀ a ∈ t.addrs, some a ≠ t.ptr → h1[a]? = h[a]?) : t.Rep h1 par1 := by
  cases t with
  | nil => trivial
  | node a l k v r =>
    simp only [Rep] at hrep ⊢
    simp only [addrs, List.nodup_cons, List.mem_append, not_or, List.nodup_append] at hnd
    refine ⟨?_, ?_, ?_⟩
    · rw [hroot a _ rfl hrep.1]
    · refine Rep.congr ?_ hrep.2.1
      intro b hb
      refine hrest b (by simp [addrs, hb]) ?_
      simp only [ptr, ne_eq, Option.some.injEq]
      rintro rfl; exact hnd.1.1 hb
    · refine Rep.congr ?_ hrep.2.2
      intro b hb
      refine hrest b (by simp [addrs, hb]) ?_
      simp only [ptr, ne_eq, Option.some.injEq]
      rintro rfl; exact hnd.1.2 hb

theorem Rep.deref_ptr {h : List (Node K V)} {a : Nat} {l r : Tree K V} {k : K} {v : V}
    {par : Option Nat}
    (hrep : (node a l k v r).Rep h par) : h[a]? = some ⟨k, v, par, l.ptr, r.ptr⟩ := hrep.1

end Tree

/-! ## Paths -/

theorem Frame.plug_ptr (f : Frame K V) (s : Tree K V) : (f.plug s).ptr = some f.a := by
  unfold Frame.plug; split <;> rfl

theorem Frame.plug_toList (f : Frame K V) (s : Tree K V) :
    (f.plug s).toList = f.pre ++ s.toList ++ f.post := by
  unfold Frame.plug Frame.pre Frame.post
  split <;> simp [Tree.toList]

theorem Frame.plug_addrs (f : Frame K V) (s : Tree K V) :
    (f.plug s).addrs.Perm (s.addrs ++ f.addrs) := by
  unfold Frame.plug Frame.addrs
  split
  · rw [List.perm_iff_count]
    intro a
    simp only [Tree.addrs, List.count_append, List.count_cons]
    omega
  · rw [List.perm_iff_count]
    intro a
    simp only [Tree.addrs, List.count_append, List.count_cons]
    omega

theorem Frame.plug_size (f : Frame K V) (s : Tree K V) :
    (f.plug s).size = s.size + 1 + f.sib.size := by
  unfold Frame.plug
  split
  · simp only [Tree.size]
  · simp only [Tree.size]; omega

theorem Frame.plug_rep {h : List (Node K V)} (f : Frame K V) (s : Tree K V) (par : Option Nat) :
    (f.plug s).Rep h par ↔
      h[f.a]? = some ⟨f.k, f.v, par, if f.isLeft then s.ptr else f.sib.ptr,
        if f.isLeft then f.sib.ptr else s.ptr⟩ ∧
      f.sib.Rep h (some f.a) ∧ s.Rep h (some f.a) := by
  unfold Frame.plug
  split
  · simp only [Tree.Rep]; tauto
  · simp only [Tree.Rep]

theorem ptr_plug_cons (f : Frame K V) (fs : List (Frame K V)) (s : Tree K V) :
    ∃ a, (plug (f :: fs) s).ptr = some a := by
  induction fs generalizing f s with
  | nil => exact ⟨f.a, by simp [plug, Frame.plug_ptr]⟩
  | cons g gs ih => exact ih g (f.plug s)

theorem toList_plug (path : List (Frame K V)) (s : Tree K V) :
    (plug path s).toList = pathPre path ++ s.toList ++ pathPost path := by
  induction path generalizing s with
  | nil => simp [plug, pathPre, pathPost]
  | cons f fs ih => simp [plug, pathPre, pathPost, ih, Frame.plug_toList]

theorem addrs_plug (path : List (Frame K V)) (s : Tree K V) :
    (plug path s).addrs.Perm (s.addrs ++ pathAddrs path) := by
  induction path generalizing s with
  | nil => simp [plug, pathAddrs]
  | cons f fs ih =>
    simp only [plug, pathAddrs]
    refine (ih (f.plug s)).trans ?_
    rw [← List.append_assoc]
    exact List.Perm.append_right _ (f.plug_addrs s)

theorem size_plug (path : List (Frame K V)) (s : Tree K V) :
    s.size + path.length ≤ (plug path s).size := by
  induction path generalizing s with
  | nil => simp [plug]
  | cons f fs ih =>
    simp only [plug, List.length_cons]
    have := ih (f.plug s)
    rw [Frame.plug_size] at this
    omega

theorem rep_plug {h : List (Node K V)} (path : List (Frame K V)) (s : Tree K V) :
    (plug path s).Rep h none ↔ RepPath h path s.ptr ∧ s.Rep h (pathTop path) := by
  induction path generalizing s with
  | nil => simp [plug, RepPath, pathTop]
  | cons f fs ih =>
    simp only [plug, RepPath, pathTop, ih, Frame.plug_rep, Frame.plug_ptr]
    tauto

theorem RepPath.congr_heap {h h1 : List (Node K V)} {path : List (Frame K V)} {c : Option Nat}
    (hag : ∀ a ∈ pathAddrs path, h1[a]? = h[a]?) (hrep : RepPath h path c) :
    RepPath h1 path c := by
  induction path generalizing c with
  | nil => trivial
  | cons f fs ih =>
    simp only [RepPath] at hrep ⊢
    simp only [pathAddrs, Frame.addrs, List.mem_append, List.mem_cons] at hag
    refine ⟨?_, Tree.Rep.congr ?_ hrep.2.1, ih ?_ hrep.2.2⟩
    · rw [hag f.a (by simp)]; exact hrep.1
    · intro b hb; exact hag b (by simp [hb])
    · intro b hb; exact hag b (by simp [hb])

/-! ## The rotations on the heap -/

/-- Simplifying a sequence of heap operations proceeds from its first step. -/
@[congr]
theorem bind_head_congr {α β : Type} {x y : Option α} {f : α → Option β}
    (h : x = y) : Option.bind x f = Option.bind y f := by rw [h]

/-- The first branch of `rotateLeft`: the parent `p` of `e` is the root. -/
theorem rotateLeft_root_raw {m : TreeMap K V} {e p : Nat} {k pk : K} {v pv : V}
    {lp rp ps : Option Nat}
    (hroot : m.root = some p)
    (he : m.nodes[e]? = some ⟨k, v, some p, lp, rp⟩)
    (hp : m.nodes[p]? = some ⟨pk, pv, none, ps, some e⟩)
    (hep : e ≠ p)
    (hl : ∀ c, lp = some c → c ≠ e ∧ c ≠ p ∧ ∃ n, m.nodes[c]? = some n) :
    ∃ m1, rotateLeft m (some e) = some m1 ∧ m1.root = some e ∧ m1.size_ = m.size_ ∧
      m1.nodes.length = m.nodes.length ∧
      m1.nodes[e]? = some ⟨k, v, none, some p, rp⟩ ∧
      m1.nodes[p]? = some ⟨pk, pv, some e, ps, lp⟩ ∧
      (∀ c n, lp = some c → m.nodes[c]? = some n →
        m1.nodes[c]? = some { n with parent := some p }) ∧
      (∀ a, a ≠ e → a ≠ p → some a ≠ lp → m1.nodes[a]? = m.nodes[a]?) := by
  obtain ⟨h, root, sz⟩ := m
  simp only at hroot he hp hl ⊢
  subst hroot
  have hpe : p ≠ e := Ne.symm hep
  have h1 := lt_length_of_get he
  have h2 := lt_length_of_get hp
  cases lp with
  | none =>
    simp only [rotateLeft, isLeftChild, isRightChild, Option.bind_eq_bind, Option.pure_def]
    simp only [deref, store, he, hp, hep, hpe, h1, h2,
        List.getElem?_set, List.length_set, Option.some_bind, if_true, if_false,
        ↓reduceIte, Option.isSome_some, Option.isSome_none, Option.some.injEq, decide_True,
        decide_False, Bool.false_eq_true, ne_eq, not_false_eq_true, not_true_eq_false]
    refine ⟨_, rfl, rfl, rfl, ?_, ?_, ?_, ?_, ?_⟩
    · simp only [List.length_set]
    · simp only [List.getElem?_set, List.length_set, hpe, h1, ↓reduceIte]
    · simp only [List.getElem?_set, List.length_set, h2, ↓reduceIte]
    · intro c1 n1 hh; cases hh
    · intro a hae hap _
      simp only [List.getElem?_set, Ne.symm hae, Ne.symm hap, ↓reduceIte]
  | some c =>
    obtain ⟨hce, hcp, n, hc⟩ := hl c rfl
    have h3 := lt_length_of_get hc
    have hec := Ne.symm hce
    have hpc := Ne.symm hcp
    simp only [rotateLeft, isLeftChild, isRightChild, Option.bind_eq_bind, Option.pure_def]
    simp only [deref, store, he, hp, hep, hpe, hc, hce, hcp, hec, hpc, h1, h2, h3,
        List.getElem?_set, List.length_set, Option.some_bind, if_true, if_false,
        ↓reduceIte, Option.isSome_some, Option.isSome_none, Option.some.injEq, decide_True,
        decide_False, Bool.false_eq_true, ne_eq, not_false_eq_true, not_true_eq_false]
    refine ⟨_, rfl, rfl, rfl, ?_, ?_, ?_, ?_, ?_⟩
    · simp only [List.length_set]
    · simp only [List.getElem?_set, List.length_set, hpe, h1, ↓reduceIte]
    · simp only [List.getElem?_set, List.length_set, h2, ↓reduceIte]
    · rintro c1 n1 hh hn1
      cases hh
      rw [hc] at hn1
      cases hn1
      simp only [List.getElem?_set, List.length_set, hpc, hec, h3, ↓reduceIte]
    · intro a hae hap hac
      have hac1 : c ≠ a := fun hh => hac (by rw [hh])
      simp only [List.getElem?_set, Ne.symm hae, Ne.symm hap, hac1, ↓reduceIte]

/-- The second branch of `rotateLeft`: the parent `p` of `e` has a parent `g`. -/
theorem rotateLeft_inner_raw {m : TreeMap K V} {e p g : Nat} {k pk : K} {v pv : V}
    {lp rp ps : Option Nat} {gn : Node K V}
    (hroot : m.root ≠ some p)
    (he : m.nodes[e]? = some ⟨k, v, some p, lp, rp⟩)
    (hp : m.nodes[p]? = some ⟨pk, pv, some g, ps, some e⟩)
    (hg : m.nodes[g]? = some gn)
    (hgc : (gn.left = some p ∧ gn.right ≠ some p) ∨ (gn.left ≠ some p ∧ gn.right = some p))
    (hep : e ≠ p) (hge : g ≠ e) (hgp : g ≠ p)
    (hl : ∀ c, lp = some c → c ≠ e ∧ c ≠ p ∧ c ≠ g ∧ ∃ n, m.nodes[c]? = some n) :
    ∃ m1, rotateLeft m (some e) = some m1 ∧ m1.root = m.root ∧ m1.size_ = m.size_ ∧
      m1.nodes.length = m.nodes.length ∧
      m1.nodes[e]? = some ⟨k, v, some g, some p, rp⟩ ∧
      m1.nodes[p]? = some ⟨pk, pv, some e, ps, lp⟩ ∧
      m1.nodes[g]? = some { gn with
        left := if gn.left = some p then some e else gn.left
        right := if gn.right = some p then some e else gn.right } ∧
      (∀ c n, lp = some c → m.nodes[c]? = some n →
        m1.nodes[c]? = some { n with parent := some p }) ∧
      (∀ a, a ≠ e → a ≠ p → a ≠ g → some a ≠ lp → m1.nodes[a]? = m.nodes[a]?) := by
  obtain ⟨h, root, sz⟩ := m
  simp only at hroot he hp hg hl ⊢
  have hpe : p ≠ e := Ne.symm hep
  have heg : e ≠ g := Ne.symm hge
  have hpg : p ≠ g := Ne.symm hgp
  have h1 := lt_length_of_get he
  have h2 := lt_length_of_get hp
  have h3 := lt_length_of_get hg
  have hroot1 : ¬ (some p = root) := fun hh => hroot hh.symm
  cases lp with
  | none =>
    rcases hgc with ⟨hgl, hgr⟩ | ⟨hgl, hgr⟩
    all_goals
      simp only [rotateLeft, isLeftChild, isRightChild, Option.bind_eq_bind, Option.pure_def]
      simp only [deref, store, hroot1, he, hp, hg, hep, hpe, hge, hgp, heg, hpg, hgl, hgr, h1, h2, h3,
          List.getElem?_set, List.length_set, Option.some_bind, if_true, if_false,
          ↓reduceIte, Option.isSome_some, Option.isSome_none, Option.some.injEq, decide_True,
          decide_False, Bool.false_eq_true, ne_eq, not_false_eq_true, not_true_eq_false]
      refine ⟨_, rfl, rfl, rfl, ?_, ?_, ?_, ?_, ?_, ?_⟩
      · simp only [List.length_set]
      · simp only [List.getElem?_set, List.length_set, hpe, h1, ↓reduceIte]
      · simp only [List.getElem?_set, List.length_set, h2, ↓reduceIte]
      · simp only [List.getElem?_set, List.length_set, h3, hpg, heg, ↓reduceIte]
      · intro c1 n1 hh; cases hh
      · intro a hae hap hag _
        simp only [List.getElem?_set, Ne.symm hae, Ne.symm hap, Ne.symm hag, ↓reduceIte]
  | some c =>
    obtain ⟨hce, hcp, hcg, n, hc⟩ := hl c rfl
    have h4 := lt_length_of_get hc
    have hec := Ne.symm hce
    have hpc := Ne.symm hcp
    have hgc1 := Ne.symm hcg
    rcases hgc with ⟨hgl, hgr⟩ | ⟨hgl, hgr⟩
    all_goals
      simp only [rotateLeft, isLeftChild, isRightChild, Option.bind_eq_bind, Option.pure_def]
      simp only [deref, store, hroot1, he, hp, hg, hep, hpe, hge, hgp, heg, hpg, hgl, hgr, hc, hce, hcp,
          hcg, hec, hpc, hgc1, h1, h2, h3, h4,
          List.getElem?_set, List.length_set, Option.some_bind, if_true, if_false,
          ↓reduceIte, Option.isSome_some, Option.isSome_none, Option.some.injEq, decide_True,
          decide_False, Bool.false_eq_true, ne_eq, not_false_eq_true, not_true_eq_false]
      refine ⟨_, rfl, rfl, rfl, ?_, ?_, ?_, ?_, ?_, ?_⟩
      · simp only [List.length_set]
      · simp only [List.getElem?_set, List.length_set, hpe, h1, ↓reduceIte]
      · simp only [List.getElem?_set, List.length_set, h2, ↓reduceIte]
      · simp only [List.getElem?_set, List.length_set, h3, hpg, heg, hcg, ↓reduceIte]
      · rintro c1 n1 hh hn1
        cases hh
        rw [hc] at hn1
        cases hn1
        simp only [List.getElem?_set, List.length_set, hpc, hec, h4, ↓reduceIte]
      · intro a hae hap hag hac
        have hac1 : c ≠ a := fun hh => hac (by rw [hh])
        simp only [List.getElem?_set, Ne.symm hae, Ne.symm hap, Ne.symm hag, hac1, ↓reduceIte]

/-- The first branch of `rotateRight`: the parent `p` of `e` is the root. -/
theorem rotateRight_root_raw {m : TreeMap K V} {e p : Nat} {k pk : K} {v pv : V}
    {lp rp ps : Option Nat}
    (hroot : m.root = some p)
    (he : m.nodes[e]? = some ⟨k, v, some p, lp, rp⟩)
    (hp : m.nodes[p]? = some ⟨pk, pv, none, some e, ps⟩)
    (hep : e ≠ p)
    (hl : ∀ c, rp = some c → c ≠ e ∧ c ≠ p ∧ ∃ n, m.nodes[c]? = some n) :
    ∃ m1, rotateRight m (some e) = some m1 ∧ m1.root = some e ∧ m1.size_ = m.size_ ∧
      m1.nodes.length = m.nodes.length ∧
      m1.nodes[e]? = some ⟨k, v, none, lp, some p⟩ ∧
      m1.nodes[p]? = some ⟨pk, pv, some e, rp, ps⟩ ∧
      (∀ c n, rp = some c → m.nodes[c]? = some n →
        m1.nodes[c]? = some { n with parent := some p }) ∧
      (∀ a, a ≠ e → a ≠ p → some a ≠ rp → m1.nodes[a]? = m.nodes[a]?) := by
  obtain ⟨h, root, sz⟩ := m
  simp only at hroot he hp hl ⊢
  subst hroot
  have hpe : p ≠ e := Ne.symm hep
  have h1 := lt_length_of_get he
  have h2 := lt_length_of_get hp
  cases rp with
  | none =>
    simp only [rotateRight, isLeftChild, isRightChild, Option.bind_eq_bind, Option.pure_def]
    simp only [deref, store, he, hp, hep, hpe, h1, h2,
        List.getElem?_set, List.length_set, Option.some_bind, if_true, if_false,
        ↓reduceIte, Option.isSome_some, Option.isSome_none, Option.some.injEq, decide_True,
        decide_False, Bool.false_eq_true, ne_eq, not_false_eq_true, not_true_eq_false]
    refine ⟨_, rfl, rfl, rfl, ?_, ?_, ?_, ?_, ?_⟩
    · simp only [List.length_set]
    · simp only [List.getElem?_set, List.length_set, hpe, h1, ↓reduceIte]
    · simp only [List.getElem?_set, List.length_set, h2, ↓reduceIte]
    · intro c1 n1 hh; cases hh
    · intro a hae hap _
      simp only [List.getElem?_set, Ne.symm hae, Ne.symm hap, ↓reduceIte]
  | some c =>
    obtain ⟨hce, hcp, n, hc⟩ := hl c rfl
    have h3 := lt_length_of_get hc
    have hec := Ne.symm hce
    have hpc := Ne.symm hcp
    simp only [rotateRight, isLeftChild, isRightChild, Option.bind_eq_bind, Option.pure_def]
    simp only [deref, store, he, hp, hep, hpe, hc, hce, hcp, hec, hpc, h1, h2, h3,
        List.getElem?_set, List.length_set, Option.some_bind, if_true, if_false,
        ↓reduceIte, Option.isSome_some, Option.isSome_none, Option.some.injEq, decide_True,
        decide_False, Bool.false_eq_true, ne_eq, not_false_eq_true, not_true_eq_false]
    refine ⟨_, rfl, rfl, rfl, ?_, ?_, ?_, ?_, ?_⟩
    · simp only [List.length_set]
    · simp only [List.getElem?_set, List.length_set, hpe, h1, ↓reduceIte]
    · simp only [List.getElem?_set, List.length_set, h2, ↓reduceIte]
    · rintro c1 n1 hh hn1
      cases hh
      rw [hc] at hn1
      cases hn1
      simp only [List.getElem?_set, List.length_set, hpc, hec, h3, ↓reduceIte]
    · intro a hae hap hac
      have hac1 : c ≠ a := fun hh => hac (by rw [hh])
      simp only [List.getElem?_set, Ne.symm hae, Ne.symm hap, hac1, ↓reduceIte]

/-- The second branch of `rotateRight`: the parent `p` of `e` has a parent `g`. -/
theorem rotateRight_inner_raw {m : TreeMap K V} {e p g : Nat} {k pk : K} {v pv : V}
    {lp rp ps : Option Nat} {gn : Node K V}
    (hroot : m.root ≠ some p)
    (he : m.nodes[e]? = some ⟨k, v, some p, lp, rp⟩)
    (hp : m.nodes[p]? = some ⟨pk, pv, some g, some e, ps⟩)
    (hg : m.nodes[g]? = some gn)
    (hgc : (gn.left = some p ∧ gn.right ≠ some p) ∨ (gn.left ≠ some p ∧ gn.right = some p))
    (hep : e ≠ p) (hge : g ≠ e) (hgp : g ≠ p)
    (hl : ∀ c, rp = some c → c ≠ e ∧ c ≠ p ∧ c ≠ g ∧ ∃ n, m.nodes[c]? = some n) :
    ∃ m1, rotateRight m (some e) = some m1 ∧ m1.root = m.root ∧ m1.size_ = m.size_ ∧
      m1.nodes.length = m.nodes.length ∧
      m1.nodes[e]? = some ⟨k, v, some g, lp, some p⟩ ∧
      m1.nodes[p]? = some ⟨pk, pv, some e, rp, ps⟩ ∧
      m1.nodes[g]? = some { gn with
        left := if gn.left = some p then some e else gn.left
        right := if gn.right = some p then some e else gn.right } ∧
      (∀ c n, rp = some c → m.nodes[c]? = some n →
        m1.nodes[c]? = some { n with parent := some p }) ∧
      (∀ a, a ≠ e → a ≠ p → a ≠ g → some a ≠ rp → m1.nodes[a]? = m.nodes[a]?) := by
  obtain ⟨h, root, sz⟩ := m
  simp only at hroot he hp hg hl ⊢
  have hpe : p ≠ e := Ne.symm hep
  have heg : e ≠ g := Ne.symm hge
  have hpg : p ≠ g := Ne.symm hgp
  have h1 := lt_length_of_get he
  have h2 := lt_length_of_get hp
  have h3 := lt_length_of_get hg
  have hroot1 : ¬ (some p = root) := fun hh => hroot hh.symm
  cases rp with
  | none =>
    rcases hgc with ⟨hgl, hgr⟩ | ⟨hgl, hgr⟩
    all_goals
      simp only [rotateRight, isLeftChild, isRightChild, Option.bind_eq_bind, Option.pure_def]
      simp only [deref, store, hroot1, he, hp, hg, hep, hpe, hge, hgp, heg, hpg, hgl, hgr, h1, h2, h3,
          List.getElem?_set, List.length_set, Option.some_bind, if_true, if_false,
          ↓reduceIte, Option.isSome_some, Option.isSome_none, Option.some.injEq, decide_True,
          decide_False, Bool.false_eq_true, ne_eq, not_false_eq_true, not_true_eq_false]
      refine ⟨_, rfl, rfl, rfl, ?_, ?_, ?_, ?_, ?_, ?_⟩
      · simp only [List.length_set]
      · simp only [List.getElem?_set, List.length_set, hpe, h1, ↓reduceIte]
      · simp only [List.getElem?_set, List.length_set, h2, ↓reduceIte]
      · simp only [List.getElem?_set, List.length_set, h3, hpg, heg, ↓reduceIte]
      · intro c1 n1 hh; cases hh
      · intro a hae hap hag _
        simp only [List.getElem?_set, Ne.symm hae, Ne.symm hap, Ne.symm hag, ↓reduceIte]
  | some c =>
    obtain ⟨hce, hcp, hcg, n, hc⟩ := hl c rfl
    have h4 := lt_length_of_get hc
    have hec := Ne.symm hce
    have hpc := Ne.symm hcp
    have hgc1 := Ne.symm hcg
    rcases hgc with ⟨hgl, hgr⟩ | ⟨hgl, hgr⟩
    all_goals
      simp only [rotateRight, isLeftChild, isRightChild, Option.bind_eq_bind, Option.pure_def]
      simp only [deref, store, hroot1, he, hp, hg, hep, hpe, hge, hgp, heg, hpg, hgl, hgr, hc, hce, hcp,
          hcg, hec, hpc, hgc1, h1, h2, h3, h4,
          List.getElem?_set, List.length_set, Option.some_bind, if_true, if_false,
          ↓reduceIte, Option.isSome_some, Option.isSome_none, Option.some.injEq, decide_True,
          decide_False, Bool.false_eq_true, ne_eq, not_false_eq_true, not_true_eq_false]
      refine ⟨_, rfl, rfl, rfl, ?_, ?_, ?_, ?_, ?_, ?_⟩
      · simp only [List.length_set]
      · simp only [List.getElem?_set, List.length_set, hpe, h1, ↓reduceIte]
      · simp only [List.getElem?_set, List.length_set, h2, ↓reduceIte]
      · simp only [List.getElem?_set, List.length_set, h3, hpg, heg, hcg, ↓reduceIte]
      · rintro c1 n1 hh hn1
        cases hh
        rw [hc] at hn1
        cases hn1
        simp only [List.getElem?_set, List.length_set, hpc, hec, h4, ↓reduceIte]
      · intro a hae hap hag hac
        have hac1 : c ≠ a := fun hh => hac (by rw [hh])
        simp only [List.getElem?_set, Ne.symm hae, Ne.symm hap, Ne.symm hag, hac1, ↓reduceIte]

/-! ## The rotations on the tree a heap represents -/

theorem ptr_plug_congr (f : Frame K V) (fs : List (Frame K V)) (s s1 : Tree K V) :
    (plug (f :: fs) s).ptr = (plug (f :: fs) s1).ptr := by
  induction fs generalizing f s s1 with
  | nil => simp [plug, Frame.plug_ptr]
  | cons g gs ih => exact ih g (f.plug s) (f.plug s1)

theorem ptr_plug_mem (f : Frame K V) (fs : List (Frame K V)) (s : Tree K V) :
    ∃ a ∈ pathAddrs (f :: fs), (plug (f :: fs) s).ptr = some a := by
  induction fs generalizing f s with
  | nil => exact ⟨f.a, by simp [pathAddrs, Frame.addrs], by simp [plug, Frame.plug_ptr]⟩
  | cons g gs ih =>
    obtain ⟨a, ha, he⟩ := ih g (f.plug s)
    refine ⟨a, ?_, he⟩
    simp only [pathAddrs] at ha ⊢
    exact List.mem_append_right _ ha

theorem rotUp_ptr (f : Frame K V) (e : Nat) (l r : Tree K V) (k : K) (v : V) :
    (rotUp f (.node e l k v r)).ptr = some e := by
  simp only [rotUp]; split <;> rfl

theorem rotUp_addrs (f : Frame K V) (e : Nat) (l r : Tree K V) (k : K) (v : V) :
    (rotUp f (.node e l k v r)).addrs.Perm ((Tree.node e l k v r).addrs ++ f.addrs) := by
  simp only [rotUp, Frame.addrs]
  split
  · rw [List.perm_iff_count]
    intro a
    simp only [Tree.addrs, List.count_append, List.count_cons]
    omega
  · rw [List.perm_iff_count]
    intro a
    simp only [Tree.addrs, List.count_append, List.count_cons]
    omega

theorem rotUp_toList (f : Frame K V) (e : Nat) (l r : Tree K V) (k : K) (v : V) :
    (rotUp f (.node e l k v r)).toList = (f.plug (.node e l k v r)).toList := by
  simp only [rotUp, Frame.plug]
  split <;> simp [Tree.toList]

theorem Tree.ptr_ne_of_not_mem {t : Tree K V} {a : Nat} (h : a ∉ t.addrs) : t.ptr ≠ some a :=
  fun hh => h (Tree.ptr_mem_addrs hh)

/-- The method `rotateLeft` at a child of the root performs the rotation `rotUp` on the tree. -/
theorem rotateLeft_models_root {m : TreeMap K V} {f : Frame K V}
    {e : Nat} {l r : Tree K V} {k : K} {v : V}
    (hf : f.isLeft = false)
    (hm : Models m (plug [f] (.node e l k v r))) :
    ∃ m1, rotateLeft m (some e) = some m1 ∧
      Models m1 (rotUp f (.node e l k v r)) ∧ m1.size_ = m.size_ ∧
      m1.nodes.length = m.nodes.length ∧
      ∀ a, a ∉ (plug [f] (.node e l k v r)).addrs → m1.nodes[a]? = m.nodes[a]? := by
  obtain ⟨hroot, hrep, hnd⟩ := hm
  have hnd1 := (addrs_plug _ _).nodup_iff.1 hnd
  rw [rep_plug] at hrep
  simp only [RepPath, pathTop, hf, Tree.Rep, Tree.ptr_node, Bool.false_eq_true,
    if_false, if_true, and_true] at hrep
  obtain ⟨⟨hp, hsib⟩, he, hl, hr⟩ := hrep
  have hnd2 := hnd1
  simp only [pathAddrs, Frame.addrs, Tree.addrs, List.nodup_cons,
    List.nodup_append, List.mem_append, List.mem_cons, not_or, List.disjoint_cons_right,
    List.disjoint_cons_left, List.cons_append, List.append_nil,
    List.disjoint_append_right, List.disjoint_append_left] at hnd1
  obtain ⟨⟨⟨hel, her⟩, hef, hefs⟩, ⟨hnl, hnr, hlr⟩, ⟨hffs, hnfs⟩, ⟨hfl, hfr⟩, hlfs, hrfs⟩ := hnd1
  simp only [plug, Frame.plug_ptr] at hroot
  obtain ⟨m1, hrot, hroot1, hsz, hlen, he1, hp1, hc1, hfrm⟩ :=
    rotateLeft_root_raw hroot he hp hef (by
      intro c hc
      have hcl := Tree.ptr_mem_addrs hc
      refine ⟨?_, ?_, ?_⟩
      · rintro rfl; exact hel hcl
      · rintro rfl; exact hfl hcl
      · have := Tree.Rep.lt_length hl c hcl
        exact ⟨_, List.getElem?_eq_getElem this⟩)
  refine ⟨m1, hrot, ⟨?_, ?_, ?_⟩, hsz, hlen, ?_⟩
  rotate_right
  · intro a ha
    have ha1 : a ∉ (Tree.node e l k v r).addrs ++ pathAddrs [f] :=
      fun h => ha ((addrs_plug _ _).mem_iff.2 h)
    have hae : a ≠ e := by rintro rfl; exact ha1 (by simp [Tree.addrs])
    have haf : a ≠ f.a := by rintro rfl; exact ha1 (by simp [pathAddrs, Frame.addrs])
    have hal : a ∉ l.addrs := fun h => ha1 (by simp [Tree.addrs, h])
    exact hfrm a hae haf (fun hh => hal (Tree.ptr_mem_addrs hh.symm))
  · rw [hroot1, rotUp_ptr]
  · simp only [rotUp, hf, Bool.false_eq_true, if_false, if_true, Tree.Rep, Tree.ptr_node]
    refine ⟨he1, ⟨hp1, ?sib, ?moved⟩, ?kept⟩
    case sib =>
      refine Tree.Rep.congr ?_ hsib
      intro a ha
      refine hfrm a ?_ ?_ ?_
      · rintro rfl; exact hefs ha
      · rintro rfl; exact hffs ha
      · intro hh; exact hlfs (Tree.ptr_mem_addrs hh.symm) ha
    case moved =>
      refine Tree.Rep.reparent hl hnl ?_ ?_
      · intro a n ha hn; exact hc1 a n ha hn
      · intro a ha hne
        refine hfrm a ?_ ?_ hne
        · rintro rfl; exact hel ha
        · rintro rfl; exact hfl ha
    case kept =>
      refine Tree.Rep.congr ?_ hr
      intro a ha
      refine hfrm a ?_ ?_ ?_
      · rintro rfl; exact her ha
      · rintro rfl; exact hfr ha
      · intro hh; exact hlr (Tree.ptr_mem_addrs hh.symm) ha
  · refine (List.Perm.nodup_iff ?_).2 hnd2
    rw [List.perm_iff_count]
    intro a
    have hc := (rotUp_addrs f e l r k v).count_eq a
    simp only [pathAddrs, List.count_append, List.append_nil] at hc ⊢
    omega

/-- The method `rotateLeft` below the root performs the rotation `rotUp` on the tree. -/
theorem rotateLeft_models_inner {m : TreeMap K V} {f g : Frame K V} {rest : List (Frame K V)}
    {e : Nat} {l r : Tree K V} {k : K} {v : V}
    (hf : f.isLeft = false)
    (hm : Models m (plug (f :: g :: rest) (.node e l k v r))) :
    ∃ m1, rotateLeft m (some e) = some m1 ∧
      Models m1 (plug (g :: rest) (rotUp f (.node e l k v r))) ∧ m1.size_ = m.size_ ∧
      m1.nodes.length = m.nodes.length ∧
      ∀ a, a ∉ (plug (f :: g :: rest) (.node e l k v r)).addrs →
        m1.nodes[a]? = m.nodes[a]? := by
  obtain ⟨hroot, hrep, hnd⟩ := hm
  have hnd1 := (addrs_plug _ _).nodup_iff.1 hnd
  rw [rep_plug] at hrep
  simp only [RepPath, pathTop, hf, Tree.Rep, Tree.ptr_node, Bool.false_eq_true,
    if_false, if_true] at hrep
  obtain ⟨⟨hp, hsib, hg, hgsib, hrest⟩, he, hl, hr⟩ := hrep
  have hnd2 := hnd1
  simp only [pathAddrs, Frame.addrs, Tree.addrs, List.nodup_cons,
    List.nodup_append, List.mem_append, List.mem_cons, not_or, List.disjoint_cons_right,
    List.disjoint_cons_left, List.cons_append,
    List.disjoint_append_right, List.disjoint_append_left] at hnd1
  obtain ⟨⟨⟨hel, her⟩, hef, hefs, heg, hegs, herest⟩, ⟨hnl, hnr, hlr⟩,
    ⟨⟨hffs, hfg, hfgs, hfrest⟩, hnfs, ⟨⟨hggs, hgrest⟩, hngs, hnrest, hgsrest⟩, hgfs, hfsgs,
      hfsrest⟩, ⟨hfl, hfr⟩, ⟨hlfs, hrfs⟩, ⟨hgl, hgr⟩, ⟨hlgs, hrgs⟩, hlrest, hrrest⟩ := hnd1
  have hroot0 : m.root ≠ some f.a := by
    obtain ⟨a, ha, hpa⟩ := ptr_plug_mem g rest (f.plug (.node e l k v r))
    rw [hroot]
    simp only [plug] at hpa ⊢
    rw [hpa]
    simp only [pathAddrs, Frame.addrs, List.mem_append, List.mem_cons] at ha
    simp only [ne_eq, Option.some.injEq]
    rintro rfl
    rcases ha with (ha | ha) | ha
    · exact hfg ha
    · exact hfgs ha
    · exact hfrest ha
  have hgs : g.sib.ptr ≠ some f.a := Tree.ptr_ne_of_not_mem hfgs
  obtain ⟨m1, hrot, hroot1, hsz, hlen, he1, hp1, hg1, hc1, hfrm⟩ :=
    rotateLeft_inner_raw hroot0 he hp hg (by
      cases g.isLeft
      · right; simp only [Bool.false_eq_true, if_false]; exact ⟨hgs, trivial⟩
      · left; simp only [if_true]; exact ⟨trivial, hgs⟩)
      hef (Ne.symm heg) (Ne.symm hfg) (by
      intro c hc
      have hcl := Tree.ptr_mem_addrs hc
      refine ⟨?_, ?_, ?_, ?_⟩
      · rintro rfl; exact hel hcl
      · rintro rfl; exact hfl hcl
      · rintro rfl; exact hgl hcl
      · have := Tree.Rep.lt_length hl c hcl
        exact ⟨_, List.getElem?_eq_getElem this⟩)
  refine ⟨m1, hrot, ⟨?_, ?_, ?_⟩, hsz, hlen, ?_⟩
  rotate_right
  · intro a ha
    have ha1 : a ∉ (Tree.node e l k v r).addrs ++ pathAddrs (f :: g :: rest) :=
      fun h => ha ((addrs_plug _ _).mem_iff.2 h)
    have hae : a ≠ e := by rintro rfl; exact ha1 (by simp [Tree.addrs])
    have haf : a ≠ f.a := by rintro rfl; exact ha1 (by simp [pathAddrs, Frame.addrs])
    have hag : a ≠ g.a := by rintro rfl; exact ha1 (by simp [pathAddrs, Frame.addrs])
    have hal : a ∉ l.addrs := fun h => ha1 (by simp [Tree.addrs, h])
    exact hfrm a hae haf hag (fun hh => hal (Tree.ptr_mem_addrs hh.symm))
  · rw [hroot1, hroot]
    exact ptr_plug_congr g rest _ _
  · rw [rep_plug]
    simp only [RepPath, pathTop, rotUp_ptr]
    refine ⟨⟨?_, ?_, ?_⟩, ?_⟩
    · rw [hg1]
      cases g.isLeft
      · simp only [Bool.false_eq_true, if_false, if_true, hgs]
      · simp only [if_true, hgs, if_false]
    · refine Tree.Rep.congr ?_ hgsib
      intro a ha
      refine hfrm a ?_ ?_ ?_ ?_
      · rintro rfl; exact hegs ha
      · rintro rfl; exact hfgs ha
      · rintro rfl; exact hggs ha
      · intro hh; exact hlgs (Tree.ptr_mem_addrs hh.symm) ha
    · refine RepPath.congr_heap ?_ hrest
      intro a ha
      refine hfrm a ?_ ?_ ?_ ?_
      · rintro rfl; exact herest ha
      · rintro rfl; exact hfrest ha
      · rintro rfl; exact hgrest ha
      · intro hh; exact hlrest (Tree.ptr_mem_addrs hh.symm) ha
    · simp only [rotUp, hf, Bool.false_eq_true, if_false, if_true, Tree.Rep, Tree.ptr_node]
      refine ⟨he1, ⟨hp1, ?sib, ?moved⟩, ?kept⟩
      case sib =>
        refine Tree.Rep.congr ?_ hsib
        intro a ha
        refine hfrm a ?_ ?_ ?_ ?_
        · rintro rfl; exact hefs ha
        · rintro rfl; exact hffs ha
        · rintro rfl; exact hgfs ha
        · intro hh; exact hlfs (Tree.ptr_mem_addrs hh.symm) ha
      case moved =>
        refine Tree.Rep.reparent hl hnl ?_ ?_
        · intro a n ha hn; exact hc1 a n ha hn
        · intro a ha hne
          refine hfrm a ?_ ?_ ?_ hne
          · rintro rfl; exact hel ha
          · rintro rfl; exact hfl ha
          · rintro rfl; exact hgl ha
      case kept =>
        refine Tree.Rep.congr ?_ hr
        intro a ha
        refine hfrm a ?_ ?_ ?_ ?_
        · rintro rfl; exact her ha
        · rintro rfl; exact hfr ha
        · rintro rfl; exact hgr ha
        · intro hh; exact hlr (Tree.ptr_mem_addrs hh.symm) ha
  · refine (addrs_plug _ _).nodup_iff.2 ?_
    refine (List.Perm.nodup_iff ?_).2 hnd2
    rw [List.perm_iff_count]
    intro a
    have hc := (rotUp_addrs f e l r k v).count_eq a
    simp only [pathAddrs, List.count_append] at hc ⊢
    omega

/-- The method `rotateRight` at a child of the root performs the rotation `rotUp` on the tree. -/
theorem rotateRight_models_root {m : TreeMap K V} {f : Frame K V}
    {e : Nat} {l r : Tree K V} {k : K} {v : V}
    (hf : f.isLeft = true)
    (hm : Models m (plug [f] (.node e l k v r))) :
    ∃ m1, rotateRight m (some e) = some m1 ∧
      Models m1 (rotUp f (.node e l k v r)) ∧ m1.size_ = m.size_ ∧
      m1.nodes.length = m.nodes.length ∧
      ∀ a, a ∉ (plug [f] (.node e l k v r)).addrs → m1.nodes[a]? = m.nodes[a]? := by
  obtain ⟨hroot, hrep, hnd⟩ := hm
  have hnd1 := (addrs_plug _ _).nodup_iff.1 hnd
  rw [rep_plug] at hrep
  simp only [RepPath, pathTop, hf, Tree.Rep, Tree.ptr_node, Bool.false_eq_true,
    if_false, if_true, and_true] at hrep
  obtain ⟨⟨hp, hsib⟩, he, hl, hr⟩ := hrep
  have hnd2 := hnd1
  simp only [pathAddrs, Frame.addrs, Tree.addrs, List.nodup_cons,
    List.nodup_append, List.mem_append, List.mem_cons, not_or, List.disjoint_cons_right,
    List.disjoint_cons_left, List.cons_append, List.append_nil,
    List.disjoint_append_right, List.disjoint_append_left] at hnd1
  obtain ⟨⟨⟨hel, her⟩, hef, hefs⟩, ⟨hnl, hnr, hlr⟩, ⟨hffs, hnfs⟩, ⟨hfl, hfr⟩, hlfs, hrfs⟩ := hnd1
  simp only [plug, Frame.plug_ptr] at hroot
  obtain ⟨m1, hrot, hroot1, hsz, hlen, he1, hp1, hc1, hfrm⟩ :=
    rotateRight_root_raw hroot he hp hef (by
      intro c hc
      have hcl := Tree.ptr_mem_addrs hc
      refine ⟨?_, ?_, ?_⟩
      · rintro rfl; exact her hcl
      · rintro rfl; exact hfr hcl
      · have := Tree.Rep.lt_length hr c hcl
        exact ⟨_, List.getElem?_eq_getElem this⟩)
  refine ⟨m1, hrot, ⟨?_, ?_, ?_⟩, hsz, hlen, ?_⟩
  rotate_right
  · intro a ha
    have ha1 : a ∉ (Tree.node e l k v r).addrs ++ pathAddrs [f] :=
      fun h => ha ((addrs_plug _ _).mem_iff.2 h)
    have hae : a ≠ e := by rintro rfl; exact ha1 (by simp [Tree.addrs])
    have haf : a ≠ f.a := by rintro rfl; exact ha1 (by simp [pathAddrs, Frame.addrs])
    have har : a ∉ r.addrs := fun h => ha1 (by simp [Tree.addrs, h])
    exact hfrm a hae haf (fun hh => har (Tree.ptr_mem_addrs hh.symm))
  · rw [hroot1, rotUp_ptr]
  · simp only [rotUp, hf, Bool.false_eq_true, if_false, if_true, Tree.Rep, Tree.ptr_node]
    refine ⟨he1, ?kept, ⟨hp1, ?moved, ?sib⟩⟩
    case sib =>
      refine Tree.Rep.congr ?_ hsib
      intro a ha
      refine hfrm a ?_ ?_ ?_
      · rintro rfl; exact hefs ha
      · rintro rfl; exact hffs ha
      · intro hh; exact hrfs (Tree.ptr_mem_addrs hh.symm) ha
    case moved =>
      refine Tree.Rep.reparent hr hnr ?_ ?_
      · intro a n ha hn; exact hc1 a n ha hn
      · intro a ha hne
        refine hfrm a ?_ ?_ hne
        · rintro rfl; exact her ha
        · rintro rfl; exact hfr ha
    case kept =>
      refine Tree.Rep.congr ?_ hl
      intro a ha
      refine hfrm a ?_ ?_ ?_
      · rintro rfl; exact hel ha
      · rintro rfl; exact hfl ha
      · intro hh; exact hlr ha (Tree.ptr_mem_addrs hh.symm)
  · refine (List.Perm.nodup_iff ?_).2 hnd2
    rw [List.perm_iff_count]
    intro a
    have hc := (rotUp_addrs f e l r k v).count_eq a
    simp only [pathAddrs, List.count_append, List.append_nil] at hc ⊢
    omega

/-- The method `rotateRight` below the root performs the rotation `rotUp` on the tree. -/
theorem rotateRight_models_inner {m : TreeMap K V} {f g : Frame K V} {rest : List (Frame K V)}
    {e : Nat} {l r : Tree K V} {k : K} {v : V}
    (hf : f.isLeft = true)
    (hm : Models m (plug (f :: g :: rest) (.node e l k v r))) :
    ∃ m1, rotateRight m (some e) = some m1 ∧
      Models m1 (plug (g :: rest) (rotUp f (.node e l k v r))) ∧ m1.size_ = m.size_ ∧
      m1.nodes.length = m.nodes.length ∧
      ∀ a, a ∉ (plug (f :: g :: rest) (.node e l k v r)).addrs →
        m1.nodes[a]? = m.nodes[a]? := by
  obtain ⟨hroot, hrep, hnd⟩ := hm
  have hnd1 := (addrs_plug _ _).nodup_iff.1 hnd
  rw [rep_plug] at hrep
  simp only [RepPath, pathTop, hf, Tree.Rep, Tree.ptr_node, Bool.false_eq_true,
    if_false, if_true] at hrep
  obtain ⟨⟨hp, hsib, hg, hgsib, hrest⟩, he, hl, hr⟩ := hrep
  have hnd2 := hnd1
  simp only [pathAddrs, Frame.addrs, Tree.addrs, List.nodup_cons,
    List.nodup_append, List.mem_append, List.mem_cons, not_or, List.disjoint_cons_right,
    List.disjoint_cons_left, List.cons_append,
    List.disjoint_append_right, List.disjoint_append_left] at hnd1
  obtain ⟨⟨⟨hel, her⟩, hef, hefs, heg, hegs, herest⟩, ⟨hnl, hnr, hlr⟩,
    ⟨⟨hffs, hfg, hfgs, hfrest⟩, hnfs, ⟨⟨hggs, hgrest⟩, hngs, hnrest, hgsrest⟩, hgfs, hfsgs,
      hfsrest⟩, ⟨hfl, hfr⟩, ⟨hlfs, hrfs⟩, ⟨hgl, hgr⟩, ⟨hlgs, hrgs⟩, hlrest, hrrest⟩ := hnd1
  have hroot0 : m.root ≠ some f.a := by
    obtain ⟨a, ha, hpa⟩ := ptr_plug_mem g rest (f.plug (.node e l k v r))
    rw [hroot]
    simp only [plug] at hpa ⊢
    rw [hpa]
    simp only [pathAddrs, Frame.addrs, List.mem_append, List.mem_cons] at ha
    simp only [ne_eq, Option.some.injEq]
    rintro rfl
    rcases ha with (ha | ha) | ha
    · exact hfg ha
    · exact hfgs ha
    · exact hfrest ha
  have hgs : g.sib.ptr ≠ some f.a := Tree.ptr_ne_of_not_mem hfgs
  obtain ⟨m1, hrot, hroot1, hsz, hlen, he1, hp1, hg1, hc1, hfrm⟩ :=
    rotateRight_inner_raw hroot0 he hp hg (by
      cases g.isLeft
      · right; simp only [Bool.false_eq_true, if_false]; exact ⟨hgs, trivial⟩
      · left; simp only [if_true]; exact ⟨trivial, hgs⟩)
      hef (Ne.symm heg) (Ne.symm hfg) (by
      intro c hc
      have hcl := Tree.ptr_mem_addrs hc
      refine ⟨?_, ?_, ?_, ?_⟩
      · rintro rfl; exact her hcl
      · rintro rfl; exact hfr hcl
      · rintro rfl; exact hgr hcl
      · have := Tree.Rep.lt_length hr c hcl
        exact ⟨_, List.getElem?_eq_getElem this⟩)
  refine ⟨m1, hrot, ⟨?_, ?_, ?_⟩, hsz, hlen, ?_⟩
  rotate_right
  · intro a ha
    have ha1 : a ∉ (Tree.node e l k v r).addrs ++ pathAddrs (f :: g :: rest) :=
      fun h => ha ((addrs_plug _ _).mem_iff.2 h)
    have hae : a ≠ e := by rintro rfl; exact ha1 (by simp [Tree.addrs])
    have haf : a ≠ f.a := by rintro rfl; exact ha1 (by simp [pathAddrs, Frame.addrs])
    have hag : a ≠ g.a := by rintro rfl; exact ha1 (by simp [pathAddrs, Frame.addrs])
    have har : a ∉ r.addrs := fun h => ha1 (by simp [Tree.addrs, h])
    exact hfrm a hae haf hag (fun hh => har (Tree.ptr_mem_addrs hh.symm))
  · rw [hroot1, hroot]
    exact ptr_plug_congr g rest _ _
  · rw [rep_plug]
    simp only [RepPath, pathTop, rotUp_ptr]
    refine ⟨⟨?_, ?_, ?_⟩, ?_⟩
    · rw [hg1]
      cases g.isLeft
      · simp only [Bool.false_eq_true, if_false, if_true, hgs]
      · simp only [if_true, hgs, if_false]
    · refine Tree.Rep.congr ?_ hgsib
      intro a ha
      refine hfrm a ?_ ?_ ?_ ?_
      · rintro rfl; exact hegs ha
      · rintro rfl; exact hfgs ha
      · rintro rfl; exact hggs ha
      · intro hh; exact hrgs (Tree.ptr_mem_addrs hh.symm) ha
    · refine RepPath.congr_heap ?_ hrest
      intro a ha
      refine hfrm a ?_ ?_ ?_ ?_
      · rintro rfl; exact herest ha
      · rintro rfl; exact hfrest ha
      · rintro rfl; exact hgrest ha
      · intro hh; exact hrrest (Tree.ptr_mem_addrs hh.symm) ha
    · simp only [rotUp, hf, Bool.false_eq_true, if_false, if_true, Tree.Rep, Tree.ptr_node]
      refine ⟨he1, ?kept, ⟨hp1, ?moved, ?sib⟩⟩
      case sib =>
        refine Tree.Rep.congr ?_ hsib
        intro a ha
        refine hfrm a ?_ ?_ ?_ ?_
        · rintro rfl; exact hefs ha
        · rintro rfl; exact hffs ha
        · rintro rfl; exact hgfs ha
        · intro hh; exact hrfs (Tree.ptr_mem_addrs hh.symm) ha
      case moved =>
        refine Tree.Rep.reparent hr hnr ?_ ?_
        · intro a n ha hn; exact hc1 a n ha hn
        · intro a ha hne
          refine hfrm a ?_ ?_ ?_ hne
          · rintro rfl; exact her ha
          · rintro rfl; exact hfr ha
          · rintro rfl; exact hgr ha
      case kept =>
        refine Tree.Rep.congr ?_ hl
        intro a ha
        refine hfrm a ?_ ?_ ?_ ?_
        · rintro rfl; exact hel ha
        · rintro rfl; exact hfl ha
        · rintro rfl; exact hgl ha
        · intro hh; exact hlr ha (Tree.ptr_mem_addrs hh.symm)
  · refine (addrs_plug _ _).nodup_iff.2 ?_
    refine (List.Perm.nodup_iff ?_).2 hnd2
    rw [List.perm_iff_count]
    intro a
    have hc := (rotUp_addrs f e l r k v).count_eq a
    simp only [pathAddrs, List.count_append] at hc ⊢
    omega

theorem rotUp_node (f : Frame K V) (e : Nat) (l r : Tree K V) (k : K) (v : V) :
    ∃ l1 r1, rotUp f (.node e l k v r) = .node e l1 k v r1 := by
  simp only [rotUp]
  split
  · exact ⟨_, _, rfl⟩
  · exact ⟨_, _, rfl⟩

theorem rotUp_zigZig (f g : Frame K V) (s : Tree K V) (h : f.isLeft = g.isLeft) :
    rotUp g (f.plug s) = (f.zigZig g).plug s := by
  cases hf : f.isLeft
  · have hg : g.isLeft = false := by rw [← h, hf]
    simp [Frame.plug, Frame.zigZig, rotUp, hf, hg]
  · have hg : g.isLeft = true := by rw [← h, hf]
    simp [Frame.plug, Frame.zigZig, rotUp, hf, hg]

theorem addrs_plug_rotUp (f : Frame K V) (rest : List (Frame K V)) (e : Nat)
    (l r : Tree K V) (k : K) (v : V) :
    (plug rest (rotUp f (.node e l k v r))).addrs.Perm
      (plug (f :: rest) (.node e l k v r)).addrs := by
  refine (addrs_plug _ _).trans ((List.Perm.trans ?_ (addrs_plug _ _).symm))
  rw [List.perm_iff_count]
  intro a
  have hc := (rotUp_addrs f e l r k v).count_eq a
  simp only [pathAddrs, List.count_append] at hc ⊢
  omega

/-- A rotation of the node `e` over its parent, in the direction its side dictates,
performs `rotUp` on the tree. -/
theorem rotate_models {m : TreeMap K V} {f : Frame K V} {rest : List (Frame K V)}
    {e : Nat} {l r : Tree K V} {k : K} {v : V}
    (hm : Models m (plug (f :: rest) (.node e l k v r))) :
    ∃ m1, (if f.isLeft then rotateRight m (some e) else rotateLeft m (some e)) = some m1 ∧
      Models m1 (plug rest (rotUp f (.node e l k v r))) ∧ m1.size_ = m.size_ ∧
      m1.nodes.length = m.nodes.length ∧
      ∀ a, a ∉ (plug (f :: rest) (.node e l k v r)).addrs → m1.nodes[a]? = m.nodes[a]? := by
  cases hf : f.isLeft
  · simp only [Bool.false_eq_true, if_false]
    cases rest with
    | nil => exact rotateLeft_models_root hf hm
    | cons g rest => exact rotateLeft_models_inner hf hm
  · simp only [if_true]
    cases rest with
    | nil => exact rotateRight_models_root hf hm
    | cons g rest => exact rotateRight_models_inner hf hm

/-- The tree after one iteration of the loop of `splay`. -/
theorem splayStep_models {m : TreeMap K V} {f : Frame K V} {rest : List (Frame K V)}
    {e : Nat} {l r : Tree K V} {k : K} {v : V}
    (hm : Models m (plug (f :: rest) (.node e l k v r))) :
    ∃ m1, splayStep m (some e) = some m1 ∧ m1.size_ = m.size_ ∧
      m1.nodes.length = m.nodes.length ∧
      (∀ a, a ∉ (plug (f :: rest) (.node e l k v r)).addrs → m1.nodes[a]? = m.nodes[a]?) ∧
      match rest with
      | [] => Models m1 (rotUp f (.node e l k v r))
      | g :: rest1 =>
        Models m1 (plug rest1 (if f.isLeft = g.isLeft then rotUp (f.zigZig g) (.node e l k v r)
          else rotUp g (rotUp f (.node e l k v r)))) := by
  obtain ⟨hroot, hrep, hnd⟩ := id hm
  have hnd1 := (addrs_plug _ _).nodup_iff.1 hnd
  rw [rep_plug] at hrep
  cases rest with
  | nil =>
    simp only [RepPath, pathTop, Tree.Rep, Tree.ptr_node, and_true] at hrep
    obtain ⟨⟨hp, hsib⟩, he, hl, hr⟩ := hrep
    simp only [pathAddrs, Frame.addrs, Tree.addrs, List.nodup_cons,
      List.nodup_append, List.mem_append, List.mem_cons, not_or, List.disjoint_cons_right,
      List.disjoint_cons_left, List.cons_append, List.append_nil,
      List.disjoint_append_right, List.disjoint_append_left] at hnd1
    obtain ⟨⟨⟨hel, her⟩, hef, hefs⟩, -⟩ := hnd1
    simp only [plug, Frame.plug_ptr] at hroot
    obtain ⟨m1, hrot, hm1, hsz, hlen, hfrm⟩ := rotate_models hm
    refine ⟨m1, ?_, hsz, hlen, hfrm, hm1⟩
    rw [← hrot]
    have hse : f.sib.ptr ≠ some e := Tree.ptr_ne_of_not_mem hefs
    cases hf : f.isLeft
    · simp [splayStep, deref, he, hp, hroot, hf]
    · simp [splayStep, deref, he, hp, hroot, hf, hse, Ne.symm hse]
  | cons g rest1 =>
    simp only [RepPath, pathTop, Tree.Rep, Tree.ptr_node] at hrep
    obtain ⟨⟨hp, hsib, hg, hgsib, hrest⟩, he, hl, hr⟩ := hrep
    simp only [pathAddrs, Frame.addrs, Tree.addrs, List.nodup_cons,
      List.nodup_append, List.mem_append, List.mem_cons, not_or, List.disjoint_cons_right,
      List.disjoint_cons_left, List.cons_append,
      List.disjoint_append_right, List.disjoint_append_left] at hnd1
    obtain ⟨⟨⟨hel, her⟩, hef, hefs, heg, hegs, herest⟩, -,
      ⟨⟨hffs, hfg, hfgs, hfrest⟩, -⟩, -⟩ := hnd1
    have hroot0 : ¬ (some f.a = m.root) := by
      obtain ⟨a, ha, hpa⟩ := ptr_plug_mem g rest1 (f.plug (.node e l k v r))
      rw [hroot]
      simp only [plug] at hpa ⊢
      rw [hpa]
      simp only [pathAddrs, Frame.addrs, List.mem_append, List.mem_cons] at ha
      simp only [Option.some.injEq]
      rintro rfl
      rcases ha with (ha | ha) | ha
      · exact hfg ha
      · exact hfgs ha
      · exact hfrest ha
    have hse : f.sib.ptr ≠ some e := Tree.ptr_ne_of_not_mem hefs
    have hgs : g.sib.ptr ≠ some f.a := Tree.ptr_ne_of_not_mem hfgs
    cases hf : f.isLeft <;> cases hgl : g.isLeft
    · -- zig-zig on the right
      have hm0 : Models m (plug (g :: rest1) (.node f.a f.sib f.k f.v (.node e l k v r))) := by
        simpa [plug, Frame.plug, hf] using hm
      have hp0 := addrs_plug_rotUp g rest1 f.a f.sib (.node e l k v r) f.k f.v
      obtain ⟨m1, hrot1, hm1, hsz1, hlen1, hfrm1⟩ := rotate_models hm0
      have hz := rotUp_zigZig f g (.node e l k v r) (by rw [hf, hgl])
      simp only [Frame.plug, hf, Bool.false_eq_true, if_false] at hz
      rw [hz] at hm1 hp0
      have hm1a : Models m1 (plug (f.zigZig g :: rest1) (.node e l k v r)) := hm1
      obtain ⟨m2, hrot2, hm2, hsz2, hlen2, hfrm2⟩ := rotate_models hm1a
      simp only [hgl, Frame.zigZig, hf, Bool.false_eq_true, if_false] at hrot1 hrot2
      refine ⟨m2, ?_, hsz2.trans hsz1, hlen2.trans hlen1, ?_, by simpa [hf, hgl] using hm2⟩
      rotate_left
      · intro a ha
        have ha0 : a ∉ (plug (g :: rest1) (f.plug (.node e l k v r))).addrs := ha
        simp only [Frame.plug, hf, Bool.false_eq_true, if_false, if_true] at ha0
        rw [hfrm2 a (fun h => ha0 (hp0.mem_iff.1 h)), hfrm1 a ha0]
      simp [splayStep, deref, andAlso, he, hp, hg, hroot0, hf, hgl, hse, Ne.symm hse, hgs,
        hrot1, hrot2]
    · -- zig-zag: right child of a left child
      have hp0 := addrs_plug_rotUp f (g :: rest1) e l r k v
      obtain ⟨m1, hrot1, hm1, hsz1, hlen1, hfrm1⟩ := rotate_models hm
      obtain ⟨l1, r1, hru⟩ := rotUp_node f e l r k v
      rw [hru] at hm1 hp0
      obtain ⟨m2, hrot2, hm2, hsz2, hlen2, hfrm2⟩ := rotate_models hm1
      simp only [hgl, hf, Bool.false_eq_true, if_false, if_true] at hrot1 hrot2
      refine ⟨m2, ?_, hsz2.trans hsz1, hlen2.trans hlen1, ?_,
        by simpa [hf, hgl, hru] using hm2⟩
      rotate_left
      · intro a ha
        rw [hfrm2 a (fun h => ha (hp0.mem_iff.1 h)), hfrm1 a ha]
      simp [splayStep, deref, andAlso, he, hp, hg, hroot0, hf, hgl, hse, Ne.symm hse, hgs,
        hrot1, hrot2]
    · -- zig-zag: left child of a right child
      have hp0 := addrs_plug_rotUp f (g :: rest1) e l r k v
      obtain ⟨m1, hrot1, hm1, hsz1, hlen1, hfrm1⟩ := rotate_models hm
      obtain ⟨l1, r1, hru⟩ := rotUp_node f e l r k v
      rw [hru] at hm1 hp0
      obtain ⟨m2, hrot2, hm2, hsz2, hlen2, hfrm2⟩ := rotate_models hm1
      simp only [hgl, hf, Bool.false_eq_true, if_false, if_true] at hrot1 hrot2
      refine ⟨m2, ?_, hsz2.trans hsz1, hlen2.trans hlen1, ?_,
        by simpa [hf, hgl, hru] using hm2⟩
      rotate_left
      · intro a ha
        rw [hfrm2 a (fun h => ha (hp0.mem_iff.1 h)), hfrm1 a ha]
      simp [splayStep, deref, andAlso, he, hp, hg, hroot0, hf, hgl, hse, Ne.symm hse, hgs,
        hrot1, hrot2]
    · -- zig-zig on the left
      have hm0 : Models m (plug (g :: rest1) (.node f.a (.node e l k v r) f.k f.v f.sib)) := by
        simpa [plug, Frame.plug, hf] using hm
      have hp0 := addrs_plug_rotUp g rest1 f.a (.node e l k v r) f.sib f.k f.v
      obtain ⟨m1, hrot1, hm1, hsz1, hlen1, hfrm1⟩ := rotate_models hm0
      have hz := rotUp_zigZig f g (.node e l k v r) (by rw [hf, hgl])
      simp only [Frame.plug, hf, if_true] at hz
      rw [hz] at hm1 hp0
      have hm1a : Models m1 (plug (f.zigZig g :: rest1) (.node e l k v r)) := hm1
      obtain ⟨m2, hrot2, hm2, hsz2, hlen2, hfrm2⟩ := rotate_models hm1a
      simp only [hgl, Frame.zigZig, hf, if_true] at hrot1 hrot2
      refine ⟨m2, ?_, hsz2.trans hsz1, hlen2.trans hlen1, ?_, by simpa [hf, hgl] using hm2⟩
      rotate_left
      · intro a ha
        have ha0 : a ∉ (plug (g :: rest1) (f.plug (.node e l k v r))).addrs := ha
        simp only [Frame.plug, hf, Bool.false_eq_true, if_false, if_true] at ha0
        rw [hfrm2 a (fun h => ha0 (hp0.mem_iff.1 h)), hfrm1 a ha0]
      simp [splayStep, deref, andAlso, he, hp, hg, hroot0, hf, hgl, hse, Ne.symm hse, hgs,
        hrot1, hrot2]

/-! ## The loops on the tree a heap represents -/

theorem length_le_of_nodup_of_lt {l : List Nat} {n : Nat} (hnd : l.Nodup)
    (hlt : ∀ a ∈ l, a < n) : l.length ≤ n := by
  have hsub : l.toFinset ⊆ Finset.range n := by
    intro a ha
    simp only [List.mem_toFinset] at ha
    simpa using hlt a ha
  have := Finset.card_le_card hsub
  rwa [List.toFinset_card_of_nodup hnd, Finset.card_range] at this

theorem Models.size_le {m : TreeMap K V} {t : Tree K V} (hm : Models m t) :
    t.size ≤ m.nodes.length := by
  rw [← Tree.length_addrs]
  exact length_le_of_nodup_of_lt hm.2.2 (Tree.Rep.lt_length hm.2.1)

theorem Models.root_ne {m : TreeMap K V} {f : Frame K V} {rest : List (Frame K V)}
    {e : Nat} {l r : Tree K V} {k : K} {v : V}
    (hm : Models m (plug (f :: rest) (.node e l k v r))) : ¬ (some e = m.root) := by
  obtain ⟨hroot, -, hnd⟩ := hm
  have hnd1 := (addrs_plug _ _).nodup_iff.1 hnd
  obtain ⟨a, ha, hpa⟩ := ptr_plug_mem f rest (.node e l k v r)
  rw [hroot, hpa]
  simp only [Option.some.injEq]
  rintro rfl
  rw [List.nodup_append] at hnd1
  exact hnd1.2.2 (by simp [Tree.addrs]) ha

theorem addrs_plug_zigZig (f g : Frame K V) (rest : List (Frame K V)) (s : Tree K V) :
    (plug (f.zigZig g :: rest) s).addrs.Perm (plug (f :: g :: rest) s).addrs := by
  refine (addrs_plug _ _).trans ((List.Perm.trans ?_ (addrs_plug _ _).symm))
  rw [List.perm_iff_count]
  intro a
  simp only [pathAddrs, Frame.addrs, Frame.zigZig, List.count_append, List.count_cons]
  split <;> simp only [Tree.addrs, List.count_append, List.count_cons] <;> omega

/-- The loop of `splay` brings the node `e` to the root as `splayUp` does. -/
theorem splayLoop_models (path : List (Frame K V)) :
    ∀ (fuel : Nat) (m : TreeMap K V) (e : Nat) (l r : Tree K V) (k : K) (v : V),
      path.length < fuel → Models m (plug path (.node e l k v r)) →
      ∃ m1, splayLoop fuel m (some e) = some m1 ∧
        Models m1 (splayUp path (.node e l k v r)) ∧ m1.size_ = m.size_ ∧
        m1.nodes.length = m.nodes.length ∧
        ∀ a, a ∉ (plug path (.node e l k v r)).addrs → m1.nodes[a]? = m.nodes[a]? := by
  generalize hn : path.length = n
  induction n using Nat.strong_induction_on generalizing path with
  | _ n ih =>
    intro fuel m e l r k v hfuel hm
    cases fuel with
    | zero => omega
    | succ fuel =>
      cases path with
      | nil =>
        refine ⟨m, ?_, by simpa [splayUp, plug] using hm, rfl, rfl, fun _ _ => rfl⟩
        have hroot : m.root = some e := by simpa [plug] using hm.1
        simp [splayLoop, hroot]
      | cons f rest =>
        have hne := hm.root_ne
        obtain ⟨m1, hstep, hsz, hlen, hfrm, hm1⟩ := splayStep_models hm
        cases rest with
        | nil =>
          simp only at hm1
          have hp0 := addrs_plug_rotUp f [] e l r k v
          obtain ⟨l1, r1, hru⟩ := rotUp_node f e l r k v
          rw [hru] at hm1 hp0
          simp only [List.length_singleton] at hn hfuel
          obtain ⟨m2, hloop, hm2, hsz2, hlen2, hfrm2⟩ :=
            ih 0 (by omega) [] rfl fuel m1 e l1 r1 k v (by omega)
              (by simpa [plug] using hm1)
          refine ⟨m2, ?_, ?_, hsz2.trans hsz, hlen2.trans hlen, ?_⟩
          rotate_left 2
          · intro a ha
            rw [hfrm2 a (fun h => ha (hp0.mem_iff.1 h)), hfrm a ha]
          · simp [splayLoop, hne, hstep, hloop]
          · simpa [splayUp, hru] using hm2
        | cons g rest1 =>
          simp only at hm1
          simp only [List.length_cons] at hn hfuel
          by_cases hfg : f.isLeft = g.isLeft
          · simp only [hfg, if_true] at hm1
            have hp0 := addrs_plug_rotUp (f.zigZig g) rest1 e l r k v
            obtain ⟨l1, r1, hru⟩ := rotUp_node (f.zigZig g) e l r k v
            rw [hru] at hm1 hp0
            obtain ⟨m2, hloop, hm2, hsz2, hlen2, hfrm2⟩ :=
              ih rest1.length (by omega) rest1 rfl fuel m1 e l1 r1 k v (by omega) hm1
            refine ⟨m2, ?_, ?_, hsz2.trans hsz, hlen2.trans hlen, ?_⟩
            rotate_left 2
            · intro a ha
              refine (hfrm2 a (fun h => ha ?_)).trans (hfrm a ha)
              exact (addrs_plug_zigZig f g rest1 _).mem_iff.1 (hp0.mem_iff.1 h)
            · simp [splayLoop, hne, hstep, hloop]
            · simpa [splayUp, hfg, hru] using hm2
          · simp only [hfg, if_false] at hm1
            have hp0 := addrs_plug_rotUp f (g :: rest1) e l r k v
            obtain ⟨l0, r0, hru0⟩ := rotUp_node f e l r k v
            have hp1 := addrs_plug_rotUp g rest1 e l0 r0 k v
            obtain ⟨l1, r1, hru⟩ := rotUp_node g e l0 r0 k v
            rw [hru0] at hp0
            rw [hru] at hp1
            rw [hru0, hru] at hm1
            obtain ⟨m2, hloop, hm2, hsz2, hlen2, hfrm2⟩ :=
              ih rest1.length (by omega) rest1 rfl fuel m1 e l1 r1 k v (by omega) hm1
            refine ⟨m2, ?_, ?_, hsz2.trans hsz, hlen2.trans hlen, ?_⟩
            rotate_left 2
            · intro a ha
              refine (hfrm2 a (fun h => ha ?_)).trans (hfrm a ha)
              exact hp0.mem_iff.1 (hp1.mem_iff.1 h)
            · simp [splayLoop, hne, hstep, hloop]
            · simpa [splayUp, hfg, hru0, hru] using hm2

/-! ### The search -/

theorem descend_plug [LinearOrder K] (key : K) (t : Tree K V) (path : List (Frame K V)) :
    plug (descend key t path).1 (descend key t path).2 = plug path t := by
  induction t generalizing path with
  | nil => rfl
  | node a l k v r ihl ihr =>
    simp only [descend]
    split_ifs
    · rw [ihl]; simp [plug, Frame.plug]
    · rfl
    · rw [ihr]; simp [plug, Frame.plug]
    · rfl
    · rfl

theorem descend_node [LinearOrder K] (key : K) (t : Tree K V) (path : List (Frame K V))
    (ht : t.ptr.isSome) : (descend key t path).2.ptr.isSome := by
  induction t generalizing path with
  | nil => simp at ht
  | node a l k v r ihl ihr =>
    simp only [descend]
    split_ifs with h1 h2 h3 h4
    · exact ihl _ h2
    · rfl
    · exact ihr _ h4
    · rfl
    · rfl

theorem findClosestLoop_models [LinearOrder K] (key : K) {h : List (Node K V)}
    (t : Tree K V) :
    ∀ (par : Option Nat) (fuel : Nat) (path : List (Frame K V)), t.Rep h par →
      t.ptr.isSome → t.height ≤ fuel →
      findClosestLoop key h fuel t.ptr = some (descend key t path).2.ptr := by
  induction t with
  | nil => intro _ _ _ _ ht; simp at ht
  | node a l k v r ihl ihr =>
    intro par fuel path hrep _ hh
    simp only [Tree.height] at hh
    cases fuel with
    | zero => omega
    | succ fuel =>
      simp only [Tree.Rep] at hrep
      obtain ⟨ha, hl, hr⟩ := hrep
      simp only [findClosestLoop, Tree.ptr_node, deref, ha, Option.bind_eq_bind,
        Option.some_bind, descend, gt_iff_lt]
      split_ifs with h1 h2 h3 h4
      · exact ihl _ _ _ hl h2 (by omega)
      · rfl
      · exact ihr _ _ _ hr h4 (by omega)
      · rfl
      · rfl

/-- The method `splay` performs `splayT` on the tree. -/
theorem splay_models [LinearOrder K] {m : TreeMap K V} {t : Tree K V} (key : K)
    (hm : Models m t) :
    ∃ m1, splay m key = some m1 ∧ Models m1 (splayT key t) ∧ m1.size_ = m.size_ ∧
      m1.nodes.length = m.nodes.length ∧
      ∀ a, a ∉ t.addrs → m1.nodes[a]? = m.nodes[a]? := by
  cases t with
  | nil =>
    have hroot : m.root = none := hm.1
    refine ⟨m, ?_, by simpa [splayT, descend, splayUp] using hm, rfl, rfl, fun _ _ => rfl⟩
    simp [splay, findClosest, isEmpty, hroot, splayLoop]
  | node a l k v r =>
    have hroot : m.root = some a := hm.1
    have hsome := descend_node key (.node a l k v r) [] rfl
    have hplug := descend_plug key (.node a l k v r) []
    have hfind := findClosestLoop_models key (.node a l k v r) none (m.nodes.length + 1) []
      hm.2.1 rfl (by have := hm.size_le; have := Tree.height_le_size (.node a l k v r); omega)
    simp only [splayT]
    generalize (descend key (.node a l k v r) []).1 = path at *
    generalize (descend key (.node a l k v r) []).2 = s at *
    cases s with
    | nil => simp at hsome
    | node e l1 k1 v1 r1 =>
      simp only [plug] at hplug
      rw [← hplug] at hm ⊢
      have hlen : path.length < m.nodes.length + 1 := by
        have h1 := hm.size_le
        have h2 := size_plug path (.node e l1 k1 v1 r1)
        simp only [Tree.size] at h2
        omega
      obtain ⟨m1, hloop, hm1, hsz, hl, hfrm⟩ :=
        splayLoop_models path _ m e l1 r1 k1 v1 hlen hm
      refine ⟨m1, ?_, hm1, hsz, hl, hfrm⟩
      simp only [splay, findClosest, isEmpty, hroot, Option.bind_eq_bind]
      simp only [Tree.ptr_node] at hfind
      simp [hfind, hloop]

/-! ## Order properties of the operations on trees -/

theorem Tree.bst_iff [LinearOrder K] (t : Tree K V) :
    t.BST ↔ (t.toList.map Prod.fst).Pairwise (· < ·) := by
  induction t with
  | nil => simp [Tree.BST, Tree.toList]
  | node a l k v r ihl ihr =>
    simp only [Tree.BST, Tree.toList, List.map_append, List.map_cons, List.pairwise_append,
      List.pairwise_cons, List.mem_map, List.mem_cons, ihl, ihr, forall_exists_index, and_imp,
      forall_apply_eq_imp_iff₂, Prod.forall, Prod.exists, exists_and_right, exists_eq_right]
    constructor
    · rintro ⟨h1, h2, h3, h4⟩
      refine ⟨h3, ⟨fun x y hxy => h2 x y hxy, h4⟩, ?_⟩
      intro x y hxy z hz
      rcases hz with rfl | ⟨w, hw⟩
      · exact h1 x y hxy
      · exact (h1 x y hxy).trans (h2 z w hw)
    · rintro ⟨h3, ⟨h2, h4⟩, h5⟩
      refine ⟨fun x y hxy => h5 x y hxy k (Or.inl rfl), fun x y hxy => h2 x y hxy, h3, h4⟩

theorem Tree.bst_of_toList_eq [LinearOrder K] {t t1 : Tree K V} (h : t1.toList = t.toList)
    (hb : t.BST) : t1.BST := by
  rw [Tree.bst_iff] at hb ⊢
  rw [h]; exact hb

theorem rotUp_spec (f : Frame K V) (e : Nat) (l r : Tree K V) (k : K) (v : V) :
    ∃ l1 r1, rotUp f (.node e l k v r) = .node e l1 k v r1 ∧
      l1.toList = f.pre ++ l.toList ∧ r1.toList = r.toList ++ f.post := by
  simp only [rotUp, Frame.pre, Frame.post]
  split
  · exact ⟨_, _, rfl, by simp, by simp [Tree.toList]⟩
  · exact ⟨_, _, rfl, by simp [Tree.toList], by simp⟩

theorem Frame.zigZig_pre (f g : Frame K V) (h : f.isLeft = g.isLeft) :
    (f.zigZig g).pre = g.pre ++ f.pre ∧ (f.zigZig g).post = f.post ++ g.post := by
  cases hf : f.isLeft
  · have hg : g.isLeft = false := by rw [← h, hf]
    simp [Frame.zigZig, Frame.pre, Frame.post, hf, hg, Tree.toList]
  · have hg : g.isLeft = true := by rw [← h, hf]
    simp [Frame.zigZig, Frame.pre, Frame.post, hf, hg, Tree.toList]

/-- The loop of `splay` keeps the node it is given and gathers what was before it in the
in-order sequence into its left subtree and what was after it into its right subtree. -/
theorem splayUp_spec (path : List (Frame K V)) :
    ∀ (e : Nat) (l r : Tree K V) (k : K) (v : V),
      ∃ l1 r1, splayUp path (.node e l k v r) = .node e l1 k v r1 ∧
        l1.toList = pathPre path ++ l.toList ∧ r1.toList = r.toList ++ pathPost path := by
  generalize hn : path.length = n
  induction n using Nat.strong_induction_on generalizing path with
  | _ n ih =>
    intro e l r k v
    cases path with
    | nil => exact ⟨l, r, rfl, by simp [pathPre], by simp [pathPost]⟩
    | cons f rest =>
      cases rest with
      | nil =>
        obtain ⟨l1, r1, h1, h2, h3⟩ := rotUp_spec f e l r k v
        exact ⟨l1, r1, by simp [splayUp, h1], by simp [pathPre, h2], by simp [pathPost, h3]⟩
      | cons g rest1 =>
        simp only [List.length_cons] at hn
        by_cases hfg : f.isLeft = g.isLeft
        · obtain ⟨l1, r1, h1, h2, h3⟩ := rotUp_spec (f.zigZig g) e l r k v
          obtain ⟨l2, r2, h4, h5, h6⟩ := ih rest1.length (by omega) rest1 rfl e l1 r1 k v
          obtain ⟨hz1, hz2⟩ := f.zigZig_pre g hfg
          refine ⟨l2, r2, by simp [splayUp, hfg, h1, h4], ?_, ?_⟩
          · simp [pathPre, h5, h2, hz1]
          · simp [pathPost, h6, h3, hz2]
        · obtain ⟨l0, r0, h00, h01, h02⟩ := rotUp_spec f e l r k v
          obtain ⟨l1, r1, h1, h2, h3⟩ := rotUp_spec g e l0 r0 k v
          obtain ⟨l2, r2, h4, h5, h6⟩ := ih rest1.length (by omega) rest1 rfl e l1 r1 k v
          refine ⟨l2, r2, by simp [splayUp, hfg, h00, h1, h4], ?_, ?_⟩
          · simp [pathPre, h5, h2, h01]
          · simp [pathPost, h6, h3, h02]

/-- What the search of `findClosest` finds in a binary search tree: a node whose key is the
one sought, or a node without a child on the side the key belongs, at the end of a path
that has only smaller keys before it and only greater keys after it. -/
theorem descend_spec [LinearOrder K] (key : K) (t : Tree K V) :
    ∀ (path : List (Frame K V)), t.BST → t.ptr.isSome →
      (∀ x ∈ pathPre path, x.1 < key) → (∀ x ∈ pathPost path, key < x.1) →
      ∃ e l k v r, (descend key t path).2 = .node e l k v r ∧
        (∀ x ∈ pathPre (descend key t path).1, x.1 < key) ∧
        (∀ x ∈ pathPost (descend key t path).1, key < x.1) ∧
        (k = key ∨ (key < k ∧ l = .nil) ∨ (k < key ∧ r = .nil)) := by
  induction t with
  | nil => intro _ _ h; simp at h
  | node a l k v r ihl ihr =>
    intro path hb _ hpre hpost
    simp only [Tree.BST] at hb
    obtain ⟨hlk, hkr, hbl, hbr⟩ := hb
    simp only [descend]
    split_ifs with h1 h2 h3 h4
    · refine ihl _ hbl h2 ?_ ?_
      · simpa [pathPre, Frame.pre] using hpre
      · intro x hx
        simp only [pathPost, Frame.post, if_true, List.cons_append, List.mem_cons,
          List.mem_append] at hx
        rcases hx with rfl | hx | hx
        · exact h1
        · exact h1.trans (hkr x hx)
        · exact hpost x hx
    · refine ⟨a, l, k, v, r, rfl, hpre, hpost, Or.inr (Or.inl ⟨h1, ?_⟩)⟩
      cases l with
      | nil => rfl
      | node _ _ _ _ _ => simp at h2
    · refine ihr _ hbr h4 ?_ ?_
      · intro x hx
        simp only [pathPre, Frame.pre, Bool.false_eq_true, if_false, List.mem_append,
          List.mem_singleton] at hx
        rcases hx with hx | hx | rfl
        · exact hpre x hx
        · exact (hlk x hx).trans h3
        · exact h3
      · simpa [pathPost, Frame.post] using hpost
    · refine ⟨a, l, k, v, r, rfl, hpre, hpost, Or.inr (Or.inr ⟨h3, ?_⟩)⟩
      cases r with
      | nil => rfl
      | node _ _ _ _ _ => simp at h4
    · exact ⟨a, l, k, v, r, rfl, hpre, hpost, Or.inl (le_antisymm (not_lt.1 h1) (not_lt.1 h3))⟩

/-- The tree after `splay` has the same in-order sequence. -/
theorem splayT_toList [LinearOrder K] (key : K) (t : Tree K V) :
    (splayT key t).toList = t.toList := by
  cases t with
  | nil => simp [splayT, descend, splayUp]
  | node a l k v r =>
    have hsome := descend_node key (.node a l k v r) [] rfl
    have hplug := descend_plug key (.node a l k v r) []
    simp only [splayT]
    generalize (descend key (.node a l k v r) []).1 = path at *
    generalize (descend key (.node a l k v r) []).2 = s at *
    cases s with
    | nil => simp at hsome
    | node e l1 k1 v1 r1 =>
      obtain ⟨l2, r2, h1, h2, h3⟩ := splayUp_spec path e l1 r1 k1 v1
      simp only [plug] at hplug
      rw [← hplug, toList_plug, h1]
      simp [Tree.toList, h2, h3]

/-- The root of a binary search tree after `splay`: its key is the one sought, or it is
an in-order neighbour of the key sought. -/
theorem splayT_spec [LinearOrder K] (key : K) (t : Tree K V) (hb : t.BST)
    (ht : t.ptr.isSome) :
    ∃ e l k v r, splayT key t = .node e l k v r ∧
      (k = key ∨ (key < k ∧ ∀ x ∈ l.toList, x.1 < key) ∨
        (k < key ∧ ∀ x ∈ r.toList, key < x.1)) := by
  obtain ⟨e, l, k, v, r, hd, hpre, hpost, hc⟩ := descend_spec key t [] hb ht
    (by simp [pathPre]) (by simp [pathPost])
  obtain ⟨l2, r2, h1, h2, h3⟩ := splayUp_spec (descend key t []).1 e l r k v
  refine ⟨e, l2, k, v, r2, by simp [splayT, hd, h1], ?_⟩
  rcases hc with hc | ⟨hc, rfl⟩ | ⟨hc, rfl⟩
  · exact Or.inl hc
  · refine Or.inr (Or.inl ⟨hc, ?_⟩)
    simpa [h2, Tree.toList] using hpre
  · refine Or.inr (Or.inr ⟨hc, ?_⟩)
    simpa [h3, Tree.toList] using hpost

theorem splayT_ptr [LinearOrder K] (key : K) (t : Tree K V) (ht : t.ptr.isSome) :
    (splayT key t).ptr.isSome := by
  have hsome := descend_node key t [] ht
  simp only [splayT]
  generalize (descend key t []).1 = path at *
  generalize (descend key t []).2 = s at *
  cases s with
  | nil => simp at hsome
  | node e l1 k1 v1 r1 =>
    obtain ⟨l2, r2, h1, -⟩ := splayUp_spec path e l1 r1 k1 v1
    simp [h1]

/-! ## Insertion on the heap -/

/-- The branch of `insert` that links a new root to the right of the previous root. -/
theorem insert_raw_lt [LinearOrder K] {m m1 : TreeMap K V} {key k : K} {value v : V}
    {e : Nat} {lp rp : Option Nat}
    (hroot : m.root ≠ none)
    (hsplay : splay { m with nodes := m.nodes ++ [⟨key, value, none, none, none⟩] } key
      = some m1)
    (hr1 : m1.root = some e)
    (he : m1.nodes[e]? = some ⟨k, v, none, lp, rp⟩)
    (hn : m1.nodes[m.nodes.length]? = some ⟨key, value, none, none, none⟩)
    (hen : e ≠ m.nodes.length) (hk : k ≠ key) (hlt : key < k)
    (hl : ∀ c, lp = some c → c ≠ e ∧ c ≠ m.nodes.length ∧ ∃ cn, m1.nodes[c]? = some cn) :
    ∃ m2, m.insert key value = some m2 ∧ m2.root = some m.nodes.length ∧
      m2.size_ = m1.size_ + 1 ∧ m2.nodes.length = m1.nodes.length ∧
      m2.nodes[m.nodes.length]? = some ⟨key, value, none, lp, some e⟩ ∧
      m2.nodes[e]? = some ⟨k, v, some m.nodes.length, none, rp⟩ ∧
      (∀ c cn, lp = some c → m1.nodes[c]? = some cn →
        m2.nodes[c]? = some { cn with parent := some m.nodes.length }) ∧
      (∀ a, a ≠ e → a ≠ m.nodes.length → some a ≠ lp → m2.nodes[a]? = m1.nodes[a]?) := by
  obtain ⟨h1, root1, sz1⟩ := m1
  simp only at hr1 he hn hl ⊢
  subst hr1
  simp only [TreeMap.insert, isEmpty, hroot, decide_False, Bool.false_eq_true, if_false,
    Option.bind_eq_bind, Option.pure_def, hsplay, Option.some_bind]
  generalize m.nodes.length = n at *
  have hne : n ≠ e := Ne.symm hen
  have hl1 := lt_length_of_get he
  have hl2 := lt_length_of_get hn
  cases lp with
  | none =>
    simp only [deref, store, he, hn, hen, hne, hk, hlt, hl1, hl2,
      List.getElem?_set, List.length_set, Option.some_bind, if_true, if_false,
      ↓reduceIte, Option.isSome_some, Option.isSome_none, Option.some.injEq, decide_True,
      decide_False, Bool.false_eq_true, ne_eq, not_false_eq_true, not_true_eq_false]
    refine ⟨_, rfl, rfl, rfl, ?_, ?_, ?_, ?_, ?_⟩
    · simp only [List.length_set]
    · simp only [List.getElem?_set, List.length_set, hen, hl2, ↓reduceIte]
    · simp only [List.getElem?_set, List.length_set, hl1, ↓reduceIte]
    · intro c1 n1 hh; cases hh
    · intro a hae han _
      simp only [List.getElem?_set, Ne.symm hae, Ne.symm han, ↓reduceIte]
  | some c =>
    obtain ⟨hce, hcn, cn, hc⟩ := hl c rfl
    have hl3 := lt_length_of_get hc
    have hec := Ne.symm hce
    have hnc := Ne.symm hcn
    simp only [deref, store, he, hn, hc, hen, hne, hce, hcn, hec, hnc, hk, hlt, hl1, hl2, hl3,
      List.getElem?_set, List.length_set, Option.some_bind, if_true, if_false,
      ↓reduceIte, Option.isSome_some, Option.isSome_none, Option.some.injEq, decide_True,
      decide_False, Bool.false_eq_true, ne_eq, not_false_eq_true, not_true_eq_false]
    refine ⟨_, rfl, rfl, rfl, ?_, ?_, ?_, ?_, ?_⟩
    · simp only [List.length_set]
    · simp only [List.getElem?_set, List.length_set, hen, hl2, ↓reduceIte]
    · simp only [List.getElem?_set, List.length_set, hl1, ↓reduceIte]
    · rintro c1 n1 hh hn1
      cases hh
      rw [hc] at hn1
      cases hn1
      simp only [List.getElem?_set, List.length_set, hnc, hec, hl3, ↓reduceIte]
    · intro a hae han hac
      have hac1 : c ≠ a := fun hh => hac (by rw [hh])
      simp only [List.getElem?_set, Ne.symm hae, Ne.symm han, hac1, ↓reduceIte]

/-- The branch of `insert` that links a new root to the left of the previous root. -/
theorem insert_raw_gt [LinearOrder K] {m m1 : TreeMap K V} {key k : K} {value v : V}
    {e : Nat} {lp rp : Option Nat}
    (hroot : m.root ≠ none)
    (hsplay : splay { m with nodes := m.nodes ++ [⟨key, value, none, none, none⟩] } key
      = some m1)
    (hr1 : m1.root = some e)
    (he : m1.nodes[e]? = some ⟨k, v, none, lp, rp⟩)
    (hn : m1.nodes[m.nodes.length]? = some ⟨key, value, none, none, none⟩)
    (hen : e ≠ m.nodes.length) (hk : k ≠ key) (hlt : ¬ key < k)
    (hl : ∀ c, rp = some c → c ≠ e ∧ c ≠ m.nodes.length ∧ ∃ cn, m1.nodes[c]? = some cn) :
    ∃ m2, m.insert key value = some m2 ∧ m2.root = some m.nodes.length ∧
      m2.size_ = m1.size_ + 1 ∧ m2.nodes.length = m1.nodes.length ∧
      m2.nodes[m.nodes.length]? = some ⟨key, value, none, some e, rp⟩ ∧
      m2.nodes[e]? = some ⟨k, v, some m.nodes.length, lp, none⟩ ∧
      (∀ c cn, rp = some c → m1.nodes[c]? = some cn →
        m2.nodes[c]? = some { cn with parent := some m.nodes.length }) ∧
      (∀ a, a ≠ e → a ≠ m.nodes.length → some a ≠ rp → m2.nodes[a]? = m1.nodes[a]?) := by
  obtain ⟨h1, root1, sz1⟩ := m1
  simp only at hr1 he hn hl ⊢
  subst hr1
  simp only [TreeMap.insert, isEmpty, hroot, decide_False, Bool.false_eq_true, if_false,
    Option.bind_eq_bind, Option.pure_def, hsplay, Option.some_bind]
  generalize m.nodes.length = n at *
  have hne : n ≠ e := Ne.symm hen
  have hl1 := lt_length_of_get he
  have hl2 := lt_length_of_get hn
  cases rp with
  | none =>
    simp only [deref, store, he, hn, hen, hne, hk, hlt, hl1, hl2,
      List.getElem?_set, List.length_set, Option.some_bind, if_true, if_false,
      ↓reduceIte, Option.isSome_some, Option.isSome_none, Option.some.injEq, decide_True,
      decide_False, Bool.false_eq_true, ne_eq, not_false_eq_true, not_true_eq_false]
    refine ⟨_, rfl, rfl, rfl, ?_, ?_, ?_, ?_, ?_⟩
    · simp only [List.length_set]
    · simp only [List.getElem?_set, List.length_set, hen, hl2, ↓reduceIte]
    · simp only [List.getElem?_set, List.length_set, hl1, ↓reduceIte]
    · intro c1 n1 hh; cases hh
    · intro a hae han _
      simp only [List.getElem?_set, Ne.symm hae, Ne.symm han, ↓reduceIte]
  | some c =>
    obtain ⟨hce, hcn, cn, hc⟩ := hl c rfl
    have hl3 := lt_length_of_get hc
    have hec := Ne.symm hce
    have hnc := Ne.symm hcn
    simp only [deref, store, he, hn, hc, hen, hne, hce, hcn, hec, hnc, hk, hlt, hl1, hl2, hl3,
      List.getElem?_set, List.length_set, Option.some_bind, if_true, if_false,
      ↓reduceIte, Option.isSome_some, Option.isSome_none, Option.some.injEq, decide_True,
      decide_False, Bool.false_eq_true, ne_eq, not_false_eq_true, not_true_eq_false]
    refine ⟨_, rfl, rfl, rfl, ?_, ?_, ?_, ?_, ?_⟩
    · simp only [List.length_set]
    · simp only [List.getElem?_set, List.length_set, hen, hl2, ↓reduceIte]
    · simp only [List.getElem?_set, List.length_set, hl1, ↓reduceIte]
    · rintro c1 n1 hh hn1
      cases hh
      rw [hc] at hn1
      cases hn1
      simp only [List.getElem?_set, List.length_set, hnc, hec, hl3, ↓reduceIte]
    · intro a hae han hac
      have hac1 : c ≠ a := fun hh => hac (by rw [hh])
      simp only [List.getElem?_set, Ne.symm hae, Ne.symm han, hac1, ↓reduceIte]

/-! ## The public operations on the tree a heap represents -/

theorem splayUp_addrs (path : List (Frame K V)) :
    ∀ (e : Nat) (l r : Tree K V) (k : K) (v : V),
      (splayUp path (.node e l k v r)).addrs.Perm (plug path (.node e l k v r)).addrs := by
  generalize hn : path.length = n
  induction n using Nat.strong_induction_on generalizing path with
  | _ n ih =>
    intro e l r k v
    cases path with
    | nil => exact List.Perm.refl _
    | cons f rest =>
      cases rest with
      | nil => simpa [splayUp, plug] using addrs_plug_rotUp f [] e l r k v
      | cons g rest1 =>
        simp only [List.length_cons] at hn
        by_cases hfg : f.isLeft = g.isLeft
        · have hp0 := addrs_plug_rotUp (f.zigZig g) rest1 e l r k v
          obtain ⟨l1, r1, hru⟩ := rotUp_node (f.zigZig g) e l r k v
          have h1 := ih rest1.length (by omega) rest1 rfl e l1 r1 k v
          simp only [splayUp, hfg, if_true, hru]
          rw [hru] at hp0
          exact h1.trans (hp0.trans (addrs_plug_zigZig f g rest1 _))
        · have hp0 := addrs_plug_rotUp f (g :: rest1) e l r k v
          obtain ⟨l0, r0, hru0⟩ := rotUp_node f e l r k v
          have hp1 := addrs_plug_rotUp g rest1 e l0 r0 k v
          obtain ⟨l1, r1, hru⟩ := rotUp_node g e l0 r0 k v
          have h1 := ih rest1.length (by omega) rest1 rfl e l1 r1 k v
          simp only [splayUp, hfg, if_false, hru0, hru]
          rw [hru0] at hp0
          rw [hru] at hp1
          exact h1.trans (hp1.trans hp0)

theorem splayT_addrs [LinearOrder K] (key : K) (t : Tree K V) :
    (splayT key t).addrs.Perm t.addrs := by
  cases t with
  | nil => simp [splayT, descend, splayUp]
  | node a l k v r =>
    have hsome := descend_node key (.node a l k v r) [] rfl
    have hplug := descend_plug key (.node a l k v r) []
    simp only [splayT]
    generalize (descend key (.node a l k v r) []).1 = path at *
    generalize (descend key (.node a l k v r) []).2 = s at *
    cases s with
    | nil => simp at hsome
    | node e l1 k1 v1 r1 =>
      simp only [plug] at hplug
      rw [← hplug]
      exact splayUp_addrs path e l1 r1 k1 v1

theorem splayT_size [LinearOrder K] (key : K) (t : Tree K V) :
    (splayT key t).size = t.size := by
  rw [← Tree.length_toList, splayT_toList, Tree.length_toList]

theorem Models.append {m : TreeMap K V} {t : Tree K V} (hm : Models m t) (x : Node K V) :
    Models { m with nodes := m.nodes ++ [x] } t := by
  refine ⟨hm.1, Tree.Rep.congr ?_ hm.2.1, hm.2.2⟩
  intro a ha
  exact List.getElem?_append_left (Tree.Rep.lt_length hm.2.1 a ha)

/-- The method `insert` performs `insertT` on the tree, the new node being allocated at the
end of the heap. -/
theorem insert_models [LinearOrder K] {m : TreeMap K V} {t : Tree K V} (key : K) (value : V)
    (hm : Models m t) :
    ∃ m1, m.insert key value = some m1 ∧ Models m1 (insertT key value m.nodes.length t) ∧
      m1.size_ + t.size = m.size_ + (insertT key value m.nodes.length t).size ∧
      m1.nodes.length = m.nodes.length + 1 := by
  cases t with
  | nil =>
    have hroot : m.root = none := hm.1
    refine ⟨⟨m.nodes ++ [⟨key, value, none, none, none⟩], some m.nodes.length, m.size_ + 1⟩,
      ?_, ⟨rfl, ?_, ?_⟩, ?_, ?_⟩
    · simp [TreeMap.insert, isEmpty, hroot]
    · simp [insertT, splayT, descend, splayUp, Tree.Rep]
    · simp [insertT, splayT, descend, splayUp, Tree.addrs]
    · simp [insertT, splayT, descend, splayUp, Tree.size]
    · simp
  | node a0 l0 k0 v0 r0 =>
    have hroot : m.root ≠ none := by rw [hm.1]; simp
    have hlt := Tree.Rep.lt_length hm.2.1
    obtain ⟨m1, hsplay, hm1, hsz, hlen, hfrm⟩ :=
      splay_models key (hm.append ⟨key, value, none, none, none⟩)
    simp only [List.length_append, List.length_singleton] at hlen
    replace hsz : m1.size_ = m.size_ := hsz
    have hperm := splayT_addrs key (Tree.node a0 l0 k0 v0 r0)
    have hsize := splayT_size key (Tree.node a0 l0 k0 v0 r0)
    have hnot : m.nodes.length ∉ (Tree.node a0 l0 k0 v0 r0).addrs :=
      fun h => Nat.lt_irrefl _ (hlt _ h)
    have hn1 : m1.nodes[m.nodes.length]? = some ⟨key, value, none, none, none⟩ := by
      rw [hfrm _ hnot]; simp
    have hsome := splayT_ptr key (Tree.node a0 l0 k0 v0 r0) rfl
    simp only [insertT]
    generalize splayT key (Tree.node a0 l0 k0 v0 r0) = T at *
    cases T with
    | nil => simp at hsome
    | node e l k v r =>
      obtain ⟨hroot1, hrep, hnd⟩ := hm1
      simp only [Tree.ptr_node] at hroot1
      simp only [Tree.Rep] at hrep
      obtain ⟨he, hl, hr⟩ := hrep
      have hnd0 := hnd
      simp only [Tree.addrs, List.nodup_cons, List.nodup_append, List.mem_append,
        not_or] at hnd
      obtain ⟨⟨hel, her⟩, hnl, hnr, hlr⟩ := hnd
      have hnT : m.nodes.length ∉ (Tree.node e l k v r).addrs :=
        fun h => hnot (hperm.mem_iff.1 h)
      simp only [Tree.addrs, List.mem_cons, List.mem_append, not_or] at hnT
      obtain ⟨hne, hnl1, hnr1⟩ := hnT
      by_cases hk : k = key
      · subst hk
        simp only [↓reduceIte]
        refine ⟨{ m1 with nodes := m1.nodes.set e ⟨k, value, none, l.ptr, r.ptr⟩ }, ?_,
          ⟨hroot1, ?_, ?_⟩, ?_, ?_⟩
        · simp [TreeMap.insert, isEmpty, hroot, hsplay, deref, store, hroot1, he]
        · simp only [Tree.Rep]
          refine ⟨?_, Tree.Rep.congr ?_ hl, Tree.Rep.congr ?_ hr⟩
          · rw [get_set_self _ he]
          · intro b hb
            exact get_set_ne _ (by rintro rfl; exact hel hb)
          · intro b hb
            exact get_set_ne _ (by rintro rfl; exact her hb)
        · simpa [Tree.addrs] using hnd0
        · simp only [Tree.size] at hsize ⊢
          omega
        · simp [hlen]
      · simp only [hk, if_false]
        by_cases hlt1 : key < k
        · obtain ⟨m2, hins, hroot2, hsz2, hlen2, hn2, he2, hc2, hfrm2⟩ :=
            insert_raw_lt hroot hsplay hroot1 he hn1 (Ne.symm hne) hk hlt1 (by
              intro c hc
              have hcl := Tree.ptr_mem_addrs hc
              refine ⟨?_, ?_, ?_⟩
              · rintro rfl; exact hel hcl
              · rintro rfl; exact hnl1 hcl
              · have := Tree.Rep.lt_length hl c hcl
                exact ⟨_, List.getElem?_eq_getElem this⟩)
          simp only [hlt1, if_true]
          refine ⟨m2, hins, ⟨hroot2, ?_, ?_⟩, ?_, ?_⟩
          · simp only [hlt1, if_true, Tree.Rep, Tree.ptr_node, Tree.ptr_nil, true_and]
            refine ⟨hn2, ?_, he2, ?_⟩
            · refine Tree.Rep.reparent hl hnl ?_ ?_
              · intro b n hb hn; exact hc2 b n hb hn
              · intro b hb hne1
                refine hfrm2 b ?_ ?_ hne1
                · rintro rfl; exact hel hb
                · rintro rfl; exact hnl1 hb
            · refine Tree.Rep.congr ?_ hr
              intro b hb
              refine hfrm2 b ?_ ?_ ?_
              · rintro rfl; exact her hb
              · rintro rfl; exact hnr1 hb
              · intro hh; exact hlr (Tree.ptr_mem_addrs hh.symm) hb
          · simp only [hlt1, if_true, Tree.addrs, List.nodup_cons, List.nodup_append,
              List.mem_append, List.mem_cons, not_or, List.nil_append,
              List.disjoint_cons_right]
            exact ⟨⟨hnl1, hne, hnr1⟩, hnl, ⟨her, hnr⟩, hel, fun b hb1 hb2 => hlr hb1 hb2⟩
          · simp only [hlt1, if_true, Tree.size] at hsize ⊢
            omega
          · rw [hlen2, hlen]
        · obtain ⟨m2, hins, hroot2, hsz2, hlen2, hn2, he2, hc2, hfrm2⟩ :=
            insert_raw_gt hroot hsplay hroot1 he hn1 (Ne.symm hne) hk hlt1 (by
              intro c hc
              have hcl := Tree.ptr_mem_addrs hc
              refine ⟨?_, ?_, ?_⟩
              · rintro rfl; exact her hcl
              · rintro rfl; exact hnr1 hcl
              · have := Tree.Rep.lt_length hr c hcl
                exact ⟨_, List.getElem?_eq_getElem this⟩)
          simp only [hlt1, if_false]
          refine ⟨m2, hins, ⟨hroot2, ?_, ?_⟩, ?_, ?_⟩
          · simp only [hlt1, if_false, Tree.Rep, Tree.ptr_node, Tree.ptr_nil, and_true]
            refine ⟨hn2, ⟨he2, ?_⟩, ?_⟩
            · refine Tree.Rep.congr ?_ hl
              intro b hb
              refine hfrm2 b ?_ ?_ ?_
              · rintro rfl; exact hel hb
              · rintro rfl; exact hnl1 hb
              · intro hh; exact hlr hb (Tree.ptr_mem_addrs hh.symm)
            · refine Tree.Rep.reparent hr hnr ?_ ?_
              · intro b n hb hn; exact hc2 b n hb hn
              · intro b hb hne1
                refine hfrm2 b ?_ ?_ hne1
                · rintro rfl; exact her hb
                · rintro rfl; exact hnr1 hb
          · simp only [hlt1, if_false, Tree.addrs, List.nodup_cons, List.nodup_append,
              List.mem_append, List.mem_cons, not_or, List.append_nil,
              List.disjoint_cons_left]
            exact ⟨⟨⟨hne, hnl1⟩, hnr1⟩, ⟨hel, hnl⟩, hnr, her, fun b hb1 hb2 => hlr hb1 hb2⟩
          · simp only [hlt1, if_false, Tree.size] at hsize ⊢
            omega
          · rw [hlen2, hlen]

/-! ## The entries of a tree after the operations -/

theorem Tree.BST.sorted [LinearOrder K] {t : Tree K V} (hb : t.BST) :
    (t.toList.map Prod.fst).Pairwise (· < ·) := (Tree.bst_iff t).1 hb

/-- In a binary search tree a key has one value. -/
theorem Tree.BST.value_unique [LinearOrder K] {t : Tree K V} (hb : t.BST) {k : K} {v w : V}
    (hv : (k, v) ∈ t.toList) (hw : (k, w) ∈ t.toList) : v = w := by
  have hs := hb.sorted
  rw [List.pairwise_map] at hs
  generalize t.toList = L at *
  induction L with
  | nil => simp at hv
  | cons x L ih =>
    rw [List.pairwise_cons] at hs
    simp only [List.mem_cons] at hv hw
    rcases hv with rfl | hv <;> rcases hw with hw | hw
    · exact (Prod.mk.inj hw).2.symm
    · exact absurd (hs.1 _ hw) (lt_irrefl _)
    · subst hw; exact absurd (hs.1 _ hv) (lt_irrefl _)
    · exact ih hv hw hs.2

/-- The tree after `splay` on a binary search tree has the key sought at its root exactly
when the key is stored, and then with the value stored for it. -/
theorem rootLookup_splayT [LinearOrder K] (key : K) {t : Tree K V} (hb : t.BST) (v : V) :
    (splayT key t).rootLookup key = some v ↔ (key, v) ∈ t.toList := by
  cases ht : t.ptr with
  | none =>
    have : t = .nil := Tree.ptr_eq_none.1 ht
    subst this
    simp [splayT, descend, splayUp, Tree.rootLookup, Tree.toList]
  | some a =>
    obtain ⟨e, l, k, w, r, hT, hc⟩ := splayT_spec key t hb (by simp [ht])
    have hl := splayT_toList key t
    have hbT : (splayT key t).BST := Tree.bst_of_toList_eq hl hb
    rw [hT] at hl hbT
    simp only [Tree.BST] at hbT
    obtain ⟨hlk, hkr, -, -⟩ := hbT
    rw [hT, ← hl]
    simp only [Tree.rootLookup, Tree.toList, List.mem_append, List.mem_cons, Prod.mk.injEq]
    constructor
    · intro h
      split_ifs at h with hk
      · simp only [Option.some.injEq] at h
        exact Or.inr (Or.inl ⟨hk.symm, h.symm⟩)
    · rintro (h | ⟨rfl, rfl⟩ | h)
      · have h1 := hlk _ h
        simp only at h1
        rcases hc with hc | ⟨hc, hc2⟩ | ⟨hc, -⟩
        · exact absurd h1 (by rw [hc]; exact lt_irrefl _)
        · exact absurd (hc2 _ h) (lt_irrefl _)
        · exact absurd (h1.trans hc) (lt_irrefl _)
      · simp
      · have h1 := hkr _ h
        simp only at h1
        rcases hc with hc | ⟨hc, -⟩ | ⟨hc, hc2⟩
        · exact absurd h1 (by rw [hc]; exact lt_irrefl _)
        · exact absurd (h1.trans hc) (lt_irrefl _)
        · exact absurd (hc2 _ h) (lt_irrefl _)

theorem rootLookup_splayT_none [LinearOrder K] (key : K) {t : Tree K V} (hb : t.BST) :
    (splayT key t).rootLookup key = none ↔ key ∉ t.toList.map Prod.fst := by
  rw [Option.eq_none_iff_forall_not_mem]
  simp only [Option.mem_def, rootLookup_splayT key hb, List.mem_map, Prod.exists,
    exists_and_right, exists_eq_right, not_exists]

/-- The entries of a binary search tree after `insert`: the entry `(key, value)` stands
between the entries with smaller keys and the entries with greater keys, where the entry for
`key` stood if there was one. -/
theorem insertT_toList [LinearOrder K] (key : K) (value : V) (n : Nat) {t : Tree K V}
    (hb : t.BST) :
    ∃ pre post, (∀ x ∈ pre, x.1 < key) ∧ (∀ x ∈ post, key < x.1) ∧
      (insertT key value n t).toList = pre ++ (key, value) :: post ∧
      (t.toList = pre ++ post ∨ ∃ old, t.toList = pre ++ (key, old) :: post) := by
  cases ht : t.ptr with
  | none =>
    have : t = .nil := Tree.ptr_eq_none.1 ht
    subst this
    exact ⟨[], [], by simp, by simp, by simp [insertT, splayT, descend, splayUp, Tree.toList],
      Or.inl (by simp [Tree.toList])⟩
  | some a =>
    obtain ⟨e, l, k, w, r, hT, hc⟩ := splayT_spec key t hb (by simp [ht])
    have hl := splayT_toList key t
    have hbT : (splayT key t).BST := Tree.bst_of_toList_eq hl hb
    rw [hT] at hl hbT
    simp only [Tree.BST] at hbT
    obtain ⟨hlk, hkr, -, -⟩ := hbT
    simp only [insertT, hT]
    rw [← hl]
    by_cases hk : k = key
    · subst hk
      exact ⟨l.toList, r.toList, hlk, hkr, by simp [Tree.toList],
        Or.inr ⟨w, by simp [Tree.toList]⟩⟩
    · simp only [hk, if_false]
      rcases hc with hc | ⟨hc, hc2⟩ | ⟨hc, hc2⟩
      · exact absurd hc hk
      · refine ⟨l.toList, (k, w) :: r.toList, hc2, ?_, by simp [hc, Tree.toList],
          Or.inl (by simp [Tree.toList])⟩
        intro x hx
        simp only [List.mem_cons] at hx
        rcases hx with rfl | hx
        · exact hc
        · exact hc.trans (hkr x hx)
      · refine ⟨l.toList ++ [(k, w)], r.toList, ?_, hc2,
          by simp [not_lt.2 hc.le, Tree.toList], Or.inl (by simp [Tree.toList])⟩
        intro x hx
        simp only [List.mem_append, List.mem_singleton] at hx
        rcases hx with hx | rfl
        · exact (hlk x hx).trans hc
        · exact hc

/-- Membership in the entries after an insertion. -/
theorem mem_of_inserted [LinearOrder K] {key : K} {value : V} {L L1 pre post : List (K × V)}
    (hpre : ∀ x ∈ pre, x.1 < key) (hpost : ∀ x ∈ post, key < x.1)
    (h1 : L1 = pre ++ (key, value) :: post)
    (h : L = pre ++ post ∨ ∃ old, L = pre ++ (key, old) :: post) (k : K) (v : V) :
    (k, v) ∈ L1 ↔ (k = key ∧ v = value) ∨ (k ≠ key ∧ (k, v) ∈ L) := by
  have hne1 : (k, v) ∈ pre → k ≠ key := fun hx => ne_of_lt (hpre _ hx)
  have hne2 : (k, v) ∈ post → k ≠ key := fun hx => ne_of_gt (hpost _ hx)
  subst h1
  rcases h with rfl | ⟨old, rfl⟩
  · simp only [List.mem_append, List.mem_cons, Prod.mk.injEq]
    constructor
    · rintro (h | h | h)
      · exact Or.inr ⟨hne1 h, Or.inl h⟩
      · exact Or.inl h
      · exact Or.inr ⟨hne2 h, Or.inr h⟩
    · rintro (h | ⟨-, h | h⟩)
      · exact Or.inr (Or.inl h)
      · exact Or.inl h
      · exact Or.inr (Or.inr h)
  · simp only [List.mem_append, List.mem_cons, Prod.mk.injEq]
    constructor
    · rintro (h | h | h)
      · exact Or.inr ⟨hne1 h, Or.inl h⟩
      · exact Or.inl h
      · exact Or.inr ⟨hne2 h, Or.inr (Or.inr h)⟩
    · rintro (h | ⟨hk, h | h | h⟩)
      · exact Or.inr (Or.inl h)
      · exact Or.inl h
      · exact absurd h.1 hk
      · exact Or.inr (Or.inr h)

/-- The order of the entries after an insertion. -/
theorem sorted_of_inserted [LinearOrder K] {key : K} {value : V}
    {L L1 pre post : List (K × V)}
    (hpre : ∀ x ∈ pre, x.1 < key) (hpost : ∀ x ∈ post, key < x.1)
    (h1 : L1 = pre ++ (key, value) :: post)
    (h : L = pre ++ post ∨ ∃ old, L = pre ++ (key, old) :: post)
    (hs : (L.map Prod.fst).Pairwise (· < ·)) : (L1.map Prod.fst).Pairwise (· < ·) := by
  subst h1
  rw [List.pairwise_map] at hs ⊢
  have hs1 : pre.Pairwise (fun a b => a.1 < b.1) ∧ post.Pairwise (fun a b => a.1 < b.1) := by
    rcases h with rfl | ⟨old, rfl⟩
    · rw [List.pairwise_append] at hs
      exact ⟨hs.1, hs.2.1⟩
    · rw [List.pairwise_append, List.pairwise_cons] at hs
      exact ⟨hs.1, hs.2.1.2⟩
  rw [List.pairwise_append, List.pairwise_cons]
  refine ⟨hs1.1, ⟨hpost, hs1.2⟩, ?_⟩
  intro x hx y hy
  simp only [List.mem_cons] at hy
  rcases hy with rfl | hy
  · exact hpre x hx
  · exact (hpre x hx).trans (hpost y hy)

/-- The number of entries after an insertion. -/
theorem length_of_inserted [LinearOrder K] {key : K} {value : V}
    {L L1 pre post : List (K × V)}
    (hpre : ∀ x ∈ pre, x.1 < key) (hpost : ∀ x ∈ post, key < x.1)
    (h1 : L1 = pre ++ (key, value) :: post)
    (h : L = pre ++ post ∨ ∃ old, L = pre ++ (key, old) :: post) :
    L1.length = if key ∈ L.map Prod.fst then L.length else L.length + 1 := by
  subst h1
  rcases h with rfl | ⟨old, rfl⟩
  · have : key ∉ (pre ++ post).map Prod.fst := by
      simp only [List.map_append, List.mem_append, List.mem_map, Prod.exists,
        exists_and_right, exists_eq_right, not_or, not_exists]
      exact ⟨fun v hx => lt_irrefl _ (hpre _ hx), fun v hx => lt_irrefl _ (hpost _ hx)⟩
    rw [if_neg this]
    simp only [List.length_append, List.length_cons]
    omega
  · simp

/-! ## What the public operations observe -/

theorem inorder_of_rep {h : List (Node K V)} (t : Tree K V) :
    ∀ (par : Option Nat) (fuel : Nat), t.Rep h par → t.height ≤ fuel →
      inorder h fuel t.ptr = t.toList := by
  induction t with
  | nil =>
    intro _ fuel _ _
    cases fuel <;> rfl
  | node a l k v r ihl ihr =>
    intro par fuel hrep hh
    simp only [Tree.height] at hh
    cases fuel with
    | zero => omega
    | succ fuel =>
      simp only [Tree.Rep] at hrep
      obtain ⟨ha, hl, hr⟩ := hrep
      simp only [Tree.ptr_node, inorder, ha, Tree.toList]
      rw [ihl _ fuel hl (by omega), ihr _ fuel hr (by omega)]

theorem Models.toList_eq {m : TreeMap K V} {t : Tree K V} (hm : Models m t) :
    m.toList = t.toList := by
  unfold TreeMap.toList
  rw [hm.1]
  exact inorder_of_rep t none _ hm.2.1 ((Tree.height_le_size t).trans hm.size_le)

theorem Models.keys_eq {m : TreeMap K V} {t : Tree K V} (hm : Models m t) :
    m.keys = t.toList.map Prod.fst := by
  unfold TreeMap.keys
  rw [hm.toList_eq]

theorem models_empty : Models (TreeMap.empty : TreeMap K V) .nil :=
  ⟨rfl, trivial, List.nodup_nil⟩

/-- The method `contains` splays and reports whether the root carries the key. -/
theorem contains_models [LinearOrder K] {m : TreeMap K V} {t : Tree K V} (key : K)
    (hm : Models m t) :
    ∃ m1, m.contains key = some (((splayT key t).rootLookup key).isSome, m1) ∧
      m.splay key = some m1 ∧ Models m1 (splayT key t) ∧ m1.size_ = m.size_ := by
  obtain ⟨m1, hsplay, hm1, hsz, -, -⟩ := splay_models key hm
  refine ⟨m1, ?_, hsplay, hm1, hsz⟩
  obtain ⟨hroot, hrep, -⟩ := hm1
  generalize splayT key t = T at *
  cases T with
  | nil =>
    simp only [Tree.ptr_nil] at hroot
    simp [TreeMap.contains, hsplay, andAlso, hroot, Tree.rootLookup]
  | node e l k v r =>
    simp only [Tree.ptr_node] at hroot
    simp only [Tree.Rep] at hrep
    by_cases hk : k = key <;>
      simp [TreeMap.contains, hsplay, andAlso, hroot, deref, hrep.1, Tree.rootLookup, hk]

/-- The method `value` splays and reads the root. -/
theorem value_models [LinearOrder K] {m : TreeMap K V} {t : Tree K V} (key : K)
    (hm : Models m t) :
    ∃ m1, m.value key = some
        (match (splayT key t).rootLookup key with
          | some v => Lookup.found v
          | none => Lookup.notFound, m1) ∧
      m.splay key = some m1 ∧ Models m1 (splayT key t) ∧ m1.size_ = m.size_ := by
  obtain ⟨m1, hsplay, hm1, hsz, -, -⟩ := splay_models key hm
  refine ⟨m1, ?_, hsplay, hm1, hsz⟩
  obtain ⟨hroot, hrep, -⟩ := hm1
  generalize splayT key t = T at *
  cases T with
  | nil =>
    simp only [Tree.ptr_nil] at hroot
    simp [TreeMap.value, hsplay, andAlso, isEmpty, hroot, Tree.rootLookup]
  | node e l k v r =>
    simp only [Tree.ptr_node] at hroot
    simp only [Tree.Rep] at hrep
    by_cases hk : k = key <;>
      simp [TreeMap.value, hsplay, andAlso, isEmpty, hroot, deref, hrep.1, Tree.rootLookup, hk]

theorem rootLookup_insertT [LinearOrder K] (key : K) (value : V) (n : Nat) (t : Tree K V) :
    (insertT key value n t).rootLookup key = some value := by
  simp only [insertT]
  split
  · simp [Tree.rootLookup]
  · split_ifs with h1 h2
    · simp [Tree.rootLookup, h1]
    · simp [Tree.rootLookup]
    · simp [Tree.rootLookup]

theorem Models.deref_root [DecidableEq K] {m : TreeMap K V} {t : Tree K V} (hm : Models m t)
    {key : K} {v : V} (h : t.rootLookup key = some v) :
    ∃ n, deref m.nodes m.root = some n ∧ n.key = key ∧ n.value = v := by
  obtain ⟨hroot, hrep, -⟩ := hm
  cases t with
  | nil => simp [Tree.rootLookup] at h
  | node a l k w r =>
    simp only [Tree.Rep] at hrep
    simp only [Tree.rootLookup] at h
    split_ifs at h with hk
    simp only [Option.some.injEq] at h
    exact ⟨⟨k, w, none, l.ptr, r.ptr⟩, by simp [hroot, deref, hrep.1], hk, h⟩

/-- The method `operator[]` splays, inserts the key with the value zero if the root does
not carry it, and reads the root. -/
theorem access_models [LinearOrder K] [Zero V] {m : TreeMap K V} {t : Tree K V} (key : K)
    (hm : Models m t) :
    ∃ ms, m.splay key = some ms ∧ Models ms (splayT key t) ∧ ms.size_ = m.size_ ∧
      match (splayT key t).rootLookup key with
      | some v => m.access key = some (v, ms)
      | none => ∃ m1, ms.insert key 0 = some m1 ∧ m.access key = some (0, m1) := by
  obtain ⟨ms, hsplay, hms, hsz, -, -⟩ := splay_models key hm
  refine ⟨ms, hsplay, hms, hsz, ?_⟩
  obtain ⟨m1, hins, hm1, -, -⟩ := insert_models key (0 : V) hms
  obtain ⟨n1, hn1, -, hv1⟩ := hm1.deref_root (rootLookup_insertT key 0 ms.nodes.length _)
  obtain ⟨hroot, hrep, -⟩ := hms
  generalize splayT key t = T at *
  cases T with
  | nil =>
    simp only [Tree.ptr_nil] at hroot
    refine ⟨m1, hins, ?_⟩
    simp [TreeMap.access, hsplay, isEmpty, hroot, hins, hn1, hv1]
  | node e l k v r =>
    simp only [Tree.ptr_node] at hroot
    simp only [Tree.Rep] at hrep
    have hd : deref ms.nodes (some e) = some ⟨k, v, none, l.ptr, r.ptr⟩ := hrep.1
    by_cases hk : k = key
    · simp [TreeMap.access, hsplay, isEmpty, hroot, hd, Tree.rootLookup, hk]
    · simp only [Tree.rootLookup, hk, if_false]
      refine ⟨m1, hins, ?_⟩
      simp [TreeMap.access, hsplay, isEmpty, hroot, hd, hk, hins, hn1, hv1]

/-! ## The invariant -/

theorem inv_empty [LinearOrder K] : Inv (TreeMap.empty : TreeMap K V) :=
  ⟨.nil, models_empty, trivial, rfl⟩

theorem insertT_bst [LinearOrder K] (key : K) (value : V) (n : Nat) {t : Tree K V}
    (hb : t.BST) : (insertT key value n t).BST := by
  obtain ⟨pre, post, hpre, hpost, h1, h2⟩ := insertT_toList key value n hb
  rw [Tree.bst_iff]
  exact sorted_of_inserted hpre hpost h1 h2 hb.sorted

theorem splayT_bst [LinearOrder K] (key : K) {t : Tree K V} (hb : t.BST) :
    (splayT key t).BST := Tree.bst_of_toList_eq (splayT_toList key t) hb

/-- The method `insert` keeps the invariant and always returns. -/
theorem insert_inv [LinearOrder K] {m : TreeMap K V} (key : K) (value : V) (hm : Inv m) :
    ∃ m1, m.insert key value = some m1 ∧ Inv m1 := by
  obtain ⟨t, ht, hb, hs⟩ := hm
  obtain ⟨m1, hins, hm1, hsz, -⟩ := insert_models key value ht
  exact ⟨m1, hins, _, hm1, insertT_bst key value _ hb, by omega⟩

theorem splay_inv [LinearOrder K] {m : TreeMap K V} (key : K) (hm : Inv m) :
    ∃ m1, m.splay key = some m1 ∧ Inv m1 := by
  obtain ⟨t, ht, hb, hs⟩ := hm
  obtain ⟨m1, hsp, hm1, hsz, -, -⟩ := splay_models key ht
  exact ⟨m1, hsp, _, hm1, splayT_bst key hb, by rw [hsz, hs, splayT_size]⟩

/-- Every map reachable from the empty map satisfies the invariant. -/
theorem TreeMap.Reachable.inv [LinearOrder K] [Zero V] {m : TreeMap K V} (hm : Reachable m) :
    Inv m := by
  induction hm with
  | empty => exact inv_empty
  | insert k v _ hins ih =>
    obtain ⟨m2, h2, hi⟩ := insert_inv k v ih
    rw [hins] at h2
    cases h2
    exact hi
  | access k v _ hacc ih =>
    obtain ⟨t, ht, hb, hs⟩ := ih
    obtain ⟨ms, hsp, hms, hsz, hc⟩ := access_models k ht
    have hinv : Inv ms := ⟨_, hms, splayT_bst k hb, by rw [hsz, hs, splayT_size]⟩
    cases hl : (splayT k t).rootLookup k with
    | some w =>
      simp only [hl] at hc
      rw [hacc] at hc
      cases hc
      exact hinv
    | none =>
      simp only [hl] at hc
      obtain ⟨m2, hins, hacc2⟩ := hc
      rw [hacc] at hacc2
      cases hacc2
      obtain ⟨m3, h3, hi⟩ := insert_inv k (0 : V) hinv
      rw [hins] at h3
      cases h3
      exact hi
  | value k r _ hv ih =>
    obtain ⟨t, ht, hb, hs⟩ := ih
    obtain ⟨m2, h2, -, hm2, hsz⟩ := value_models k ht
    rw [hv] at h2
    cases h2
    exact ⟨_, hm2, splayT_bst k hb, by rw [hsz, hs, splayT_size]⟩
  | contains k b _ hc ih =>
    obtain ⟨t, ht, hb, hs⟩ := ih
    obtain ⟨m2, h2, -, hm2, hsz⟩ := contains_models k ht
    rw [hc] at h2
    cases h2
    exact ⟨_, hm2, splayT_bst k hb, by rw [hsz, hs, splayT_size]⟩

/-! ## The public operations on a map that satisfies the invariant -/

theorem Inv.keys_sorted [LinearOrder K] {m : TreeMap K V} (hm : Inv m) :
    m.keys.Pairwise (· < ·) := by
  obtain ⟨t, ht, hb, -⟩ := hm
  rw [ht.keys_eq]
  exact hb.sorted

theorem Inv.size_eq [LinearOrder K] {m : TreeMap K V} (hm : Inv m) :
    m.size = m.toList.length := by
  obtain ⟨t, ht, -, hs⟩ := hm
  rw [ht.toList_eq, Tree.length_toList]
  exact hs

theorem Inv.value_eq [LinearOrder K] {m : TreeMap K V} (hm : Inv m) {k : K} {v w : V}
    (hv : (k, v) ∈ m.toList) (hw : (k, w) ∈ m.toList) : v = w := by
  obtain ⟨t, ht, hb, -⟩ := hm
  rw [ht.toList_eq] at hv hw
  exact hb.value_unique hv hw

theorem mem_keys_iff {m : TreeMap K V} {k : K} : k ∈ m.keys ↔ ∃ v, (k, v) ∈ m.toList := by
  simp [TreeMap.keys]

/-- The method `insert` on a map that satisfies the invariant. -/
theorem insert_spec [LinearOrder K] {m : TreeMap K V} (hm : Inv m) (k : K) (v : V) :
    ∃ m1, m.insert k v = some m1 ∧ Inv m1 ∧
      (∀ k1 v1, (k1, v1) ∈ m1.toList ↔ (k1 = k ∧ v1 = v) ∨ (k1 ≠ k ∧ (k1, v1) ∈ m.toList)) ∧
      m1.size = if k ∈ m.keys then m.size else m.size + 1 := by
  have hsize := hm.size_eq
  obtain ⟨t, ht, hb, hs⟩ := hm
  obtain ⟨m1, hins, hm1, hsz, -⟩ := insert_models k v ht
  obtain ⟨pre, post, hpre, hpost, h1, h2⟩ := insertT_toList k v m.nodes.length hb
  have hinv : Inv m1 := ⟨_, hm1, insertT_bst k v _ hb, by omega⟩
  refine ⟨m1, hins, hinv, ?_, ?_⟩
  · intro k1 v1
    rw [hm1.toList_eq, ht.toList_eq]
    exact mem_of_inserted hpre hpost h1 h2 k1 v1
  · rw [hinv.size_eq, hsize, hm1.toList_eq, ht.keys_eq, ht.toList_eq]
    exact length_of_inserted hpre hpost h1 h2

/-- The method `contains` on a map that satisfies the invariant. -/
theorem contains_spec [LinearOrder K] {m : TreeMap K V} (hm : Inv m) (k : K) :
    ∃ m1, m.contains k = some (decide (k ∈ m.keys), m1) ∧ Inv m1 ∧
      m1.toList = m.toList ∧ m1.size = m.size := by
  obtain ⟨t, ht, hb, hs⟩ := hm
  obtain ⟨m1, hc, -, hm1, hsz⟩ := contains_models k ht
  refine ⟨m1, ?_, ⟨_, hm1, splayT_bst k hb, by rw [hsz, hs, splayT_size]⟩, ?_, hsz⟩
  · rw [hc, ht.keys_eq]
    congr 2
    cases hl : (splayT k t).rootLookup k with
    | none =>
      have := (rootLookup_splayT_none k hb).1 hl
      simp [this]
    | some w =>
      have := (rootLookup_splayT k hb w).1 hl
      have hk : k ∈ t.toList.map Prod.fst := List.mem_map.2 ⟨(k, w), this, rfl⟩
      simp [hk]
  · rw [hm1.toList_eq, ht.toList_eq, splayT_toList]

/-- The method `value` on a map that satisfies the invariant. -/
theorem value_spec [LinearOrder K] {m : TreeMap K V} (hm : Inv m) (k : K) :
    ∃ r m1, m.value k = some (r, m1) ∧ Inv m1 ∧ m1.toList = m.toList ∧ m1.size = m.size ∧
      (∀ v, r = Lookup.found v ↔ (k, v) ∈ m.toList) ∧ (r = Lookup.notFound ↔ k ∉ m.keys) := by
  obtain ⟨t, ht, hb, hs⟩ := hm
  obtain ⟨m1, hv, -, hm1, hsz⟩ := value_models k ht
  refine ⟨_, m1, hv, ⟨_, hm1, splayT_bst k hb, by rw [hsz, hs, splayT_size]⟩, ?_, hsz, ?_, ?_⟩
  · rw [hm1.toList_eq, ht.toList_eq, splayT_toList]
  · intro v
    rw [ht.toList_eq, ← rootLookup_splayT k hb v]
    cases (splayT k t).rootLookup k <;> simp
  · rw [ht.keys_eq, ← rootLookup_splayT_none k hb]
    cases (splayT k t).rootLookup k <;> simp

/-- The method `operator[]` on a map that satisfies the invariant. -/
theorem access_spec [LinearOrder K] [Zero V] {m : TreeMap K V} (hm : Inv m) (k : K) :
    ∃ w m1, m.access k = some (w, m1) ∧ Inv m1 ∧
      (∀ v, (k, v) ∈ m.toList → w = v ∧ m1.toList = m.toList ∧ m1.size = m.size) ∧
      (k ∉ m.keys → w = 0 ∧ m1.size = m.size + 1 ∧
        ∀ k1 v1, (k1, v1) ∈ m1.toList ↔ (k1 = k ∧ v1 = 0) ∨ (k1 ≠ k ∧ (k1, v1) ∈ m.toList)) := by
  have hm0 := hm
  obtain ⟨t, ht, hb, hs⟩ := hm
  obtain ⟨ms, hsp, hms, hsz, hc⟩ := access_models k ht
  have hinv : Inv ms := ⟨_, hms, splayT_bst k hb, by rw [hsz, hs, splayT_size]⟩
  have hlist : ms.toList = m.toList := by rw [hms.toList_eq, ht.toList_eq, splayT_toList]
  have hkeys : ms.keys = m.keys := by unfold TreeMap.keys; rw [hlist]
  cases hl : (splayT k t).rootLookup k with
  | some w =>
    simp only [hl] at hc
    have hw : (k, w) ∈ m.toList := by
      rw [ht.toList_eq]; exact (rootLookup_splayT k hb w).1 hl
    refine ⟨w, ms, hc, hinv, ?_, ?_⟩
    · intro v hv
      exact ⟨hm0.value_eq hw hv, hlist, hsz⟩
    · intro hk
      exact absurd (mem_keys_iff.2 ⟨w, hw⟩) hk
  | none =>
    simp only [hl] at hc
    obtain ⟨m1, hins, hacc⟩ := hc
    have hk : k ∉ m.keys := by
      rw [ht.keys_eq]; exact (rootLookup_splayT_none k hb).1 hl
    obtain ⟨m2, hins2, hinv2, hmem, hsize⟩ := insert_spec hinv k (0 : V)
    rw [hins] at hins2
    cases hins2
    refine ⟨0, m1, hacc, hinv2, ?_, ?_⟩
    · intro v hv
      exact absurd (mem_keys_iff.2 ⟨v, hv⟩) hk
    · intro _
      refine ⟨rfl, ?_, ?_⟩
      · rw [hsize, hkeys, if_neg hk]
        exact congrArg (· + 1) hsz
      · intro k1 v1
        rw [hmem, hlist]

/-! ## Reference maps and reachable nodes -/

theorem reach_of_rep {h : List (Node K V)} (t : Tree K V) :
    ∀ (par : Option Nat) (fuel : Nat), t.Rep h par → t.height ≤ fuel →
      reach h fuel t.ptr = t.addrs := by
  induction t with
  | nil =>
    intro _ fuel _ _
    cases fuel <;> rfl
  | node a l k v r ihl ihr =>
    intro par fuel hrep hh
    simp only [Tree.height] at hh
    cases fuel with
    | zero => omega
    | succ fuel =>
      simp only [Tree.Rep] at hrep
      obtain ⟨ha, hl, hr⟩ := hrep
      simp only [Tree.ptr_node, reach, ha, Tree.addrs]
      rw [ihl _ fuel hl (by omega), ihr _ fuel hr (by omega)]

theorem Models.reachable_eq {m : TreeMap K V} {t : Tree K V} (hm : Models m t) :
    m.reachable = t.addrs := by
  unfold TreeMap.reachable
  rw [hm.1]
  exact reach_of_rep t none _ hm.2.1 ((Tree.height_le_size t).trans hm.size_le)

theorem foldl_refInsert_of_not_mem [DecidableEq K] (ops : List (K × V)) (ref : K → Option V)
    (k : K) (h : ∀ kv ∈ ops, kv.1 ≠ k) :
    ops.foldl (fun ref kv => refInsert ref kv.1 kv.2) ref k = ref k := by
  induction ops generalizing ref with
  | nil => rfl
  | cons kv rest ih =>
    simp only [List.foldl_cons]
    rw [ih _ (fun x hx => h x (by simp [hx]))]
    have := h kv (by simp)
    simp [refInsert, Ne.symm this]

theorem refOf_last [DecidableEq K] (pre post : List (K × V)) (k : K) (v : V)
    (h : ∀ kv ∈ post, kv.1 ≠ k) : refOf (pre ++ (k, v) :: post) k = some v := by
  simp only [refOf, List.foldl_append, List.foldl_cons]
  rw [foldl_refInsert_of_not_mem post _ k h]
  simp [refInsert]

theorem foldl_refInsert_isSome [DecidableEq K] (ops : List (K × V)) (ref : K → Option V)
    (k : K) :
    (∃ v, ops.foldl (fun ref kv => refInsert ref kv.1 kv.2) ref k = some v) ↔
      (∃ kv ∈ ops, kv.1 = k) ∨ ∃ v, ref k = some v := by
  induction ops generalizing ref with
  | nil => simp
  | cons kv rest ih =>
    simp only [List.foldl_cons, ih, List.mem_cons, exists_eq_or_imp]
    by_cases hk : kv.1 = k
    · simp [refInsert, hk]
    · simp [refInsert, hk, Ne.symm hk]

/-- A sequence of inserts into a map that satisfies the invariant and agrees with a
reference map yields a map that agrees with the reference map after the same inserts. -/
theorem insertAll_spec [LinearOrder K] (ops : List (K × V)) :
    ∀ (m : TreeMap K V) (ref : K → Option V), Inv m →
      (∀ k v, (k, v) ∈ m.toList ↔ ref k = some v) →
      ∃ m1, m.insertAll ops = some m1 ∧ Inv m1 ∧
        ∀ k v, (k, v) ∈ m1.toList ↔
          ops.foldl (fun ref kv => refInsert ref kv.1 kv.2) ref k = some v := by
  induction ops with
  | nil => intro m ref hm href; exact ⟨m, rfl, hm, href⟩
  | cons kv rest ih =>
    intro m ref hm href
    obtain ⟨m1, hins, hinv, hmem, -⟩ := insert_spec hm kv.1 kv.2
    obtain ⟨m2, hall, hinv2, hmem2⟩ := ih m1 (refInsert ref kv.1 kv.2) hinv (by
      intro k v
      rw [hmem, href]
      by_cases hk : k = kv.1
      · simp [refInsert, hk, eq_comm]
      · simp [refInsert, hk])
    exact ⟨m2, by simp [TreeMap.insertAll, hins, hall], hinv2, hmem2⟩

/-- The size after a sequence of inserts of fresh, pairwise distinct keys. -/
theorem insertAll_distinct [LinearOrder K] (ops : List (K × V)) :
    ∀ (m : TreeMap K V), Inv m → (ops.map Prod.fst).Nodup →
      (∀ kv ∈ ops, kv.1 ∉ m.keys) →
      ∃ m1, m.insertAll ops = some m1 ∧ m1.size = m.size + ops.length := by
  induction ops with
  | nil => intro m _ _ _; exact ⟨m, rfl, rfl⟩
  | cons kv rest ih =>
    intro m hm hnd hfresh
    simp only [List.map_cons, List.nodup_cons] at hnd
    obtain ⟨m1, hins, hinv, hmem, hsize⟩ := insert_spec hm kv.1 kv.2
    rw [if_neg (hfresh kv (by simp))] at hsize
    obtain ⟨m2, hall, hsz2⟩ := ih m1 hinv hnd.2 (by
      intro x hx hk
      obtain ⟨w, hw⟩ := mem_keys_iff.1 hk
      rcases (hmem _ _).1 hw with ⟨h1, -⟩ | ⟨-, h2⟩
      · exact hnd.1 (List.mem_map.2 ⟨x, hx, h1⟩)
      · exact hfresh x (by simp [hx]) (mem_keys_iff.2 ⟨w, h2⟩))
    refine ⟨m2, by simp [TreeMap.insertAll, hins, hall], ?_⟩
    simp only [List.length_cons]
    omega

/-- The size after a sequence of inserts of a key that is stored already. -/
theorem insertAll_same [LinearOrder K] (k : K) (vs : List V) :
    ∀ (m : TreeMap K V), Inv m → k ∈ m.keys →
      ∃ m1, m.insertAll (vs.map (fun v => (k, v))) = some m1 ∧ m1.size = m.size := by
  induction vs with
  | nil => intro m _ _; exact ⟨m, rfl, rfl⟩
  | cons v rest ih =>
    intro m hm hk
    obtain ⟨m1, hins, hinv, hmem, hsize⟩ := insert_spec hm k v
    rw [if_pos hk] at hsize
    obtain ⟨m2, hall, hsz2⟩ := ih m1 hinv (mem_keys_iff.2 ⟨v, (hmem k v).2 (Or.inl ⟨rfl, rfl⟩)⟩)
    exact ⟨m2, by simp [TreeMap.insertAll, hins, hall], hsz2.trans hsize⟩

/-! ## The claims -/

/-- C1 (round trip): on every map reachable from the empty map, `insert(k, v)` returns,
and on the map it leaves `contains(k)` returns true and `value(k)` returns `v`, also when
`value(k)` is called after that `contains(k)`. -/
theorem C1_insert_round_trip [LinearOrder K] [Zero V] (m : TreeMap K V) (hm : Reachable m)
    (k : K) (v : V) :
    ∃ m1, m.insert k v = some m1 ∧
      (∃ m2, m1.contains k = some (true, m2) ∧
        ∃ m3, m2.value k = some (Lookup.found v, m3)) ∧
      ∃ m3, m1.value k = some (Lookup.found v, m3) := by
  obtain ⟨m1, hins, hinv, hmem, -⟩ := insert_spec hm.inv k v
  have hkv : (k, v) ∈ m1.toList := (hmem k v).2 (Or.inl ⟨rfl, rfl⟩)
  obtain ⟨m2, hc, hinv2, hlist2, -⟩ := contains_spec hinv k
  obtain ⟨r, m3, hv, -, -, -, hfound, -⟩ := value_spec hinv k
  obtain ⟨r2, m4, hv2, -, -, -, hfound2, -⟩ := value_spec hinv2 k
  have hr : r = Lookup.found v := (hfound v).2 hkv
  have hr2 : r2 = Lookup.found v := (hfound2 v).2 (by rw [hlist2]; exact hkv)
  subst hr hr2
  refine ⟨m1, hins, ⟨m2, ?_, m4, hv2⟩, m3, hv⟩
  rw [hc]
  simp [mem_keys_iff.2 ⟨v, hkv⟩]

/-- The round trip of C1 on the map that holds the key 5: inserting `(3, 2)`. -/
theorem C1_insert_round_trip_witness :
    ∃ m1, (TreeMap.mk [⟨5, 1, none, none, none⟩] (some 0) 1 : TreeMap Nat Nat).insert 3 2
        = some m1 ∧
      (∃ m2, m1.contains 3 = some (true, m2) ∧
        ∃ m3, m2.value 3 = some (Lookup.found 2, m3)) ∧
      ∃ m3, m1.value 3 = some (Lookup.found 2, m3) :=
  C1_insert_round_trip _ (Reachable.insert 5 1 Reachable.empty rfl) 3 2

/-- C2 (the binary-search-tree order is preserved): on a map that satisfies the
binary-search-tree order, each of `insert(k, v)`, `operator[](k)`, `value(k)` and
`contains(k)` returns and leaves a map that satisfies it; hence every map reachable from the
empty map satisfies it. -/
theorem C2_bst_preserved [LinearOrder K] [Zero V] (m : TreeMap K V) (hm : m.IsBST)
    (k : K) (v : V) :
    (∃ m1, m.insert k v = some m1 ∧ m1.IsBST) ∧
    (∃ w m1, m.access k = some (w, m1) ∧ m1.IsBST) ∧
    (∃ r m1, m.value k = some (r, m1) ∧ m1.IsBST) ∧
    (∃ b m1, m.contains k = some (b, m1) ∧ m1.IsBST) ∧
    ∀ m0 : TreeMap K V, Reachable m0 → m0.IsBST := by
  obtain ⟨t, ht, hb⟩ := hm
  refine ⟨?_, ?_, ?_, ?_, ?_⟩
  · obtain ⟨m1, hins, hm1, -, -⟩ := insert_models k v ht
    exact ⟨m1, hins, _, hm1, insertT_bst k v _ hb⟩
  · obtain ⟨ms, hsp, hms, hsz, hc⟩ := access_models k ht
    cases hl : (splayT k t).rootLookup k with
    | some w =>
      simp only [hl] at hc
      exact ⟨w, ms, hc, _, hms, splayT_bst k hb⟩
    | none =>
      simp only [hl] at hc
      obtain ⟨m1, hins, hacc⟩ := hc
      obtain ⟨m2, hins2, hm2, -, -⟩ := insert_models k (0 : V) hms
      rw [hins] at hins2
      cases hins2
      exact ⟨0, m1, hacc, _, hm2, insertT_bst k 0 _ (splayT_bst k hb)⟩
  · obtain ⟨m1, hv, -, hm1, -⟩ := value_models k ht
    exact ⟨_, m1, hv, _, hm1, splayT_bst k hb⟩
  · obtain ⟨m1, hc, -, hm1, -⟩ := contains_models k ht
    exact ⟨_, m1, hc, _, hm1, splayT_bst k hb⟩
  · intro m0 h0
    obtain ⟨t0, h1, h2, -⟩ := h0.inv
    exact ⟨t0, h1, h2⟩

/-- The preservation of C2 on the map whose root 5 has the left child 3. -/
theorem C2_bst_preserved_witness :
    (∃ m1, (TreeMap.mk [⟨5, 1, none, some 1, none⟩, ⟨3, 2, some 0, none, none⟩] (some 0) 2 :
        TreeMap Nat Nat).insert 4 9 = some m1 ∧ m1.IsBST) ∧
    (∃ w m1, (TreeMap.mk [⟨5, 1, none, some 1, none⟩, ⟨3, 2, some 0, none, none⟩] (some 0) 2 :
        TreeMap Nat Nat).access 4 = some (w, m1) ∧ m1.IsBST) ∧
    (∃ r m1, (TreeMap.mk [⟨5, 1, none, some 1, none⟩, ⟨3, 2, some 0, none, none⟩] (some 0) 2 :
        TreeMap Nat Nat).value 4 = some (r, m1) ∧ m1.IsBST) ∧
    (∃ b m1, (TreeMap.mk [⟨5, 1, none, some 1, none⟩, ⟨3, 2, some 0, none, none⟩] (some 0) 2 :
        TreeMap Nat Nat).contains 4 = some (b, m1) ∧ m1.IsBST) ∧
    ∀ m0 : TreeMap Nat Nat, Reachable m0 → m0.IsBST :=
  C2_bst_preserved
    (TreeMap.mk [⟨5, 1, none, some 1, none⟩, ⟨3, 2, some 0, none, none⟩] (some 0) 2)
    ⟨.node 0 (.node 1 .nil 3 2 .nil) 5 1 .nil,
      ⟨rfl, ⟨rfl, ⟨rfl, trivial, trivial⟩, trivial⟩, by decide⟩,
      ⟨by decide, by decide, ⟨by decide, by decide, trivial, trivial⟩, trivial⟩⟩ 4 9

/-- C3 (refinement of a reference finite map): every sequence of inserts into the empty map
returns a map whose in-order entries are the key-sorted association list of the reference
map after the same inserts with last-write-wins (the keys are strictly increasing and an
entry is present exactly when the reference map holds it); `contains(k)` is true exactly when
some insert used `k`, `value(k)` returns the value of the last insert with key `k` and fails
when there is none, and a further `insert(k, v)` leaves the entries of every other key as
they are. -/
theorem C3_refines_reference_map [LinearOrder K] (ops : List (K × V)) :
    ∃ m, (TreeMap.empty : TreeMap K V).insertAll ops = some m ∧
      (m.keys.Pairwise (· < ·) ∧ ∀ k v, (k, v) ∈ m.toList ↔ refOf ops k = some v) ∧
      (∀ k, ∃ m1, m.contains k = some (decide (∃ kv ∈ ops, kv.1 = k), m1)) ∧
      (∀ pre post k v, ops = pre ++ (k, v) :: post → (∀ kv ∈ post, kv.1 ≠ k) →
        ∃ m1, m.value k = some (Lookup.found v, m1)) ∧
      (∀ k, (∀ kv ∈ ops, kv.1 ≠ k) → ∃ m1, m.value k = some (Lookup.notFound, m1)) ∧
      ∀ k v k1, k1 ≠ k → ∃ m1, m.insert k v = some m1 ∧
        ∀ v1, (k1, v1) ∈ m1.toList ↔ (k1, v1) ∈ m.toList := by
  obtain ⟨m, hall, hinv, hmem⟩ := insertAll_spec ops (TreeMap.empty : TreeMap K V)
    (fun _ => none) inv_empty (by intro k v; simp [TreeMap.toList, TreeMap.empty, inorder])
  have hkeys : ∀ k, k ∈ m.keys ↔ ∃ kv ∈ ops, kv.1 = k := by
    intro k
    rw [mem_keys_iff]
    have := foldl_refInsert_isSome ops (fun _ => (none : Option V)) k
    simp only [exists_false, or_false, reduceCtorEq] at this
    rw [← this]
    exact exists_congr (fun v => hmem k v)
  refine ⟨m, hall, ⟨hinv.keys_sorted, hmem⟩, ?_, ?_, ?_, ?_⟩
  · intro k
    obtain ⟨m1, hc, -⟩ := contains_spec hinv k
    refine ⟨m1, ?_⟩
    rw [hc]
    congr 2
    exact decide_eq_decide.2 (hkeys k)
  · intro pre post k v hops hpost
    obtain ⟨r, m1, hv, -, -, -, hfound, -⟩ := value_spec hinv k
    have hr : r = Lookup.found v := (hfound v).2 ((hmem k v).2 (by
      rw [hops]; exact refOf_last pre post k v hpost))
    subst hr
    exact ⟨m1, hv⟩
  · intro k hk
    obtain ⟨r, m1, hv, -, -, -, -, hnot⟩ := value_spec hinv k
    have hr : r = Lookup.notFound := hnot.2 (by
      rw [hkeys]
      rintro ⟨kv, h1, h2⟩
      exact hk kv h1 h2)
    subst hr
    exact ⟨m1, hv⟩
  · intro k v k1 hne
    obtain ⟨m1, hins, -, hmem1, -⟩ := insert_spec hinv k v
    refine ⟨m1, hins, fun v1 => ?_⟩
    rw [hmem1]
    simp [hne]

/-- The refinement of C3 for the inserts `(5, 1)`, `(3, 2)`, `(5, 7)`: the key 5 has the
value of its last insert, the key 4 is absent, and a further insert of the key 4 leaves the
entries of the key 3 as they are. -/
theorem C3_refines_reference_map_witness :
    ∃ m, (TreeMap.empty : TreeMap Nat Nat).insertAll [(5, 1), (3, 2), (5, 7)] = some m ∧
      (∃ m1, m.contains 5 = some (true, m1)) ∧
      (∃ m1, m.value 5 = some (Lookup.found 7, m1)) ∧
      (∃ m1, m.value 4 = some (Lookup.notFound, m1)) ∧
      ∃ m1, m.insert 4 9 = some m1 ∧ ∀ v1, (3, v1) ∈ m1.toList ↔ (3, v1) ∈ m.toList := by
  obtain ⟨m, h1, -, h3, h4, h5, h6⟩ :=
    @C3_refines_reference_map Nat Nat _ [(5, 1), (3, 2), (5, 7)]
  refine ⟨m, h1, ?_, h4 [(5, 1), (3, 2)] [] 5 7 rfl (by simp), h5 4 (by decide),
    h6 4 9 3 (by decide)⟩
  obtain ⟨m1, hc⟩ := h3 5
  exact ⟨m1, by rw [hc]; simp⟩

/-- C4 (not found if and only if absent): on every map reachable from the empty map,
`value(k)` returns; it fails with the not-found error exactly when `k` is not stored, it
returns `v` exactly when the entry `(k, v)` is stored, and when it fails `size()` is as
before. -/
theorem C4_value_not_found_iff_absent [LinearOrder K] [Zero V] (m : TreeMap K V)
    (hm : Reachable m) (k : K) :
    ∃ r m1, m.value k = some (r, m1) ∧
      (r = Lookup.notFound ↔ k ∉ m.keys) ∧
      (∀ v, r = Lookup.found v ↔ (k, v) ∈ m.toList) ∧
      (r = Lookup.notFound → m1.size = m.size) := by
  obtain ⟨r, m1, hv, -, -, hsz, hfound, hnot⟩ := value_spec hm.inv k
  exact ⟨r, m1, hv, hnot, hfound, fun _ => hsz⟩

/-- The miss of C4 on the map that holds the key 5: `value(10)`. -/
theorem C4_value_not_found_iff_absent_witness :
    ∃ r m1, (TreeMap.mk [⟨5, 1, none, none, none⟩] (some 0) 1 : TreeMap Nat Nat).value 10
        = some (r, m1) ∧
      (r = Lookup.notFound ↔
        10 ∉ (TreeMap.mk [⟨5, 1, none, none, none⟩] (some 0) 1 : TreeMap Nat Nat).keys) ∧
      (∀ v, r = Lookup.found v ↔
        (10, v) ∈ (TreeMap.mk [⟨5, 1, none, none, none⟩] (some 0) 1 : TreeMap Nat Nat).toList) ∧
      (r = Lookup.notFound →
        m1.size = (TreeMap.mk [⟨5, 1, none, none, none⟩] (some 0) 1 : TreeMap Nat Nat).size) :=
  C4_value_not_found_iff_absent _ (Reachable.insert 5 1 Reachable.empty rfl) 10

/-! ## Nodes inside a tree -/

theorem plug_append (p q : List (Frame K V)) (s : Tree K V) :
    plug (p ++ q) s = plug q (plug p s) := by
  induction p generalizing s with
  | nil => rfl
  | cons f fs ih => simp [plug, ih]

/-- Every node of a tree is the root of the subtree in the hole of a path. -/
theorem zipper_of_mem {t : Tree K V} {a : Nat} (ha : a ∈ t.addrs) :
    ∃ path l k v r, t = plug path (.node a l k v r) := by
  induction t with
  | nil => simp [Tree.addrs] at ha
  | node b l k v r ihl ihr =>
    simp only [Tree.addrs, List.mem_cons, List.mem_append] at ha
    rcases ha with rfl | ha | ha
    · exact ⟨[], l, k, v, r, rfl⟩
    · obtain ⟨p, l1, k1, v1, r1, h⟩ := ihl ha
      refine ⟨p ++ [⟨true, b, k, v, r⟩], l1, k1, v1, r1, ?_⟩
      rw [plug_append, ← h]
      simp [plug, Frame.plug]
    · obtain ⟨p, l1, k1, v1, r1, h⟩ := ihr ha
      refine ⟨p ++ [⟨false, b, k, v, l⟩], l1, k1, v1, r1, ?_⟩
      rw [plug_append, ← h]
      simp [plug, Frame.plug]

theorem Models.cell {m : TreeMap K V} {path : List (Frame K V)} {e : Nat} {l r : Tree K V}
    {k : K} {v : V} (hm : Models m (plug path (.node e l k v r))) :
    m.nodes[e]? = some ⟨k, v, pathTop path, l.ptr, r.ptr⟩ :=
  ((rep_plug path _).1 hm.2.1).2.1

theorem Models.path_length_lt {m : TreeMap K V} {path : List (Frame K V)} {e : Nat}
    {l r : Tree K V} {k : K} {v : V} (hm : Models m (plug path (.node e l k v r))) :
    path.length < m.nodes.length := by
  have h1 := hm.size_le
  have h2 := size_plug path (.node e l k v r)
  simp only [Tree.size] at h2
  omega

theorem depth_of_repPath {h : List (Node K V)} (path : List (Frame K V)) :
    ∀ (fuel e : Nat) (n : Node K V), path.length < fuel → h[e]? = some n →
      n.parent = pathTop path → RepPath h path (some e) →
      depth h fuel (some e) = some path.length := by
  induction path with
  | nil =>
    intro fuel e n hf he hp _
    cases fuel with
    | zero => simp at hf
    | succ fuel =>
      simp only [pathTop] at hp
      simp [depth, deref, he, hp]
  | cons f fs ih =>
    intro fuel e n hf he hp hrep
    cases fuel with
    | zero => simp at hf
    | succ fuel =>
      simp only [pathTop] at hp
      simp only [RepPath] at hrep
      obtain ⟨hfa, -, hrest⟩ := hrep
      have := ih fuel f.a _ (by simpa using hf) hfa rfl hrest
      simp [depth, deref, he, hp, this]

/-- The depth of a node is the length of the path to it. -/
theorem Models.depthOf_eq {m : TreeMap K V} {path : List (Frame K V)} {e : Nat}
    {l r : Tree K V} {k : K} {v : V} (hm : Models m (plug path (.node e l k v r))) :
    m.depthOf e = some path.length :=
  depth_of_repPath path _ e _ hm.path_length_lt hm.cell rfl ((rep_plug path _).1 hm.2.1).1

theorem Tree.Rep.cell_eq {h1 h2 : List (Node K V)} {t : Tree K V} :
    ∀ {par : Option Nat}, t.Rep h1 par → t.Rep h2 par → ∀ a ∈ t.addrs, h1[a]? = h2[a]? := by
  induction t with
  | nil => intro _ _ _ a ha; simp [Tree.addrs] at ha
  | node b l k v r ihl ihr =>
    intro par hr1 hr2 a ha
    simp only [Tree.Rep] at hr1 hr2
    simp only [Tree.addrs, List.mem_cons, List.mem_append] at ha
    rcases ha with rfl | ha | ha
    · rw [hr1.1, hr2.1]
    · exact ihl hr1.2.1 hr2.2.1 a ha
    · exact ihr hr1.2.2 hr2.2.2 a ha

/-- Two maps laid out as the same tree that agree outside it are the same map. -/
theorem Models.ext {m1 m2 : TreeMap K V} {t : Tree K V} (h1 : Models m1 t) (h2 : Models m2 t)
    (hs : m1.size_ = m2.size_)
    (hf : ∀ a, a ∉ t.addrs → m1.nodes[a]? = m2.nodes[a]?) : m1 = m2 := by
  have hn : m1.nodes = m2.nodes := by
    apply List.ext_getElem?
    intro a
    by_cases ha : a ∈ t.addrs
    · exact Tree.Rep.cell_eq h1.2.1 h2.2.1 a ha
    · exact hf a ha
  have hr : m1.root = m2.root := h1.1.trans h2.1.symm
  cases m1; cases m2
  simp only at hn hr hs
  simp [hn, hr, hs]

theorem Tree.Rep.links {h : List (Node K V)} {t : Tree K V} :
    ∀ {par : Option Nat}, t.Rep h par → t.addrs.Nodup → ∀ a ∈ t.addrs,
      LinkConsistent h a := by
  induction t with
  | nil => intro _ _ _ a ha; simp [Tree.addrs] at ha
  | node b l k v r ihl ihr =>
    intro par hrep hnd a ha
    simp only [Tree.Rep] at hrep
    obtain ⟨hb, hl, hr⟩ := hrep
    simp only [Tree.addrs, List.nodup_cons, List.nodup_append, List.mem_append, not_or] at hnd
    obtain ⟨-, hndl, hndr, hdis⟩ := hnd
    simp only [Tree.addrs, List.mem_cons, List.mem_append] at ha
    rcases ha with rfl | ha | ha
    · refine ⟨_, hb, ?_, ?_, ?_⟩
      · intro c hc
        simp only at hc
        cases l with
        | nil => simp at hc
        | node c1 l1 k1 v1 r1 =>
          simp only [Tree.ptr_node, Option.some.injEq] at hc
          subst hc
          exact ⟨_, hl.1, rfl⟩
      · intro c hc
        simp only at hc
        cases r with
        | nil => simp at hc
        | node c1 l1 k1 v1 r1 =>
          simp only [Tree.ptr_node, Option.some.injEq] at hc
          subst hc
          exact ⟨_, hr.1, rfl⟩
      · intro c hc hc1
        simp only at hc hc1
        exact hdis (Tree.ptr_mem_addrs hc) (Tree.ptr_mem_addrs hc1)
    · exact ihl hl hndl a ha
    · exact ihr hr hndr a ha

/-- A map laid out as a tree is parent-consistent node by node. -/
theorem TreeMap.IsTree.parentConsistent {m : TreeMap K V} (hm : IsTree m) : ParentConsistent m := by
  obtain ⟨t, ht⟩ := hm
  refine ⟨?_, ?_⟩
  · intro a ha
    obtain ⟨hroot, hrep, -⟩ := ht
    rw [hroot] at ha
    cases t with
    | nil => simp at ha
    | node b l k v r =>
      simp only [Tree.ptr_node, Option.some.injEq] at ha
      subst ha
      exact ⟨_, hrep.1, rfl⟩
  · rw [ht.reachable_eq]
    exact Tree.Rep.links ht.2.1 ht.2.2

theorem Inv.isTree [LT K] {m : TreeMap K V} (hm : Inv m) : IsTree m := by
  obtain ⟨t, ht, -, -⟩ := hm
  exact ⟨t, ht⟩

theorem TreeMap.IsBST.toIsTree [LT K] {m : TreeMap K V} (hm : IsBST m) : IsTree m := by
  obtain ⟨t, ht, -⟩ := hm
  exact ⟨t, ht⟩

/-! ## The root, the empty map and sequences of calls -/

theorem Models.rootKey_eq [DecidableEq K] {m : TreeMap K V} {t : Tree K V} (hm : Models m t)
    {key : K} {v : V} (h : t.rootLookup key = some v) : m.rootKey = some key := by
  obtain ⟨n, hn, hk, -⟩ := hm.deref_root h
  simp [TreeMap.rootKey, hn, hk]

theorem Models.isEmpty_iff {m : TreeMap K V} {t : Tree K V} (hm : Models m t) :
    m.isEmpty = true ↔ t.size = 0 := by
  obtain ⟨hroot, -, -⟩ := hm
  cases t with
  | nil => simp [isEmpty, hroot, Tree.size]
  | node a l k v r => simp [isEmpty, hroot, Tree.size]

theorem Inv.isEmpty_iff_size [LinearOrder K] {m : TreeMap K V} (hm : Inv m) :
    m.isEmpty = true ↔ m.size = 0 := by
  obtain ⟨t, ht, -, hs⟩ := hm
  rw [ht.isEmpty_iff]
  unfold TreeMap.size
  rw [hs]

theorem Inv.isEmpty_iff_toList [LinearOrder K] {m : TreeMap K V} (hm : Inv m) :
    m.isEmpty = true ↔ m.toList = [] := by
  rw [hm.isEmpty_iff_size, hm.size_eq]
  exact List.length_eq_zero

/-- A call on a map that satisfies the invariant returns a map that satisfies the invariant
and is empty exactly when the map was empty and the call does not insert. -/
theorem applyOp_spec [LinearOrder K] [Zero V] {m : TreeMap K V} (hm : Inv m) (op : Op K V) :
    ∃ m1, m.applyOp op = some m1 ∧ Inv m1 ∧
      (m1.isEmpty = true ↔ m.isEmpty = true ∧ m.opInserts op = false) := by
  cases op with
  | insert k v =>
    obtain ⟨m1, hins, hinv, hmem, -⟩ := insert_spec hm k v
    refine ⟨m1, hins, hinv, ?_⟩
    have hne : m1.toList ≠ [] := List.ne_nil_of_mem ((hmem k v).2 (Or.inl ⟨rfl, rfl⟩))
    simp [hinv.isEmpty_iff_toList, hne, TreeMap.opInserts]
  | access k =>
    obtain ⟨w, m1, hacc, hinv, hhit, hmiss⟩ := access_spec hm k
    refine ⟨m1, by simp [TreeMap.applyOp, hacc], hinv, ?_⟩
    by_cases hk : k ∈ m.keys
    · obtain ⟨v, hv⟩ := mem_keys_iff.1 hk
      obtain ⟨-, hl, -⟩ := hhit v hv
      simp [hinv.isEmpty_iff_toList, hm.isEmpty_iff_toList, hl, TreeMap.opInserts, hk]
    · obtain ⟨-, -, hmem⟩ := hmiss hk
      have hne : m1.toList ≠ [] := List.ne_nil_of_mem ((hmem k 0).2 (Or.inl ⟨rfl, rfl⟩))
      simp [hinv.isEmpty_iff_toList, hne, TreeMap.opInserts, hk]
  | value k =>
    obtain ⟨r, m1, hv, hinv, hl, -⟩ := value_spec hm k
    refine ⟨m1, by simp [TreeMap.applyOp, hv], hinv, ?_⟩
    simp [hinv.isEmpty_iff_toList, hm.isEmpty_iff_toList, hl, TreeMap.opInserts]
  | contains k =>
    obtain ⟨m1, hc, hinv, hl, -⟩ := contains_spec hm k
    refine ⟨m1, by simp [TreeMap.applyOp, hc], hinv, ?_⟩
    simp [hinv.isEmpty_iff_toList, hm.isEmpty_iff_toList, hl, TreeMap.opInserts]

theorem runOps_spec [LinearOrder K] [Zero V] (ops : List (Op K V)) :
    ∀ (m : TreeMap K V), Inv m →
      ∃ m1, m.runOps ops = some m1 ∧ Inv m1 ∧
        (m1.isEmpty = true ↔ m.isEmpty = true ∧ m.insertionFree ops = true) := by
  induction ops with
  | nil => intro m hm; exact ⟨m, rfl, hm, by simp [TreeMap.insertionFree]⟩
  | cons op rest ih =>
    intro m hm
    obtain ⟨m1, hop, hinv, hiff⟩ := applyOp_spec hm op
    obtain ⟨m2, hrun, hinv2, hiff2⟩ := ih m1 hinv
    refine ⟨m2, by simp [TreeMap.runOps, hop, hrun], hinv2, ?_⟩
    rw [hiff2, hiff]
    simp only [TreeMap.insertionFree, hop, Bool.and_eq_true, Bool.not_eq_true']
    tauto

/-! ## Parent-consistent links lay the heap out as a tree -/

theorem ancestor_add (h : List (Node K V)) :
    ∀ (i j a : Nat), ancestor h (i + j) a = (ancestor h i a).bind (ancestor h j) := by
  intro i
  induction i with
  | zero => intro j a; simp [ancestor]
  | succ i ih =>
    intro j a
    rw [Nat.succ_add]
    simp only [ancestor]
    cases hn : h[a]? with
    | none => simp
    | some n =>
      cases hq : n.parent with
      | none => simp [hq]
      | some q => simp [hq, ih]

theorem ancestor_root {h : List (Node K V)} {r : Nat} {rn : Node K V} (hr : h[r]? = some rn)
    (hp : rn.parent = none) (j : Nat) : ancestor h (j + 1) r = none := by
  simp [ancestor, hr, hp]

theorem ancestor_child {h : List (Node K V)} {c cl : Nat} {cn : Node K V}
    (hcl : h[cl]? = some cn) (hp : cn.parent = some c) : ancestor h 1 cl = some c := by
  simp [ancestor, hcl, hp]

theorem ancestor_lt_unique {h : List (Node K V)} {r : Nat} {rn : Node K V}
    (hr : h[r]? = some rn) (hp : rn.parent = none) {a i j : Nat} (hij : i < j)
    (hi : ancestor h i a = some r) : ancestor h j a ≠ some r := by
  obtain ⟨k, rfl⟩ : ∃ k, j = i + (k + 1) := ⟨j - i - 1, by omega⟩
  rw [ancestor_add, hi, Option.some_bind, ancestor_root hr hp]
  simp

/-- A node has one depth: the number of `parent` links up to the root. -/
theorem ancestor_depth_unique {h : List (Node K V)} {r : Nat} {rn : Node K V}
    (hr : h[r]? = some rn) (hp : rn.parent = none) {a i j : Nat}
    (hi : ancestor h i a = some r) (hj : ancestor h j a = some r) : i = j := by
  rcases Nat.lt_trichotomy i j with hlt | heq | hgt
  · exact absurd hj (ancestor_lt_unique hr hp hlt hi)
  · exact heq
  · exact absurd hi (ancestor_lt_unique hr hp hgt hj)

theorem reach_none (h : List (Node K V)) (f : Nat) : reach h f none = [] := by
  cases f <;> rfl

theorem reach_lt {h : List (Node K V)} :
    ∀ (f : Nat) (p : Option Nat) (a : Nat), a ∈ reach h f p → a < h.length := by
  intro f
  induction f with
  | zero => intro p a ha; simp [reach] at ha
  | succ f ih =>
    intro p a ha
    cases p with
    | none => simp [reach] at ha
    | some c =>
      simp only [reach] at ha
      cases hc : h[c]? with
      | none => simp [hc] at ha
      | some n =>
        simp only [hc, List.mem_cons, List.mem_append] at ha
        rcases ha with rfl | ha | ha
        · exact lt_length_of_get hc
        · exact ih _ _ ha
        · exact ih _ _ ha

theorem reach_succ {h : List (Node K V)} {c : Nat} {n : Node K V} (hc : h[c]? = some n)
    (f : Nat) : reach h (f + 1) (some c) = c :: (reach h f n.left ++ reach h f n.right) := by
  simp [reach, hc]

/-- A node met from a pointer down has the node of the pointer among its ancestors. -/
theorem reach_ancestor {h : List (Node K V)} :
    ∀ (f : Nat) (p : Option Nat) (x : Nat), (∀ a ∈ reach h f p, LinkConsistent h a) →
      x ∈ reach h (f + 1) p → ∃ j, ancestor h j x = p := by
  intro f
  induction f with
  | zero =>
    intro p x _ hx
    cases p with
    | none => simp [reach] at hx
    | some c =>
      cases hc : h[c]? with
      | none => simp [reach, hc] at hx
      | some n =>
        rw [reach_succ hc] at hx
        simp only [reach, List.append_nil, List.mem_singleton] at hx
        exact ⟨0, by simp [ancestor, hx]⟩
  | succ f ih =>
    intro p x hgood hx
    cases p with
    | none => simp [reach] at hx
    | some c =>
      cases hc : h[c]? with
      | none => simp [reach, hc] at hx
      | some n =>
        rw [reach_succ hc] at hx hgood
        obtain ⟨n1, hn1, hleft, hright, -⟩ := hgood c (List.mem_cons_self _ _)
        rw [hc] at hn1
        simp only [Option.some.injEq] at hn1
        subst hn1
        simp only [List.mem_cons, List.mem_append] at hx
        rcases hx with rfl | hx | hx
        · exact ⟨0, rfl⟩
        · cases hl : n.left with
          | none => simp [hl, reach] at hx
          | some cl =>
            rw [hl] at hx
            obtain ⟨cn, hcn, hpar⟩ := hleft cl hl
            obtain ⟨j, hj⟩ := ih (some cl) x
              (fun a ha => hgood a (by rw [hl]; simp [ha])) hx
            exact ⟨j + 1, by rw [ancestor_add, hj, Option.some_bind, ancestor_child hcn hpar]⟩
        · cases hl : n.right with
          | none => simp [hl, reach] at hx
          | some cr =>
            rw [hl] at hx
            obtain ⟨cn, hcn, hpar⟩ := hright cr hl
            obtain ⟨j, hj⟩ := ih (some cr) x
              (fun a ha => hgood a (by rw [hl]; simp [ha])) hx
            exact ⟨j + 1, by rw [ancestor_add, hj, Option.some_bind, ancestor_child hcn hpar]⟩

/-- With consistent links no node is met twice from a pointer down. -/
theorem reach_nodup {h : List (Node K V)} {r : Nat} {rn : Node K V} (hr : h[r]? = some rn)
    (hp : rn.parent = none) :
    ∀ (f c i : Nat), (∀ a ∈ reach h f (some c), LinkConsistent h a) →
      ancestor h i c = some r → (reach h (f + 1) (some c)).Nodup := by
  intro f
  induction f with
  | zero =>
    intro c i _ _
    cases hc : h[c]? with
    | none => simp [reach, hc]
    | some n => rw [reach_succ hc]; simp [reach]
  | succ f ih =>
    intro c i hgood hi
    cases hc : h[c]? with
    | none => simp [reach, hc]
    | some n =>
      rw [reach_succ hc] at hgood
      rw [reach_succ hc]
      obtain ⟨n1, hn1, hleft, hright, hdiff⟩ := hgood c (List.mem_cons_self _ _)
      rw [hc] at hn1
      simp only [Option.some.injEq] at hn1
      subst hn1
      have hsub : ∀ (q : Option Nat), (q = n.left ∨ q = n.right) →
          ∀ a ∈ reach h f q, LinkConsistent h a := by
        intro q hq a ha
        refine hgood a ?_
        rcases hq with rfl | rfl <;> simp [ha]
      have hbelow : ∀ (q : Option Nat) (cq : Nat), (q = n.left ∨ q = n.right) → q = some cq →
          (ancestor h (i + 1) cq = some r) ∧
          ∀ x ∈ reach h (f + 1) q, ∃ j, ancestor h (j + 1 + i) x = some r ∧
            ancestor h j x = some cq := by
        intro q cq hq hqc
        have hcell : ∃ cn, h[cq]? = some cn ∧ cn.parent = some c := by
          rcases hq with rfl | rfl
          · exact hleft cq hqc
          · exact hright cq hqc
        obtain ⟨cn, hcn, hpar⟩ := hcell
        have h1 := ancestor_child hcn hpar
        refine ⟨by rw [Nat.add_comm, ancestor_add, h1, Option.some_bind, hi], ?_⟩
        intro x hx
        obtain ⟨j, hj⟩ := reach_ancestor f q x (hsub q hq) hx
        rw [hqc] at hj
        refine ⟨j, ?_, hj⟩
        rw [ancestor_add, ancestor_add, hj, Option.some_bind, h1, Option.some_bind, hi]
      have hpart : ∀ (q : Option Nat), (q = n.left ∨ q = n.right) →
          (reach h (f + 1) q).Nodup ∧ c ∉ reach h (f + 1) q := by
        intro q hq
        cases hqc : q with
        | none => simp [reach]
        | some cq =>
          obtain ⟨hcq, hall⟩ := hbelow q cq hq hqc
          rw [hqc] at hall
          refine ⟨ih cq (i + 1) (by rw [← hqc]; exact hsub q hq) hcq, ?_⟩
          intro hmem
          obtain ⟨j, hj, -⟩ := hall c hmem
          have := ancestor_depth_unique hr hp hi hj
          omega
      obtain ⟨hndl, hcl⟩ := hpart n.left (Or.inl rfl)
      obtain ⟨hndr, hcr⟩ := hpart n.right (Or.inr rfl)
      rw [List.nodup_cons, List.nodup_append]
      refine ⟨by simp [hcl, hcr], hndl, hndr, ?_⟩
      intro x hxl hxr
      cases hl : n.left with
      | none => simp [hl, reach] at hxl
      | some cl =>
        cases hrr : n.right with
        | none => simp [hrr, reach] at hxr
        | some cr =>
          obtain ⟨-, hall1⟩ := hbelow n.left cl (Or.inl rfl) hl
          obtain ⟨-, hall2⟩ := hbelow n.right cr (Or.inr rfl) hrr
          obtain ⟨j1, hj1, hj1c⟩ := hall1 x hxl
          obtain ⟨j2, hj2, hj2c⟩ := hall2 x hxr
          have hjj := ancestor_depth_unique hr hp hj1 hj2
          have : j1 = j2 := by omega
          subst this
          rw [hj1c] at hj2c
          simp only [Option.some.injEq] at hj2c
          subst hj2c
          exact hdiff cl hl hrr

theorem addrs_build (h : List (Node K V)) :
    ∀ (f : Nat) (p : Option Nat), (build h f p).addrs = reach h f p := by
  intro f
  induction f with
  | zero => intro p; rfl
  | succ f ih =>
    intro p
    cases p with
    | none => rfl
    | some c =>
      simp only [build, reach]
      cases h[c]? with
      | none => rfl
      | some n => simp [Tree.addrs, ih]

theorem ptr_build {h : List (Node K V)} (f : Nat) (p : Option Nat)
    (hp : ∀ c, p = some c → ∃ n, h[c]? = some n) : (build h (f + 1) p).ptr = p := by
  cases p with
  | none => rfl
  | some c =>
    obtain ⟨n, hn⟩ := hp c rfl
    simp [build, hn]

/-- Reading the heap off to depth `f + 1` meets at least `f + 1` nodes or yields a tree
the heap holds. -/
theorem build_rep {h : List (Node K V)} :
    ∀ (f c : Nat) (n : Node K V) (par : Option Nat), h[c]? = some n → n.parent = par →
      (∀ a ∈ reach h f (some c), LinkConsistent h a) →
      f + 1 ≤ (reach h (f + 1) (some c)).length ∨ (build h (f + 1) (some c)).Rep h par := by
  intro f
  induction f with
  | zero =>
    intro c n par hc _ _
    left
    rw [reach_succ hc]
    simp [reach]
  | succ f ih =>
    intro c n par hc hpar hgood
    rw [reach_succ hc] at hgood
    obtain ⟨n1, hn1, hleft, hright, -⟩ := hgood c (List.mem_cons_self _ _)
    rw [hc] at hn1
    simp only [Option.some.injEq] at hn1
    subst hn1
    have hpart : ∀ (q : Option Nat), (q = n.left ∨ q = n.right) →
        f + 1 ≤ (reach h (f + 1) q).length ∨
          ((build h (f + 1) q).Rep h (some c) ∧ (build h (f + 1) q).ptr = q) := by
      intro q hq
      cases hqc : q with
      | none => right; exact ⟨by simp [build, Tree.Rep], rfl⟩
      | some cq =>
        have hcell : ∃ cn, h[cq]? = some cn ∧ cn.parent = some c := by
          rcases hq with rfl | rfl
          · exact hleft cq hqc
          · exact hright cq hqc
        obtain ⟨cn, hcn, hcpar⟩ := hcell
        have hsub : ∀ a ∈ reach h f (some cq), LinkConsistent h a := by
          intro a ha
          refine hgood a ?_
          rw [← hqc] at ha
          rcases hq with rfl | rfl <;> simp [ha]
        rcases ih cq cn (some c) hcn hcpar hsub with hlen | hrep
        · exact Or.inl hlen
        · exact Or.inr ⟨hrep, ptr_build f (some cq) (fun _ hcc => ⟨cn, by
            simp only [Option.some.injEq] at hcc; subst hcc; exact hcn⟩)⟩
    rw [reach_succ hc]
    simp only [List.length_cons, List.length_append]
    rcases hpart n.left (Or.inl rfl) with hl | ⟨hl, hlp⟩
    · left; omega
    · rcases hpart n.right (Or.inr rfl) with hr | ⟨hr, hrp⟩
      · left; omega
      · right
        simp only [build, hc, Tree.Rep]
        refine ⟨?_, hl, hr⟩
        rw [hlp, hrp, ← hpar]

/-- A map whose links are parent-consistent node by node is laid out as a tree. -/
theorem isTree_of_parentConsistent {m : TreeMap K V} (hm : ParentConsistent m) :
    IsTree m := by
  obtain ⟨hroot, hgood⟩ := hm
  cases hr : m.root with
  | none => exact ⟨.nil, by simp [Models, hr, Tree.Rep, Tree.addrs]⟩
  | some r =>
    obtain ⟨rn, hrn, hrp⟩ := hroot r hr
    have hgood1 : ∀ a ∈ reach m.nodes m.nodes.length (some r), LinkConsistent m.nodes a := by
      intro a ha
      exact hgood a (by rw [TreeMap.reachable, hr]; exact ha)
    have hnd := reach_nodup hrn hrp m.nodes.length r 0 hgood1 rfl
    have hlen := length_le_of_nodup_of_lt hnd (reach_lt _ _)
    refine ⟨build m.nodes (m.nodes.length + 1) (some r), ?_, ?_, ?_⟩
    · rw [hr, ptr_build _ _ (fun c hc => ⟨rn, by
        simp only [Option.some.injEq] at hc; subst hc; exact hrn⟩)]
    · rcases build_rep m.nodes.length r rn none hrn hrp hgood1 with h1 | h1
      · omega
      · exact h1
    · rw [addrs_build]
      exact hnd

/-- The tree-shaped heaps are the maps with parent-consistent links. -/
theorem isTree_iff_parentConsistent {m : TreeMap K V} : IsTree m ↔ ParentConsistent m :=
  ⟨IsTree.parentConsistent, isTree_of_parentConsistent⟩

/-! ## Rotations and the search on a tree-shaped heap -/

theorem findClosest_models [LinearOrder K] {m : TreeMap K V} {t : Tree K V} (key : K)
    (hm : Models m t) : m.findClosest key = some (descend key t []).2.ptr := by
  cases t with
  | nil =>
    have hroot : m.root = none := hm.1
    simp [findClosest, isEmpty, hroot, descend]
  | node a l k v r =>
    have hroot : m.root = some a := hm.1
    have hfind := findClosestLoop_models key (.node a l k v r) none (m.nodes.length + 1) []
      hm.2.1 rfl (by have := hm.size_le; have := Tree.height_le_size (.node a l k v r); omega)
    simp only [Tree.ptr_node] at hfind
    simp [findClosest, isEmpty, hroot, hfind]

theorem Models.isEmpty_false {m : TreeMap K V} {t : Tree K V} (hm : Models m t)
    (hne : m.isEmpty = false) : t.ptr.isSome := by
  cases t with
  | nil =>
    have hroot : m.root = none := hm.1
    simp [isEmpty, hroot] at hne
  | node a l k v r => rfl

/-- The node `findClosest` returns, in the tree: the subtree the search stops at, below the
path the search walked. -/
theorem descend_zipper [LinearOrder K] (key : K) (t : Tree K V) (ht : t.ptr.isSome) :
    ∃ path e l k v r, descend key t [] = (path, .node e l k v r) ∧
      t = plug path (.node e l k v r) := by
  have hsome := descend_node key t [] ht
  have hplug := descend_plug key t []
  generalize hd : descend key t [] = d at *
  obtain ⟨path, s⟩ := d
  cases s with
  | nil => simp at hsome
  | node e l k v r => exact ⟨path, e, l, k, v, r, rfl, by simpa [plug] using hplug.symm⟩

/-- A node of a tree-shaped heap that has a parent is in the hole of a non-empty path, whose
innermost frame is the parent. -/
theorem Models.zipper_parent {m : TreeMap K V} {t : Tree K V} (hm : Models m t) {x p : Nat}
    {xn : Node K V} (hx : x ∈ m.reachable) (hxn : m.nodes[x]? = some xn)
    (hp : xn.parent = some p) :
    ∃ f rest l k v r, t = plug (f :: rest) (.node x l k v r) ∧ f.a = p := by
  rw [hm.reachable_eq] at hx
  obtain ⟨path, l, k, v, r, rfl⟩ := zipper_of_mem hx
  have hc := hm.cell
  rw [hxn] at hc
  simp only [Option.some.injEq] at hc
  subst hc
  cases path with
  | nil => simp [pathTop] at hp
  | cons f rest =>
    simp only [pathTop, Option.some.injEq] at hp
    exact ⟨f, rest, l, k, v, r, rfl, hp⟩

/-- The side of a node below its parent, read from the `left` and `right` links of the
parent. -/
theorem Models.frame_side {m : TreeMap K V} {f : Frame K V} {rest : List (Frame K V)}
    {x : Nat} {l r : Tree K V} {k : K} {v : V}
    (hm : Models m (plug (f :: rest) (.node x l k v r))) {pn : Node K V}
    (hpn : m.nodes[f.a]? = some pn) :
    (pn.right = some x → f.isLeft = false) ∧ (pn.left = some x → f.isLeft = true) := by
  obtain ⟨-, hrep, hnd⟩ := hm
  have hnd1 := (addrs_plug _ _).nodup_iff.1 hnd
  rw [rep_plug] at hrep
  simp only [RepPath] at hrep
  obtain ⟨⟨hp, -, -⟩, -⟩ := hrep
  rw [hpn] at hp
  simp only [Option.some.injEq] at hp
  subst hp
  have hxs : x ∉ f.sib.addrs := by
    simp only [pathAddrs, Frame.addrs, Tree.addrs, List.nodup_append, List.cons_append,
      List.nodup_cons, List.mem_append, List.mem_cons, not_or] at hnd1
    exact hnd1.1.2.2.1
  have hse : f.sib.ptr ≠ some x := Tree.ptr_ne_of_not_mem hxs
  cases hf : f.isLeft
  · simp [hse]
  · simp [hse]

theorem Models.isBST_iff [LinearOrder K] {m : TreeMap K V} {t : Tree K V} (hm : Models m t) :
    IsBST m ↔ t.BST := by
  constructor
  · rintro ⟨t1, ht1, hb⟩
    exact Tree.bst_of_toList_eq (hm.toList_eq.symm.trans ht1.toList_eq) hb
  · exact fun hb => ⟨t, hm, hb⟩

/-- A rotation of a node over its parent, in the direction its side dictates, keeps the
in-order sequence and the tree shape of the heap. -/
theorem rotate_toList {m : TreeMap K V} {f : Frame K V} {rest : List (Frame K V)}
    {e : Nat} {l r : Tree K V} {k : K} {v : V}
    (hm : Models m (plug (f :: rest) (.node e l k v r))) :
    ∃ m1, (if f.isLeft then rotateRight m (some e) else rotateLeft m (some e)) = some m1 ∧
      m1.toList = m.toList ∧ IsTree m1 ∧ ∀ [LinearOrder K], IsBST m → IsBST m1 := by
  obtain ⟨m1, hrot, hm1, -, -, -⟩ := rotate_models hm
  have hl : m1.toList = m.toList := by
    rw [hm1.toList_eq, hm.toList_eq, toList_plug, toList_plug, rotUp_toList]
    simp [plug, pathPre, pathPost, Frame.plug_toList, List.append_assoc]
  refine ⟨m1, hrot, hl, ⟨_, hm1⟩, ?_⟩
  intro _ hb
  rw [hm.isBST_iff] at hb
  rw [hm1.isBST_iff]
  exact Tree.bst_of_toList_eq (hm1.toList_eq.symm.trans (hl.trans hm.toList_eq)) hb

/-! ## The search path and the neighbours of a key -/

theorem searchPath_none [LinearOrder K] (key : K) (h : List (Node K V)) (fuel : Nat) :
    searchPath key h fuel none = [] := by
  cases fuel <;> rfl

theorem getLast?_cons_of_eq_some {α : Type} (a : α) {L : List α} {c : α}
    (h : L.getLast? = some c) : (a :: L).getLast? = some c := by
  cases L with
  | nil => simp at h
  | cons b L => rw [List.getLast?_cons_cons]; exact h

theorem searchPath_getLast [LinearOrder K] (key : K) {h : List (Node K V)} (t : Tree K V) :
    ∀ (par : Option Nat) (fuel : Nat) (path : List (Frame K V)), t.Rep h par →
      t.ptr.isSome → t.height ≤ fuel →
      (searchPath key h fuel t.ptr).getLast? = (descend key t path).2.ptr := by
  induction t with
  | nil => intro _ _ _ _ ht; simp at ht
  | node a l k v r ihl ihr =>
    intro par fuel path hrep _ hh
    simp only [Tree.height] at hh
    cases fuel with
    | zero => omega
    | succ fuel =>
      simp only [Tree.Rep] at hrep
      obtain ⟨ha, hl, hr⟩ := hrep
      simp only [searchPath, Tree.ptr_node, ha, descend]
      split_ifs with h1 h2 h3 h4
      · have ih := ihl _ fuel (⟨true, a, k, v, r⟩ :: path) hl h2 (by omega)
        obtain ⟨c, hc⟩ := Option.isSome_iff_exists.1 (descend_node key l
          (⟨true, a, k, v, r⟩ :: path) h2)
        rw [hc] at ih ⊢
        exact getLast?_cons_of_eq_some a ih
      · have : l.ptr = none := by simpa using h2
        simp [this, searchPath_none]
      · have ih := ihr _ fuel (⟨false, a, k, v, l⟩ :: path) hr h4 (by omega)
        obtain ⟨c, hc⟩ := Option.isSome_iff_exists.1 (descend_node key r
          (⟨false, a, k, v, l⟩ :: path) h4)
        rw [hc] at ih ⊢
        exact getLast?_cons_of_eq_some a ih
      · have : r.ptr = none := by simpa using h4
        simp [this, searchPath_none]
      · simp

/-- The method `findClosest` returns the last node of the search path. -/
theorem findClosest_searchPath [LinearOrder K] {m : TreeMap K V} {t : Tree K V} (key : K)
    (hm : Models m t) : m.findClosest key = some (m.searchPath key).getLast? := by
  rw [findClosest_models key hm]
  cases t with
  | nil =>
    have hroot : m.root = none := hm.1
    simp [TreeMap.searchPath, hroot, searchPath_none, descend]
  | node a l k v r =>
    have hroot : m.root = some a := hm.1
    have := searchPath_getLast key (.node a l k v r) none m.nodes.length [] hm.2.1 rfl
      ((Tree.height_le_size _).trans hm.size_le)
    simp only [Tree.ptr_node] at this
    simp [TreeMap.searchPath, hroot, this]

/-- The node the search stops at in a binary search tree: the entries on the path before it
are below the key and those after it above, and it holds the key or lacks the child on the
side of the key. -/
theorem descend_found [LinearOrder K] (key : K) (t : Tree K V) (hb : t.BST)
    (ht : t.ptr.isSome) :
    ∃ path e l k v r, descend key t [] = (path, .node e l k v r) ∧
      t = plug path (.node e l k v r) ∧
      (∀ x ∈ pathPre path, x.1 < key) ∧ (∀ x ∈ pathPost path, key < x.1) ∧
      (k = key ∨ (key < k ∧ l = .nil) ∨ (k < key ∧ r = .nil)) := by
  obtain ⟨path, e, l, k, v, r, hd, hplug⟩ := descend_zipper key t ht
  obtain ⟨e1, l1, k1, v1, r1, hd1, hpre, hpost, hc⟩ := descend_spec key t [] hb ht
    (by simp [pathPre]) (by simp [pathPost])
  rw [hd] at hd1 hpre hpost
  simp only [Tree.node.injEq] at hd1
  obtain ⟨rfl, rfl, rfl, rfl, rfl⟩ := hd1
  exact ⟨path, e, l, k, v, r, hd, hplug, hpre, hpost, hc⟩

theorem sorted_neighbour_above [LinearOrder K] {pre post : List (K × V)} {k key : K} {v : V}
    (hs : ((pre ++ (k, v) :: post).map Prod.fst).Pairwise (· < ·))
    (hpre : ∀ x ∈ pre, x.1 < key) :
    ∀ x ∈ (pre ++ (k, v) :: post).map Prod.fst, key < x → k ≤ x := by
  intro x hx hlt
  simp only [List.map_append, List.map_cons, List.pairwise_append, List.pairwise_cons,
    List.mem_map, List.mem_cons, Prod.exists, exists_and_right, exists_eq_right,
    forall_exists_index] at hs
  simp only [List.map_append, List.map_cons, List.mem_append, List.mem_map, List.mem_cons,
    Prod.exists, exists_and_right, exists_eq_right] at hx
  rcases hx with ⟨w, hw⟩ | rfl | ⟨w, hw⟩
  · exact absurd (hpre _ hw) (not_lt.2 hlt.le)
  · exact le_rfl
  · exact (hs.2.1.1 x w hw).le

theorem sorted_neighbour_below [LinearOrder K] {pre post : List (K × V)} {k key : K} {v : V}
    (hs : ((pre ++ (k, v) :: post).map Prod.fst).Pairwise (· < ·))
    (hpost : ∀ x ∈ post, key < x.1) :
    ∀ x ∈ (pre ++ (k, v) :: post).map Prod.fst, x < key → x ≤ k := by
  intro x hx hlt
  simp only [List.map_append, List.map_cons, List.pairwise_append, List.pairwise_cons,
    List.mem_map, List.mem_cons, Prod.exists, exists_and_right, exists_eq_right,
    forall_exists_index] at hs
  simp only [List.map_append, List.map_cons, List.mem_append, List.mem_map, List.mem_cons,
    Prod.exists, exists_and_right, exists_eq_right] at hx
  rcases hx with ⟨w, hw⟩ | rfl | ⟨w, hw⟩
  · exact (hs.2.2 x w hw k (Or.inl rfl)).le
  · exact le_rfl
  · exact absurd (hpost _ hw) (not_lt.2 hlt.le)

/-- The entries below a child pointer of the root of a tree-shaped heap. -/
theorem Models.entriesBelow_root {m : TreeMap K V} {e : Nat} {l r : Tree K V} {k : K} {v : V}
    (hm : Models m (.node e l k v r)) :
    m.entriesBelow l.ptr = l.toList ∧ m.entriesBelow r.ptr = r.toList := by
  have hs := hm.size_le
  simp only [Tree.size] at hs
  have hl := Tree.height_le_size l
  have hr := Tree.height_le_size r
  exact ⟨inorder_of_rep l (some e) _ hm.2.1.2.1 (by omega),
    inorder_of_rep r (some e) _ hm.2.1.2.2 (by omega)⟩

/-! ## One iteration of the loop of `splay` below the children of the root -/

/-- The two rotations of a double step, in the order the loop of `splay` calls them: in a
zig-zig the parent over the grandparent and then the node over the parent, in a zig-zag the
node over the parent and then over the grandparent. -/
theorem splayStep_rotations {m : TreeMap K V} {f g : Frame K V} {rest : List (Frame K V)}
    {e : Nat} {l r : Tree K V} {k : K} {v : V}
    (hm : Models m (plug (f :: g :: rest) (.node e l k v r))) :
    ∃ m1, splayStep m (some e) = some m1 ∧
      Models m1 (plug rest (if f.isLeft = g.isLeft then rotUp (f.zigZig g) (.node e l k v r)
        else rotUp g (rotUp f (.node e l k v r)))) ∧
      (if f.isLeft = g.isLeft then
        (if g.isLeft then rotateRight m (some f.a) else rotateLeft m (some f.a)).bind
          (fun m0 => if f.isLeft then rotateRight m0 (some e) else rotateLeft m0 (some e))
      else
        (if f.isLeft then rotateRight m (some e) else rotateLeft m (some e)).bind
          (fun m0 => if g.isLeft then rotateRight m0 (some e) else rotateLeft m0 (some e)))
        = some m1 := by
  obtain ⟨m1, hstep, hsz, hlen, hfrm, hm1⟩ := splayStep_models hm
  simp only at hm1
  refine ⟨m1, hstep, hm1, ?_⟩
  by_cases hfg : f.isLeft = g.isLeft
  · simp only [hfg, if_true] at hm1 ⊢
    have hm0 : ∃ a0 l0 k0 v0 r0, f.plug (.node e l k v r) = .node a0 l0 k0 v0 r0 ∧ a0 = f.a := by
      simp only [Frame.plug]
      split
      · exact ⟨_, _, _, _, _, rfl, rfl⟩
      · exact ⟨_, _, _, _, _, rfl, rfl⟩
    obtain ⟨a0, l0, k0, v0, r0, hpl, rfl⟩ := hm0
    have hmA : Models m (plug (g :: rest) (.node f.a l0 k0 v0 r0)) := by
      rw [← hpl]; exact hm
    have hpA := addrs_plug_rotUp g rest f.a l0 r0 k0 v0
    obtain ⟨mA, hrotA, hmA1, hszA, -, hfrmA⟩ := rotate_models hmA
    rw [← hpl, rotUp_zigZig f g _ hfg] at hmA1 hpA
    have hmB : Models mA (plug (f.zigZig g :: rest) (.node e l k v r)) := hmA1
    have hpB := addrs_plug_rotUp (f.zigZig g) rest e l r k v
    obtain ⟨mB, hrotB, hmB1, hszB, -, hfrmB⟩ := rotate_models hmB
    have hz : (f.zigZig g).isLeft = g.isLeft := by simp [Frame.zigZig, hfg]
    rw [hz] at hrotB
    have heq : mB = m1 := by
      refine Models.ext hmB1 hm1 ((hszB.trans hszA).trans hsz.symm) ?_
      intro a ha
      have ha1 : a ∉ (plug (f.zigZig g :: rest) (.node e l k v r)).addrs :=
        fun h => ha (hpB.mem_iff.2 h)
      have ha2 : a ∉ (plug (g :: rest) (f.plug (.node e l k v r))).addrs :=
        fun h => ha1 (hpA.mem_iff.2 h)
      rw [hfrmB a ha1, hfrmA a (by rw [← hpl]; exact ha2), hfrm a ha2]
    rw [hrotA]
    simp only [Option.some_bind]
    rw [hrotB, heq]
  · simp only [hfg, if_false] at hm1 ⊢
    have hpA := addrs_plug_rotUp f (g :: rest) e l r k v
    obtain ⟨mA, hrotA, hmA1, hszA, -, hfrmA⟩ := rotate_models hm
    obtain ⟨l1, r1, hru⟩ := rotUp_node f e l r k v
    rw [hru] at hmA1 hpA hm1
    have hpB := addrs_plug_rotUp g rest e l1 r1 k v
    obtain ⟨mB, hrotB, hmB1, hszB, -, hfrmB⟩ := rotate_models hmA1
    have heq : mB = m1 := by
      refine Models.ext hmB1 hm1 ((hszB.trans hszA).trans hsz.symm) ?_
      intro a ha
      have ha1 : a ∉ (plug (g :: rest) (.node e l1 k v r1)).addrs :=
        fun h => ha (hpB.mem_iff.2 h)
      have ha2 : a ∉ (plug (f :: g :: rest) (.node e l k v r)).addrs :=
        fun h => ha1 (hpA.mem_iff.2 h)
      rw [hfrmB a ha1, hfrmA a ha2, hfrm a ha2]
    rw [hrotA]
    simp only [Option.some_bind]
    rw [hrotB, heq]

/-- One iteration of the loop of `splay` on a node that is not the root returns a tree in
which the node is one level higher if its parent was the root and two levels higher
otherwise. -/
theorem splayStep_depth {m : TreeMap K V} {f : Frame K V} {rest : List (Frame K V)}
    {e : Nat} {l r : Tree K V} {k : K} {v : V}
    (hm : Models m (plug (f :: rest) (.node e l k v r))) :
    ∃ m1, splayStep m (some e) = some m1 ∧ IsTree m1 ∧ e ∈ m1.reachable ∧
      m1.depthOf e = some (rest.length - 1) := by
  obtain ⟨m1, hstep, -, -, -, hm1⟩ := splayStep_models hm
  refine ⟨m1, hstep, ?_⟩
  cases rest with
  | nil =>
    simp only at hm1
    obtain ⟨l1, r1, hru⟩ := rotUp_node f e l r k v
    rw [hru] at hm1
    have hm2 : Models m1 (plug [] (.node e l1 k v r1)) := hm1
    refine ⟨⟨_, hm1⟩, ?_, by simpa using hm2.depthOf_eq⟩
    rw [hm1.reachable_eq]
    simp [Tree.addrs]
  | cons g rest1 =>
    simp only at hm1
    have hnode : ∃ l1 r1, (if f.isLeft = g.isLeft then rotUp (f.zigZig g) (.node e l k v r)
        else rotUp g (rotUp f (.node e l k v r))) = .node e l1 k v r1 := by
      split
      · exact rotUp_node _ e l r k v
      · obtain ⟨l0, r0, h0⟩ := rotUp_node f e l r k v
        rw [h0]
        exact rotUp_node _ e l0 r0 k v
    obtain ⟨l1, r1, hn⟩ := hnode
    rw [hn] at hm1
    refine ⟨⟨_, hm1⟩, ?_, by simpa using hm1.depthOf_eq⟩
    rw [hm1.reachable_eq]
    exact (addrs_plug _ _).mem_iff.2 (by simp [Tree.addrs])

/-- The loop of `splay` on a node at depth `d` ends within `(d + 1) / 2` iterations. -/
theorem splayLoop_iterations (path : List (Frame K V)) :
    ∀ (fuel : Nat) (m : TreeMap K V) (e : Nat) (l r : Tree K V) (k : K) (v : V),
      (path.length + 1) / 2 < fuel → Models m (plug path (.node e l k v r)) →
      ∃ m1, splayLoop fuel m (some e) = some m1 ∧
        Models m1 (splayUp path (.node e l k v r)) := by
  generalize hn : path.length = n
  induction n using Nat.strong_induction_on generalizing path with
  | _ n ih =>
    intro fuel m e l r k v hfuel hm
    cases fuel with
    | zero => omega
    | succ fuel =>
      cases path with
      | nil =>
        refine ⟨m, ?_, by simpa [splayUp, plug] using hm⟩
        have hroot : m.root = some e := by simpa [plug] using hm.1
        simp [splayLoop, hroot]
      | cons f rest =>
        have hne := hm.root_ne
        obtain ⟨m1, hstep, -, -, -, hm1⟩ := splayStep_models hm
        cases rest with
        | nil =>
          simp only at hm1
          obtain ⟨l1, r1, hru⟩ := rotUp_node f e l r k v
          rw [hru] at hm1
          simp only [List.length_singleton] at hn hfuel
          obtain ⟨m2, hloop, hm2⟩ :=
            ih 0 (by omega) [] rfl fuel m1 e l1 r1 k v (by omega)
              (by simpa [plug] using hm1)
          refine ⟨m2, ?_, ?_⟩
          · simp [splayLoop, hne, hstep, hloop]
          · simpa [splayUp, hru] using hm2
        | cons g rest1 =>
          simp only at hm1
          simp only [List.length_cons] at hn hfuel
          by_cases hfg : f.isLeft = g.isLeft
          · simp only [hfg, if_true] at hm1
            obtain ⟨l1, r1, hru⟩ := rotUp_node (f.zigZig g) e l r k v
            rw [hru] at hm1
            obtain ⟨m2, hloop, hm2⟩ :=
              ih rest1.length (by omega) rest1 rfl fuel m1 e l1 r1 k v (by omega) hm1
            refine ⟨m2, ?_, ?_⟩
            · simp [splayLoop, hne, hstep, hloop]
            · simpa [splayUp, hfg, hru] using hm2
          · simp only [hfg, if_false] at hm1
            obtain ⟨l0, r0, hru0⟩ := rotUp_node f e l r k v
            obtain ⟨l1, r1, hru⟩ := rotUp_node g e l0 r0 k v
            rw [hru0, hru] at hm1
            obtain ⟨m2, hloop, hm2⟩ :=
              ih rest1.length (by omega) rest1 rfl fuel m1 e l1 r1 k v (by omega) hm1
            refine ⟨m2, ?_, ?_⟩
            · simp [splayLoop, hne, hstep, hloop]
            · simpa [splayUp, hfg, hru0, hru] using hm2

/-- The result of the loop of `splay` does not depend on the budget, once it returns. -/
theorem splayLoop_mono : ∀ (fuel : Nat) (m m1 : TreeMap K V) (el : Option Nat),
    splayLoop fuel m el = some m1 → ∀ fuel1, fuel ≤ fuel1 → splayLoop fuel1 m el = some m1 := by
  intro fuel
  induction fuel with
  | zero => intro m m1 el h; simp [splayLoop] at h
  | succ fuel ih =>
    intro m m1 el h fuel1 hle
    cases fuel1 with
    | zero => omega
    | succ fuel1 =>
      simp only [splayLoop] at h ⊢
      split
      · rename_i heq
        simpa [heq] using h
      · rename_i hneq
        simp only [hneq, if_false] at h
        cases hs : splayStep m el with
        | none => simp [hs] at h
        | some m2 =>
          simp only [hs, Option.bind_eq_bind, Option.some_bind] at h ⊢
          exact ih m2 m1 el h fuel1 (by omega)

/-- C5, as the code has it (insert rewiring direction): on every non-empty map reachable
from the empty map and every key `k` not stored in it, `insert(k, v)` makes the freshly
allocated node, which holds `(k, v)`, the root and attaches the previous root (the root
that splaying on `k` produces) as its right child if `k` is less than the previous root's
key, and as its left child otherwise. -/
theorem C5_insert_rewiring_direction [LinearOrder K] [Zero V] (m : TreeMap K V)
    (hm : Reachable m) (hne : m.isEmpty = false) (k : K) (hk : k ∉ m.keys) (v : V) :
    ∃ ms e en m1 rn, m.splay k = some ms ∧ ms.root = some e ∧ ms.nodes[e]? = some en ∧
      m.insert k v = some m1 ∧ m1.root = some m.nodes.length ∧
      m1.nodes[m.nodes.length]? = some rn ∧ rn.key = k ∧ rn.value = v ∧
      (if k < en.key then rn.right = some e else rn.left = some e) := by
  obtain ⟨t, ht, hb, -⟩ := hm.inv
  obtain ⟨ms, hsp, hms, -, -, -⟩ := splay_models k ht
  obtain ⟨m1, hins, hm1, -, -⟩ := insert_models k v ht
  have hnone : (splayT k t).rootLookup k = none :=
    (rootLookup_splayT_none k hb).2 (by rw [← ht.keys_eq]; exact hk)
  have hsome : (splayT k t).ptr.isSome := by
    refine splayT_ptr k t ?_
    rw [← ht.1]
    simpa [isEmpty, Option.isSome_iff_ne_none] using hne
  simp only [insertT] at hm1
  generalize splayT k t = T at *
  cases T with
  | nil => simp at hsome
  | node e l k1 v1 r =>
    have hk1 : k1 ≠ k := by
      intro h
      simp [Tree.rootLookup, h] at hnone
    simp only [hk1, if_false] at hm1
    obtain ⟨hroot, hrep, -⟩ := hms
    simp only [Tree.Rep] at hrep
    refine ⟨ms, e, ⟨k1, v1, none, l.ptr, r.ptr⟩, m1, ?_⟩
    by_cases hlt : k < k1
    · simp only [hlt, if_true] at hm1
      obtain ⟨hroot1, hrep1, -⟩ := hm1
      simp only [Tree.Rep, Tree.ptr_node] at hrep1
      exact ⟨_, hsp, hroot, hrep.1, hins, hroot1, hrep1.1, rfl, rfl, by simp [hlt]⟩
    · simp only [hlt, if_false] at hm1
      obtain ⟨hroot1, hrep1, -⟩ := hm1
      simp only [Tree.Rep, Tree.ptr_node] at hrep1
      exact ⟨_, hsp, hroot, hrep.1, hins, hroot1, hrep1.1, rfl, rfl, by simp [hlt]⟩

/-- The rewiring of C5 on the map that holds the key 5: inserting `(3, 2)`. -/
theorem C5_insert_rewiring_direction_witness :
    ∃ ms e en m1 rn,
      (TreeMap.mk [⟨5, 1, none, none, none⟩] (some 0) 1 : TreeMap Nat Nat).splay 3 = some ms ∧
      ms.root = some e ∧ ms.nodes[e]? = some en ∧
      (TreeMap.mk [⟨5, 1, none, none, none⟩] (some 0) 1 : TreeMap Nat Nat).insert 3 2
        = some m1 ∧
      m1.root = some
        (TreeMap.mk [⟨5, 1, none, none, none⟩] (some 0) 1 : TreeMap Nat Nat).nodes.length ∧
      m1.nodes[(TreeMap.mk [⟨5, 1, none, none, none⟩] (some 0) 1 :
        TreeMap Nat Nat).nodes.length]? = some rn ∧
      rn.key = 3 ∧ rn.value = 2 ∧
      (if 3 < en.key then rn.right = some e else rn.left = some e) :=
  C5_insert_rewiring_direction _ (Reachable.insert 5 1 Reachable.empty rfl) rfl 3
    (by decide) 2

/-- C5, as the specification has it, fails: on the map that holds the key 5, `insert(3, 2)`
does not attach the previous root as the left child of the new root. -/
theorem C5_counterexample :
    ¬ ∀ (m : TreeMap Nat Nat), Reachable m → m.isEmpty = false → ∀ k, k ∉ m.keys → ∀ v,
      ∃ ms e en m1 rn, m.splay k = some ms ∧ ms.root = some e ∧ ms.nodes[e]? = some en ∧
        m.insert k v = some m1 ∧ m1.root = some m.nodes.length ∧
        m1.nodes[m.nodes.length]? = some rn ∧ rn.key = k ∧ rn.value = v ∧
        (if k < en.key then rn.left = some e else rn.right = some e) := by
  intro h
  obtain ⟨ms, e, en, m1, rn, h1, h2, h3, h4, -, h6, -, -, h9⟩ :=
    h ⟨[⟨5, 1, none, none, none⟩], some 0, 1⟩ (Reachable.insert 5 1 Reachable.empty rfl) rfl 3
      (by decide) 2
  have e1 : (TreeMap.mk [⟨5, 1, none, none, none⟩] (some 0) 1 : TreeMap Nat Nat).splay 3
      = some ⟨[⟨5, 1, none, none, none⟩], some 0, 1⟩ := rfl
  have e2 : (TreeMap.mk [⟨5, 1, none, none, none⟩] (some 0) 1 : TreeMap Nat Nat).insert 3 2
      = some ⟨[⟨5, 1, some 1, none, none⟩, ⟨3, 2, none, none, some 0⟩], some 1, 2⟩ := rfl
  rw [e1] at h1
  rw [e2] at h4
  cases h1
  cases h4
  cases h2
  cases h3
  cases h6
  simp at h9

/-- C6 (idempotent re-insert): on every map reachable from the empty map, `insert(k, v1)`
followed by `insert(k, v2)` returns, leaves `size()` as it was after the first insert, and
afterwards `value(k)` returns `v2`. -/
theorem C6_reinsert_idempotent [LinearOrder K] [Zero V] (m : TreeMap K V) (hm : Reachable m)
    (k : K) (v1 v2 : V) :
    ∃ m1 m2, m.insert k v1 = some m1 ∧ m1.insert k v2 = some m2 ∧ m2.size = m1.size ∧
      ∃ m3, m2.value k = some (Lookup.found v2, m3) := by
  obtain ⟨m1, hins1, hinv1, hmem1, -⟩ := insert_spec hm.inv k v1
  obtain ⟨m2, hins2, hinv2, hmem2, hsize2⟩ := insert_spec hinv1 k v2
  have hk1 : k ∈ m1.keys := mem_keys_iff.2 ⟨v1, (hmem1 k v1).2 (Or.inl ⟨rfl, rfl⟩)⟩
  rw [if_pos hk1] at hsize2
  obtain ⟨r, m3, hv, -, -, -, hfound, -⟩ := value_spec hinv2 k
  have hr : r = Lookup.found v2 := (hfound v2).2 ((hmem2 k v2).2 (Or.inl ⟨rfl, rfl⟩))
  subst hr
  exact ⟨m1, m2, hins1, hins2, hsize2, m3, hv⟩

/-- The re-insert of C6 on the map that holds the keys 5 and 3: `insert(7, 1)` and then
`insert(7, 2)`. -/
theorem C6_reinsert_idempotent_witness :
    ∃ m1 m2,
      (TreeMap.mk [⟨5, 1, some 1, none, none⟩, ⟨3, 2, none, none, some 0⟩] (some 1) 2 :
        TreeMap Nat Nat).insert 7 1 = some m1 ∧
      m1.insert 7 2 = some m2 ∧ m2.size = m1.size ∧
      ∃ m3, m2.value 7 = some (Lookup.found 2, m3) :=
  C6_reinsert_idempotent _
    (Reachable.insert 3 2
      (Reachable.insert 5 1 Reachable.empty rfl :
        Reachable (TreeMap.mk [⟨5, 1, none, none, none⟩] (some 0) 1 : TreeMap Nat Nat)) rfl) 7 1 2

/-- C7 (size invariant): on every map reachable from the empty map, `size()` is the number
of nodes reachable from the root and the number of distinct keys stored; `insert(k, v)`
returns, and leaves `size()` unchanged if `k` is stored and increases it by one if not. -/
theorem C7_size_invariant [LinearOrder K] [Zero V] (m : TreeMap K V) (hm : Reachable m) :
    m.size = m.reachable.toFinset.card ∧ m.size = m.keys.toFinset.card ∧
      ∀ k v, ∃ m1, m.insert k v = some m1 ∧ (k ∈ m.keys → m1.size = m.size) ∧
        (k ∉ m.keys → m1.size = m.size + 1) := by
  have hinv := hm.inv
  have hsorted := hinv.keys_sorted
  have hsize := hinv.size_eq
  obtain ⟨t, ht, hb, hs⟩ := hinv
  refine ⟨?_, ?_, ?_⟩
  · rw [ht.reachable_eq, List.toFinset_card_of_nodup ht.2.2, Tree.length_addrs]
    exact hs
  · have hnd : m.keys.Nodup := hsorted.imp (fun h => ne_of_lt h)
    rw [List.toFinset_card_of_nodup hnd, hsize]
    simp [TreeMap.keys]
  · intro k v
    obtain ⟨m1, hins, -, -, hsz⟩ := insert_spec hm.inv k v
    refine ⟨m1, hins, fun h => ?_, fun h => ?_⟩
    · rw [hsz, if_pos h]
    · rw [hsz, if_neg h]

/-- The size invariant of C7 on the map that holds the keys 5 and 3. -/
theorem C7_size_invariant_witness :
    (TreeMap.mk [⟨5, 1, some 1, none, none⟩, ⟨3, 2, none, none, some 0⟩] (some 1) 2 :
        TreeMap Nat Nat).size =
      (TreeMap.mk [⟨5, 1, some 1, none, none⟩, ⟨3, 2, none, none, some 0⟩] (some 1) 2 :
        TreeMap Nat Nat).reachable.toFinset.card ∧
    (TreeMap.mk [⟨5, 1, some 1, none, none⟩, ⟨3, 2, none, none, some 0⟩] (some 1) 2 :
        TreeMap Nat Nat).size =
      (TreeMap.mk [⟨5, 1, some 1, none, none⟩, ⟨3, 2, none, none, some 0⟩] (some 1) 2 :
        TreeMap Nat Nat).keys.toFinset.card ∧
    ∀ k v, ∃ m1,
      (TreeMap.mk [⟨5, 1, some 1, none, none⟩, ⟨3, 2, none, none, some 0⟩] (some 1) 2 :
        TreeMap Nat Nat).insert k v = some m1 ∧
      (k ∈ (TreeMap.mk [⟨5, 1, some 1, none, none⟩, ⟨3, 2, none, none, some 0⟩] (some 1) 2 :
        TreeMap Nat Nat).keys →
        m1.size = (TreeMap.mk [⟨5, 1, some 1, none, none⟩, ⟨3, 2, none, none, some 0⟩]
          (some 1) 2 : TreeMap Nat Nat).size) ∧
      (k ∉ (TreeMap.mk [⟨5, 1, some 1, none, none⟩, ⟨3, 2, none, none, some 0⟩] (some 1) 2 :
        TreeMap Nat Nat).keys →
        m1.size = (TreeMap.mk [⟨5, 1, some 1, none, none⟩, ⟨3, 2, none, none, some 0⟩]
          (some 1) 2 : TreeMap Nat Nat).size + 1) :=
  C7_size_invariant _
    (Reachable.insert 3 2
      (Reachable.insert 5 1 Reachable.empty rfl :
        Reachable (TreeMap.mk [⟨5, 1, none, none, none⟩] (some 0) 1 : TreeMap Nat Nat)) rfl)

/-- C8 (size accounting from the empty map): inserting entries with pairwise distinct
keys, in any order and with any values, into the empty map returns a map whose `size()` is
their number; inserting one key any positive number of times returns a map whose `size()`
is 1. -/
theorem C8_size_accounting [LinearOrder K] :
    (∀ ops : List (K × V), (ops.map Prod.fst).Nodup →
      ∃ m, (TreeMap.empty : TreeMap K V).insertAll ops = some m ∧ m.size = ops.length) ∧
    ∀ (k : K) (vs : List V), vs ≠ [] →
      ∃ m, (TreeMap.empty : TreeMap K V).insertAll (vs.map (fun v => (k, v))) = some m ∧
        m.size = 1 := by
  constructor
  · intro ops hnd
    obtain ⟨m, hall, hsz⟩ := insertAll_distinct ops (TreeMap.empty : TreeMap K V) inv_empty hnd
      (by intro kv _; simp [TreeMap.keys, TreeMap.toList, TreeMap.empty, inorder])
    refine ⟨m, hall, ?_⟩
    rw [hsz]
    simp [TreeMap.size, TreeMap.empty]
  · intro k vs hvs
    cases vs with
    | nil => exact absurd rfl hvs
    | cons v rest =>
      obtain ⟨m1, hins, hinv, hmem, hsize⟩ :=
        insert_spec (inv_empty : Inv (TreeMap.empty : TreeMap K V)) k v
      have hk0 : k ∉ (TreeMap.empty : TreeMap K V).keys := by
        simp [TreeMap.keys, TreeMap.toList, TreeMap.empty, inorder]
      rw [if_neg hk0] at hsize
      obtain ⟨m2, hall, hsz2⟩ :=
        insertAll_same k rest m1 hinv (mem_keys_iff.2 ⟨v, (hmem k v).2 (Or.inl ⟨rfl, rfl⟩)⟩)
      refine ⟨m2, by simp [TreeMap.insertAll, hins, hall], ?_⟩
      rw [hsz2, hsize]
      simp [TreeMap.size, TreeMap.empty]

/-- The size accounting of C8 for the keys 5, 3, 8, 1 and for three inserts of the
key 7. -/
theorem C8_size_accounting_witness :
    (∃ m, (TreeMap.empty : TreeMap Nat Nat).insertAll [(5, 1), (3, 2), (8, 3), (1, 4)]
        = some m ∧ m.size = [(5, 1), (3, 2), (8, 3), (1, 4)].length) ∧
    ∃ m, (TreeMap.empty : TreeMap Nat Nat).insertAll ([1, 2, 3].map (fun v => (7, v)))
        = some m ∧ m.size = 1 :=
  ⟨(@C8_size_accounting Nat Nat _).1 [(5, 1), (3, 2), (8, 3), (1, 4)] (by decide),
    (@C8_size_accounting Nat Nat _).2 7 [1, 2, 3] (by decide)⟩

/-- C9 (default-access): on every map reachable from the empty map, the empty map
included, `operator[](k)` returns; if `k` is stored it returns the stored value and leaves
the entries and `size()` as they are; if `k` is not stored it returns the zero of the value
type, `size()` grows by one, the entries are those of before together with `(k, 0)`, and
afterwards `contains(k)` is true. -/
theorem C9_default_access [LinearOrder K] [Zero V] (m : TreeMap K V) (hm : Reachable m)
    (k : K) :
    ∃ w m1, m.access k = some (w, m1) ∧
      (∀ v, (k, v) ∈ m.toList → w = v ∧ m1.toList = m.toList ∧ m1.size = m.size) ∧
      (k ∉ m.keys → w = 0 ∧ m1.size = m.size + 1 ∧
        (∀ k1 v1, (k1, v1) ∈ m1.toList ↔ (k1 = k ∧ v1 = 0) ∨ (k1 ≠ k ∧ (k1, v1) ∈ m.toList)) ∧
        ∃ m2, m1.contains k = some (true, m2)) := by
  obtain ⟨w, m1, hacc, hinv1, hhit, hmiss⟩ := access_spec hm.inv k
  refine ⟨w, m1, hacc, hhit, fun hk => ?_⟩
  obtain ⟨hw, hsz, hmem⟩ := hmiss hk
  refine ⟨hw, hsz, hmem, ?_⟩
  obtain ⟨m2, hc, -⟩ := contains_spec hinv1 k
  refine ⟨m2, ?_⟩
  rw [hc]
  simp [mem_keys_iff.2 ⟨0, (hmem k 0).2 (Or.inl ⟨rfl, rfl⟩)⟩]

/-- The default-access of C9 on the empty map: `operator[](6)`. -/
theorem C9_default_access_witness :
    ∃ w m1, (TreeMap.empty : TreeMap Nat Nat).access 6 = some (w, m1) ∧
      (∀ v, (6, v) ∈ (TreeMap.empty : TreeMap Nat Nat).toList →
        w = v ∧ m1.toList = (TreeMap.empty : TreeMap Nat Nat).toList ∧
          m1.size = (TreeMap.empty : TreeMap Nat Nat).size) ∧
      (6 ∉ (TreeMap.empty : TreeMap Nat Nat).keys →
        w = 0 ∧ m1.size = (TreeMap.empty : TreeMap Nat Nat).size + 1 ∧
        (∀ k1 v1, (k1, v1) ∈ m1.toList ↔
          (k1 = 6 ∧ v1 = 0) ∨ (k1 ≠ 6 ∧ (k1, v1) ∈ (TreeMap.empty : TreeMap Nat Nat).toList)) ∧
        ∃ m2, m1.contains 6 = some (true, m2)) :=
  C9_default_access _ Reachable.empty 6

/-- C10 (queries do not change the contents): on every map reachable from the empty map,
`contains(k)` and `value(k)` return, whether they hit or miss, and leave the in-order
sequence of entries and `size()` as they were. -/
theorem C10_queries_keep_contents [LinearOrder K] [Zero V] (m : TreeMap K V)
    (hm : Reachable m) (k : K) :
    (∃ b m1, m.contains k = some (b, m1) ∧ m1.toList = m.toList ∧ m1.size = m.size) ∧
    ∃ r m1, m.value k = some (r, m1) ∧ m1.toList = m.toList ∧ m1.size = m.size := by
  obtain ⟨m1, hc, -, hl1, hs1⟩ := contains_spec hm.inv k
  obtain ⟨r, m2, hv, -, hl2, hs2, -⟩ := value_spec hm.inv k
  exact ⟨⟨_, m1, hc, hl1, hs1⟩, r, m2, hv, hl2, hs2⟩

/-- The queries of C10 on the map that holds the keys 5 and 3: `contains(5)` and
`value(5)`, which change the shape. -/
theorem C10_queries_keep_contents_witness :
    (∃ b m1,
      (TreeMap.mk [⟨5, 1, some 1, none, none⟩, ⟨3, 2, none, none, some 0⟩] (some 1) 2 :
        TreeMap Nat Nat).contains 5 = some (b, m1) ∧
      m1.toList = (TreeMap.mk [⟨5, 1, some 1, none, none⟩, ⟨3, 2, none, none, some 0⟩]
        (some 1) 2 : TreeMap Nat Nat).toList ∧
      m1.size = (TreeMap.mk [⟨5, 1, some 1, none, none⟩, ⟨3, 2, none, none, some 0⟩]
        (some 1) 2 : TreeMap Nat Nat).size) ∧
    ∃ r m1,
      (TreeMap.mk [⟨5, 1, some 1, none, none⟩, ⟨3, 2, none, none, some 0⟩] (some 1) 2 :
        TreeMap Nat Nat).value 5 = some (r, m1) ∧
      m1.toList = (TreeMap.mk [⟨5, 1, some 1, none, none⟩, ⟨3, 2, none, none, some 0⟩]
        (some 1) 2 : TreeMap Nat Nat).toList ∧
      m1.size = (TreeMap.mk [⟨5, 1, some 1, none, none⟩, ⟨3, 2, none, none, some 0⟩]
        (some 1) 2 : TreeMap Nat Nat).size :=
  C10_queries_keep_contents _
    (Reachable.insert 3 2
      (Reachable.insert 5 1 Reachable.empty rfl :
        Reachable (TreeMap.mk [⟨5, 1, none, none, none⟩] (some 0) 1 : TreeMap Nat Nat)) rfl) 5

/-! ## The claims on the root, the empty map and emptiness -/

/-- C11 (splay to root): on every well-formed map (a tree-shaped heap that satisfies the BST
order) `insert(k, v)` returns and leaves `k` as the key of the root, whether or not `k` was
stored; if `k` is stored, `value(k)` and `contains(k)` return and leave `k` as the key of
the root. -/
theorem C11_splay_to_root [LinearOrder K] (m : TreeMap K V) (hm : IsBST m) (k : K) (v : V) :
    (∃ m1, m.insert k v = some m1 ∧ m1.rootKey = some k) ∧
    (k ∈ m.keys →
      (∃ r m1, m.value k = some (r, m1) ∧ m1.rootKey = some k) ∧
      ∃ b m1, m.contains k = some (b, m1) ∧ m1.rootKey = some k) := by
  obtain ⟨t, ht, hb⟩ := hm
  refine ⟨?_, fun hk => ?_⟩
  · obtain ⟨m1, hins, hm1, -, -⟩ := insert_models k v ht
    exact ⟨m1, hins, hm1.rootKey_eq (rootLookup_insertT k v _ t)⟩
  · obtain ⟨w, hw⟩ := mem_keys_iff.1 hk
    rw [ht.toList_eq] at hw
    have hl := (rootLookup_splayT k hb w).2 hw
    obtain ⟨m1, hv, -, hm1, -⟩ := value_models k ht
    obtain ⟨m2, hc, -, hm2, -⟩ := contains_models k ht
    exact ⟨⟨_, m1, hv, hm1.rootKey_eq hl⟩, _, m2, hc, hm2.rootKey_eq hl⟩

/-- The splay to the root of C11 on the map that holds the keys 5, 3, 8 and 1, for the
key 3. -/
theorem C11_splay_to_root_witness :
    (∃ m1, (TreeMap.mk [⟨5, 1, some 1, none, some 2⟩, ⟨3, 2, some 3, none, some 0⟩,
        ⟨8, 3, some 0, none, none⟩, ⟨1, 4, none, none, some 1⟩] (some 3) 4 :
        TreeMap Nat Nat).insert 3 9 = some m1 ∧ m1.rootKey = some 3) ∧
    (∃ r m1, (TreeMap.mk [⟨5, 1, some 1, none, some 2⟩, ⟨3, 2, some 3, none, some 0⟩,
        ⟨8, 3, some 0, none, none⟩, ⟨1, 4, none, none, some 1⟩] (some 3) 4 :
        TreeMap Nat Nat).value 3 = some (r, m1) ∧ m1.rootKey = some 3) ∧
    ∃ b m1, (TreeMap.mk [⟨5, 1, some 1, none, some 2⟩, ⟨3, 2, some 3, none, some 0⟩,
        ⟨8, 3, some 0, none, none⟩, ⟨1, 4, none, none, some 1⟩] (some 3) 4 :
        TreeMap Nat Nat).contains 3 = some (b, m1) ∧ m1.rootKey = some 3 := by
  have h := C11_splay_to_root (TreeMap.mk [⟨5, 1, some 1, none, some 2⟩,
    ⟨3, 2, some 3, none, some 0⟩, ⟨8, 3, some 0, none, none⟩,
    ⟨1, 4, none, none, some 1⟩] (some 3) 4 : TreeMap Nat Nat)
    ⟨.node 3 .nil 1 4 (.node 1 .nil 3 2 (.node 0 .nil 5 1 (.node 2 .nil 8 3 .nil))),
      ⟨rfl, by simp [Tree.Rep], by decide⟩, by simp [Tree.BST, Tree.toList]⟩ 3 9
  exact ⟨h.1, h.2 (by decide)⟩

/-- C12 (queries on the empty map are defined misses): on the empty map, for every key,
`contains` returns false and `value` fails with the not-found error, both leaving the empty
map with `size()` 0; no step fails on a null pointer: `findClosest` returns the null
pointer and the loop of `splay` ends at its first test, whatever budget it is given,
without a rotation. -/
theorem C12_empty_map_queries [LinearOrder K] (k : K) :
    (TreeMap.empty : TreeMap K V).contains k = some (false, TreeMap.empty) ∧
    (TreeMap.empty : TreeMap K V).value k = some (Lookup.notFound, TreeMap.empty) ∧
    (TreeMap.empty : TreeMap K V).findClosest k = some none ∧
    (∀ fuel, splayLoop (fuel + 1) (TreeMap.empty : TreeMap K V) none = some TreeMap.empty) ∧
    (TreeMap.empty : TreeMap K V).splay k = some TreeMap.empty ∧
    (TreeMap.empty : TreeMap K V).isEmpty = true ∧ (TreeMap.empty : TreeMap K V).size = 0 := by
  refine ⟨?_, ?_, ?_, ?_, ?_, rfl, rfl⟩
  · simp [TreeMap.contains, splay, findClosest, isEmpty, TreeMap.empty, splayLoop, andAlso]
  · simp [TreeMap.value, splay, findClosest, isEmpty, TreeMap.empty, splayLoop, andAlso]
  · simp [findClosest, isEmpty, TreeMap.empty]
  · intro fuel
    simp [splayLoop, TreeMap.empty]
  · simp [splay, findClosest, isEmpty, TreeMap.empty, splayLoop]

/-- C13 (characterisation of `isEmpty`): every sequence of calls of public operations on
the empty map returns a map on which `isEmpty()` is true exactly when no call of the sequence
inserted (no `insert` and no `operator[]` on a key not stored), and exactly when `size()` is
0; on that map `insert` returns a map on which `isEmpty()` is false, and once `isEmpty()` is
false it is false after every further sequence of calls. -/
theorem C13_isEmpty_characterisation [LinearOrder K] [Zero V] (ops : List (Op K V)) :
    ∃ m, (TreeMap.empty : TreeMap K V).runOps ops = some m ∧
      (m.isEmpty = true ↔ (TreeMap.empty : TreeMap K V).insertionFree ops = true) ∧
      (m.isEmpty = true ↔ m.size = 0) ∧
      (∀ k v, ∃ m1, m.insert k v = some m1 ∧ m1.isEmpty = false) ∧
      (m.isEmpty = false →
        ∀ ops1, ∃ m1, m.runOps ops1 = some m1 ∧ m1.isEmpty = false) := by
  obtain ⟨m, hrun, hinv, hiff⟩ := runOps_spec ops (TreeMap.empty : TreeMap K V) inv_empty
  refine ⟨m, hrun, ?_, hinv.isEmpty_iff_size, ?_, ?_⟩
  · rw [hiff]
    simp [isEmpty, TreeMap.empty]
  · intro k v
    obtain ⟨m1, hop, -, hiff1⟩ := applyOp_spec hinv (Op.insert k v)
    refine ⟨m1, hop, ?_⟩
    cases h : m1.isEmpty
    · rfl
    · simp [TreeMap.opInserts] at hiff1
      exact absurd h (by simp [hiff1])
  · intro hne ops1
    obtain ⟨m1, hrun1, -, hiff1⟩ := runOps_spec ops1 m hinv
    refine ⟨m1, hrun1, ?_⟩
    cases h : m1.isEmpty
    · rfl
    · exact absurd (hiff1.1 h).1 (by simp [hne])

/-- The characterisation of C13 on the map that `value(3)`, `operator[](4)`, `contains(4)`
leave: a further `contains(7)` and `value(4)` leave it non-empty. -/
theorem C13_isEmpty_characterisation_witness :
    ∃ m, (TreeMap.empty : TreeMap Nat Nat).runOps [Op.value 3, Op.access 4, Op.contains 4]
        = some m ∧
      (m.isEmpty = true ↔ (TreeMap.empty : TreeMap Nat Nat).insertionFree
        [Op.value 3, Op.access 4, Op.contains 4] = true) ∧
      ∃ m1, m.runOps [Op.contains 7, Op.value 4] = some m1 ∧ m1.isEmpty = false := by
  obtain ⟨m, h1, h2, -, -, h5⟩ :=
    @C13_isEmpty_characterisation Nat Nat _ _ [Op.value 3, Op.access 4, Op.contains 4]
  refine ⟨m, h1, h2, h5 ?_ [Op.contains 7, Op.value 4]⟩
  cases h : m.isEmpty
  · rfl
  · exact absurd (h2.1 h) (by decide)

/-! ## The claims on parent links, rotations and `splay` -/

/-- C14 (parent-consistency invariant): every map reachable from the empty map by the public
operations is parent-consistent: if `n.left = c` or `n.right = c` then `c.parent = n`, the
parent link of the root is null, and no node is both the left and the right child of its
parent; and on every parent-consistent map each of `insert`, `operator[]`, `value` and
`contains` returns a parent-consistent map. -/
theorem C14_parent_consistency [LinearOrder K] [Zero V] (m : TreeMap K V) :
    (Reachable m → ParentConsistent m) ∧
    (ParentConsistent m →
      (∀ k v, ∃ m1, m.insert k v = some m1 ∧ ParentConsistent m1) ∧
      (∀ k, ∃ w m1, m.access k = some (w, m1) ∧ ParentConsistent m1) ∧
      (∀ k, ∃ r m1, m.value k = some (r, m1) ∧ ParentConsistent m1) ∧
      (∀ k, ∃ b m1, m.contains k = some (b, m1) ∧ ParentConsistent m1)) := by
  refine ⟨fun hm => IsTree.parentConsistent hm.inv.isTree, fun hpc => ?_⟩
  obtain ⟨t, ht⟩ := isTree_of_parentConsistent hpc
  refine ⟨?_, ?_, ?_, ?_⟩
  · intro k v
    obtain ⟨m1, hins, hm1, -, -⟩ := insert_models k v ht
    exact ⟨m1, hins, IsTree.parentConsistent ⟨_, hm1⟩⟩
  · intro k
    obtain ⟨ms, -, hms, -, hacc⟩ := access_models k ht
    split at hacc
    · exact ⟨_, ms, hacc, IsTree.parentConsistent ⟨_, hms⟩⟩
    · obtain ⟨m1, hins, hacc⟩ := hacc
      obtain ⟨m2, hins2, hm2, -, -⟩ := insert_models k (0 : V) hms
      rw [hins] at hins2
      simp only [Option.some.injEq] at hins2
      subst hins2
      exact ⟨_, m1, hacc, IsTree.parentConsistent ⟨_, hm2⟩⟩
  · intro k
    obtain ⟨m1, hv, -, hm1, -⟩ := value_models k ht
    exact ⟨_, m1, hv, IsTree.parentConsistent ⟨_, hm1⟩⟩
  · intro k
    obtain ⟨m1, hc, -, hm1, -⟩ := contains_models k ht
    exact ⟨_, m1, hc, IsTree.parentConsistent ⟨_, hm1⟩⟩

/-- The parent-consistency of C14 on the map that `insert(5, 1)` and `insert(3, 2)` leave,
and after a further `insert(4, 7)`. -/
theorem C14_parent_consistency_witness :
    ParentConsistent (TreeMap.mk [⟨5, 1, some 1, none, none⟩, ⟨3, 2, none, none, some 0⟩]
      (some 1) 2 : TreeMap Nat Nat) ∧
    ∃ m1, (TreeMap.mk [⟨5, 1, some 1, none, none⟩, ⟨3, 2, none, none, some 0⟩]
      (some 1) 2 : TreeMap Nat Nat).insert 4 7 = some m1 ∧ ParentConsistent m1 := by
  have hr : Reachable (TreeMap.mk [⟨5, 1, some 1, none, none⟩, ⟨3, 2, none, none, some 0⟩]
      (some 1) 2 : TreeMap Nat Nat) :=
    Reachable.insert 3 2
      (Reachable.insert 5 1 Reachable.empty rfl :
        Reachable (TreeMap.mk [⟨5, 1, none, none, none⟩] (some 0) 1 : TreeMap Nat Nat)) rfl
  have h := C14_parent_consistency (TreeMap.mk [⟨5, 1, some 1, none, none⟩,
    ⟨3, 2, none, none, some 0⟩] (some 1) 2 : TreeMap Nat Nat)
  obtain ⟨m1, h1, h2⟩ := (h.2 (h.1 hr)).1 4 7
  exact ⟨h.1 hr, m1, h1, h2⟩

/-- C15 (rotations preserve the in-order sequence): in every parent-consistent tree, with no
assumption on the order of the keys, for every node `x` that is the right child of its
parent `rotateLeft(x)` returns and leaves the in-order sequence of (key, value) entries of
the whole tree unchanged, and so does `rotateRight(x)` for every node `x` that is the left
child of its parent; the result is a parent-consistent tree, and it satisfies the BST order
if the tree did.  The rotations take no order on the keys. -/
theorem C15_rotations_preserve_inorder (m : TreeMap K V) (hm : ParentConsistent m)
    (x p : Nat)
    (xn pn : Node K V) (hx : x ∈ m.reachable) (hxn : m.nodes[x]? = some xn)
    (hp : xn.parent = some p) (hpn : m.nodes[p]? = some pn) :
    (pn.right = some x → ∃ m1, m.rotateLeft (some x) = some m1 ∧ m1.toList = m.toList ∧
      ParentConsistent m1 ∧ ∀ [LinearOrder K], IsBST m → IsBST m1) ∧
    (pn.left = some x → ∃ m1, m.rotateRight (some x) = some m1 ∧ m1.toList = m.toList ∧
      ParentConsistent m1 ∧ ∀ [LinearOrder K], IsBST m → IsBST m1) := by
  obtain ⟨t, ht⟩ := isTree_of_parentConsistent hm
  obtain ⟨f, rest, l, k, v, r, rfl, rfl⟩ := ht.zipper_parent hx hxn hp
  obtain ⟨hright, hleft⟩ := ht.frame_side hpn
  obtain ⟨m1, hrot, hl, htree, hbst⟩ := rotate_toList ht
  have hres : m1.toList = m.toList ∧ ParentConsistent m1 ∧
      ∀ [LinearOrder K], IsBST m → IsBST m1 :=
    ⟨hl, IsTree.parentConsistent htree, @hbst⟩
  constructor
  · intro h
    rw [hright h] at hrot
    exact ⟨m1, by simpa using hrot, hres⟩
  · intro h
    rw [hleft h] at hrot
    exact ⟨m1, by simpa using hrot, hres⟩

/-- The rotation of C15 on the tree with root 3 and right child 5: `rotateLeft` of the
node of 5 keeps the in-order sequence. -/
theorem C15_rotations_preserve_inorder_witness :
    ∃ m1, (TreeMap.mk [⟨5, 1, some 1, none, none⟩, ⟨3, 2, none, none, some 0⟩]
        (some 1) 2 : TreeMap Nat Nat).rotateLeft (some 0) = some m1 ∧
      m1.toList = [(3, 2), (5, 1)] := by
  have h := (C15_rotations_preserve_inorder (TreeMap.mk [⟨5, 1, some 1, none, none⟩,
    ⟨3, 2, none, none, some 0⟩] (some 1) 2 : TreeMap Nat Nat)
    (IsTree.parentConsistent
      ⟨.node 1 .nil 3 2 (.node 0 .nil 5 1 .nil), rfl, by simp [Tree.Rep], by decide⟩)
    0 1 ⟨5, 1, some 1, none, none⟩ ⟨3, 2, none, none, some 0⟩ (by decide) rfl rfl rfl).1 rfl
  obtain ⟨m1, h1, h2, -⟩ := h
  exact ⟨m1, h1, h2⟩

/-- C16 (splay postcondition): on every non-empty well-formed tree (a map with
parent-consistent links; no order of the keys is needed) and for every key `k`,
`findClosest(k)` returns a node and `splay(k)` returns; after it the root is that node,
with the key and the value it had, its parent link is null, and the in-order sequence of
(key, value) entries of the tree is the one before `splay(k)`. -/
theorem C16_splay_postcondition [LinearOrder K] (m : TreeMap K V)
    (hm : ParentConsistent m) (hne : m.isEmpty = false) (k : K) :
    ∃ e en m1 rn, m.findClosest k = some (some e) ∧ m.nodes[e]? = some en ∧
      m.splay k = some m1 ∧ m1.root = some e ∧ m1.nodes[e]? = some rn ∧
      rn.key = en.key ∧ rn.value = en.value ∧ rn.parent = none ∧
      m1.toList = m.toList ∧ ParentConsistent m1 := by
  obtain ⟨t, ht⟩ := isTree_of_parentConsistent hm
  obtain ⟨path, e, l, k1, v1, r, hd, hplug⟩ := descend_zipper k t (ht.isEmpty_false hne)
  have hfind := findClosest_models k ht
  obtain ⟨m1, hsplay, hm1, -, -, -⟩ := splay_models k ht
  obtain ⟨l2, r2, hsp, -, -⟩ := splayUp_spec path e l r k1 v1
  have hl : m1.toList = m.toList := by
    rw [hm1.toList_eq, ht.toList_eq, splayT_toList]
  have hT : splayT k t = .node e l2 k1 v1 r2 := by simp [splayT, hd, hsp]
  rw [hT] at hm1
  rw [hd] at hfind
  subst hplug
  exact ⟨e, _, m1, _, hfind, ht.cell, hsplay, hm1.1, hm1.2.1.1, rfl, rfl, rfl, hl,
    IsTree.parentConsistent ⟨_, hm1⟩⟩

/-- The postcondition of C16 on the tree with root 3 and right child 5, for the key 7:
the node of 5 becomes the root. -/
theorem C16_splay_postcondition_witness :
    ∃ m1 rn, (TreeMap.mk [⟨5, 1, some 1, none, none⟩, ⟨3, 2, none, none, some 0⟩]
        (some 1) 2 : TreeMap Nat Nat).findClosest 7 = some (some 0) ∧
      (TreeMap.mk [⟨5, 1, some 1, none, none⟩, ⟨3, 2, none, none, some 0⟩]
        (some 1) 2 : TreeMap Nat Nat).splay 7 = some m1 ∧ m1.root = some 0 ∧
      m1.nodes[0]? = some rn ∧ rn.key = 5 ∧ rn.parent = none ∧
      m1.toList = [(3, 2), (5, 1)] := by
  obtain ⟨e, en, m1, rn, h1, h2, h3, h4, h5, h6, -, h8, h9, -⟩ :=
    C16_splay_postcondition (TreeMap.mk [⟨5, 1, some 1, none, none⟩,
      ⟨3, 2, none, none, some 0⟩] (some 1) 2 : TreeMap Nat Nat)
      (IsTree.parentConsistent
        ⟨.node 1 .nil 3 2 (.node 0 .nil 5 1 .nil), rfl, by simp [Tree.Rep], by decide⟩)
      rfl 7
  have he : e = 0 := by
    have : (TreeMap.mk [⟨5, 1, some 1, none, none⟩, ⟨3, 2, none, none, some 0⟩]
      (some 1) 2 : TreeMap Nat Nat).findClosest 7 = some (some 0) := rfl
    rw [this] at h1
    simpa using h1.symm
  subst he
  simp only [List.getElem?_cons_zero, Option.some.injEq] at h2
  subst h2
  exact ⟨m1, rn, h1, h3, h4, h5, h6, h8, h9⟩

/-! ## The claims on the double rotations, the search and the termination of `splay` -/

/-- C17 (double-rotation shapes): one iteration of the loop of `splay` on a node `x` with
parent `p` and grandparent `g`, the subtrees `A`, `B`, `C`, `D` in in-order position, turns
`g(p(x(A,B),C),D)` into `x(A,p(B,g(C,D)))` in the zig-zig case, by `rotateRight(p)` and
then `rotateRight(x)`, and `g(p(A,x(B,C)),D)` into `x(p(A,B),g(C,D))` in the zig-zag case;
the two mirrored cases give the mirrored results; the result stands where `g` stood: at the
root, or in the same child slot of the former parent of `g`. -/
theorem C17_double_rotation_shapes (m : TreeMap K V) (rest : List (Frame K V))
    (xLeft pLeft : Bool) (x p g : Nat) (ex ep eg : K × V) (A B C D : Tree K V)
    (hm : Models m (plug rest (doubleBefore xLeft pLeft x p g ex ep eg A B C D))) :
    ∃ m1, splayStep m (some x) = some m1 ∧
      Models m1 (plug rest (doubleAfter xLeft pLeft x p g ex ep eg A B C D)) ∧
      (if xLeft then
          if pLeft then (rotateRight m (some p)).bind (fun m0 => rotateRight m0 (some x))
          else (rotateRight m (some x)).bind (fun m0 => rotateLeft m0 (some x))
        else
          if pLeft then (rotateLeft m (some x)).bind (fun m0 => rotateRight m0 (some x))
          else (rotateLeft m (some p)).bind (fun m0 => rotateLeft m0 (some x)))
        = some m1 ∧
      (rest = [] → m.root = some g ∧ m1.root = some x) ∧
      ∀ h rest1, rest = h :: rest1 →
        (∃ hn, m.nodes[h.a]? = some hn ∧
          (if h.isLeft then hn.left = some g else hn.right = some g)) ∧
        ∃ hn, m1.nodes[h.a]? = some hn ∧
          (if h.isLeft then hn.left = some x else hn.right = some x) := by
  have hslot : ∀ (m0 : TreeMap K V) (s : Tree K V) (c : Nat), s.ptr = some c →
      Models m0 (plug rest s) →
      (rest = [] → m0.root = some c) ∧
      ∀ h rest1, rest = h :: rest1 → ∃ hn, m0.nodes[h.a]? = some hn ∧
        (if h.isLeft then hn.left = some c else hn.right = some c) := by
    intro m0 s c hc hm0
    constructor
    · rintro rfl
      rw [hm0.1]
      simpa [plug] using hc
    · rintro h rest1 rfl
      have hrep := ((rep_plug _ _).1 hm0.2.1).1
      simp only [RepPath, hc] at hrep
      refine ⟨_, hrep.1, ?_⟩
      cases h.isLeft <;> simp
  have hbefore : (doubleBefore xLeft pLeft x p g ex ep eg A B C D).ptr = some g := by
    cases xLeft <;> cases pLeft <;> rfl
  have hafter : (doubleAfter xLeft pLeft x p g ex ep eg A B C D).ptr = some x := by
    cases xLeft <;> cases pLeft <;> rfl
  have hs0 := hslot m _ g hbefore hm
  suffices hmain : ∃ m1, splayStep m (some x) = some m1 ∧
      Models m1 (plug rest (doubleAfter xLeft pLeft x p g ex ep eg A B C D)) ∧
      (if xLeft then
          if pLeft then (rotateRight m (some p)).bind (fun m0 => rotateRight m0 (some x))
          else (rotateRight m (some x)).bind (fun m0 => rotateLeft m0 (some x))
        else
          if pLeft then (rotateLeft m (some x)).bind (fun m0 => rotateRight m0 (some x))
          else (rotateLeft m (some p)).bind (fun m0 => rotateLeft m0 (some x)))
        = some m1 by
    obtain ⟨m1, h1, h2, h3⟩ := hmain
    have hs1 := hslot m1 _ x hafter h2
    exact ⟨m1, h1, h2, h3, fun hr => ⟨hs0.1 hr, hs1.1 hr⟩,
      fun h rest1 hr => ⟨hs0.2 h rest1 hr, hs1.2 h rest1 hr⟩⟩
  cases xLeft <;> cases pLeft
  · have h0 : Models m (plug (⟨false, p, ep.1, ep.2, B⟩ :: ⟨false, g, eg.1, eg.2, A⟩ :: rest)
        (.node x C ex.1 ex.2 D)) := by
      simpa [plug, Frame.plug, doubleBefore] using hm
    obtain ⟨m1, h1, h2, h3⟩ := splayStep_rotations h0
    exact ⟨m1, h1, by simpa [rotUp, Frame.zigZig, doubleAfter] using h2,
      by simpa using h3⟩
  · have h0 : Models m (plug (⟨false, p, ep.1, ep.2, A⟩ :: ⟨true, g, eg.1, eg.2, D⟩ :: rest)
        (.node x B ex.1 ex.2 C)) := by
      simpa [plug, Frame.plug, doubleBefore] using hm
    obtain ⟨m1, h1, h2, h3⟩ := splayStep_rotations h0
    exact ⟨m1, h1, by simpa [rotUp, Frame.zigZig, doubleAfter] using h2,
      by simpa using h3⟩
  · have h0 : Models m (plug (⟨true, p, ep.1, ep.2, D⟩ :: ⟨false, g, eg.1, eg.2, A⟩ :: rest)
        (.node x B ex.1 ex.2 C)) := by
      simpa [plug, Frame.plug, doubleBefore] using hm
    obtain ⟨m1, h1, h2, h3⟩ := splayStep_rotations h0
    exact ⟨m1, h1, by simpa [rotUp, Frame.zigZig, doubleAfter] using h2,
      by simpa using h3⟩
  · have h0 : Models m (plug (⟨true, p, ep.1, ep.2, C⟩ :: ⟨true, g, eg.1, eg.2, D⟩ :: rest)
        (.node x A ex.1 ex.2 B)) := by
      simpa [plug, Frame.plug, doubleBefore] using hm
    obtain ⟨m1, h1, h2, h3⟩ := splayStep_rotations h0
    exact ⟨m1, h1, by simpa [rotUp, Frame.zigZig, doubleAfter] using h2,
      by simpa using h3⟩

/-- The zig-zig step of C17 on the right spine 1, 3, 5, 8 at the node of 5: the node of 5
becomes the root, with 3 and, below it, 1 to its left and 8 to its right, by `rotateLeft`
of the node of 3 and then of the node of 5. -/
theorem C17_double_rotation_shapes_witness :
    ∃ m1, splayStep (TreeMap.mk [⟨5, 1, some 1, none, some 2⟩, ⟨3, 2, some 3, none, some 0⟩,
        ⟨8, 3, some 0, none, none⟩, ⟨1, 4, none, none, some 1⟩] (some 3) 4 : TreeMap Nat Nat)
        (some 0) = some m1 ∧
      Models m1 (.node 0 (.node 1 (.node 3 .nil 1 4 .nil) 3 2 .nil) 5 1
        (.node 2 .nil 8 3 .nil)) ∧
      (rotateLeft (TreeMap.mk [⟨5, 1, some 1, none, some 2⟩, ⟨3, 2, some 3, none, some 0⟩,
        ⟨8, 3, some 0, none, none⟩, ⟨1, 4, none, none, some 1⟩] (some 3) 4 : TreeMap Nat Nat)
        (some 1)).bind (fun m0 => rotateLeft m0 (some 0)) = some m1 := by
  obtain ⟨m1, h1, h2, h3, -⟩ := C17_double_rotation_shapes
    (TreeMap.mk [⟨5, 1, some 1, none, some 2⟩, ⟨3, 2, some 3, none, some 0⟩,
      ⟨8, 3, some 0, none, none⟩, ⟨1, 4, none, none, some 1⟩] (some 3) 4 : TreeMap Nat Nat)
    [] false false 0 1 3 (5, 1) (3, 2) (1, 4) .nil .nil .nil (.node 2 .nil 8 3 .nil)
    ⟨rfl, by simp [plug, doubleBefore, Tree.Rep], by decide⟩
  exact ⟨m1, h1, h2, h3⟩

/-- C18 (the closest node is an in-order neighbour): on every non-empty tree that satisfies
the BST order and for every key `k` not stored in it, `findClosest(k)` returns a node whose
key is stored and is either the greatest stored key less than `k` or the least stored key
greater than `k`; `splay(k)`, `value(k)` and `contains(k)` return and leave that node at
the root; after them, if `k` is less than the key of the root every key in the left subtree
of the root is less than `k`, and if `k` is greater every key in the right subtree of the
root is greater than `k`. -/
theorem C18_closest_is_neighbour [LinearOrder K] (m : TreeMap K V) (hm : IsBST m)
    (hne : m.isEmpty = false) (k : K) (hk : k ∉ m.keys) :
    ∃ e n m1 rn, m.findClosest k = some (some e) ∧ m.nodes[e]? = some n ∧ n.key ∈ m.keys ∧
      ((n.key < k ∧ ∀ x ∈ m.keys, x < k → x ≤ n.key) ∨
        (k < n.key ∧ ∀ x ∈ m.keys, k < x → n.key ≤ x)) ∧
      m.splay k = some m1 ∧ m.value k = some (Lookup.notFound, m1) ∧
      m.contains k = some (false, m1) ∧
      m1.root = some e ∧ m1.nodes[e]? = some rn ∧ rn.key = n.key ∧
      (k < rn.key → ∀ x ∈ m1.entriesBelow rn.left, x.1 < k) ∧
      (rn.key < k → ∀ x ∈ m1.entriesBelow rn.right, k < x.1) := by
  obtain ⟨t, ht, hb⟩ := hm
  obtain ⟨path, e, l, k1, v1, r, hd, hplug, hpre, hpost, hc⟩ :=
    descend_found k t hb (ht.isEmpty_false hne)
  have hfind := findClosest_models k ht
  rw [hd] at hfind
  have hnone := (rootLookup_splayT_none k hb).2 (by rw [← ht.keys_eq]; exact hk)
  obtain ⟨m1, hval, hsplay, hm1, -⟩ := value_models k ht
  obtain ⟨m2, hcon, hsplay2, -, -⟩ := contains_models k ht
  rw [hsplay] at hsplay2
  simp only [Option.some.injEq] at hsplay2
  subst hsplay2
  rw [hnone] at hval hcon
  obtain ⟨l2, r2, hsp, hl2, hr2⟩ := splayUp_spec path e l r k1 v1
  have hT : splayT k t = .node e l2 k1 v1 r2 := by simp [splayT, hd, hsp]
  rw [hT] at hm1
  obtain ⟨hbl, hbr⟩ := hm1.entriesBelow_root
  have hsorted := hb.sorted
  have hkeys := ht.keys_eq
  have htl : t.toList = pathPre path ++ (l.toList ++ (k1, v1) :: r.toList) ++ pathPost path := by
    rw [hplug, toList_plug]; rfl
  have hmem : k1 ∈ m.keys := by
    rw [hkeys, htl]
    simp
  have hkne : k1 ≠ k := fun h => hk (h ▸ hmem)
  subst hplug
  refine ⟨e, _, m1, _, hfind, ht.cell, hmem, ?_, hsplay, hval, hcon, hm1.1, hm1.2.1.1, rfl,
    ?_, ?_⟩
  · rcases hc with h | ⟨hlt, rfl⟩ | ⟨hlt, rfl⟩
    · exact absurd h hkne
    · right
      refine ⟨hlt, ?_⟩
      rw [hkeys]
      rw [htl] at hsorted ⊢
      simp only [Tree.toList, List.nil_append, List.append_assoc, List.cons_append]
        at hsorted ⊢
      exact sorted_neighbour_above hsorted hpre
    · left
      refine ⟨hlt, ?_⟩
      rw [hkeys]
      rw [htl] at hsorted ⊢
      simp only [Tree.toList, List.append_nil, List.append_assoc, List.cons_append,
        List.nil_append] at hsorted ⊢
      rw [← List.append_assoc] at hsorted ⊢
      exact sorted_neighbour_below hsorted hpost
  · intro hlt
    simp only at hlt ⊢
    rw [hbl, hl2]
    rcases hc with h | ⟨-, rfl⟩ | ⟨hgt, -⟩
    · exact absurd h hkne
    · simpa [Tree.toList] using hpre
    · exact absurd hlt (lt_asymm hgt)
  · intro hgt
    simp only at hgt ⊢
    rw [hbr, hr2]
    rcases hc with h | ⟨hlt, -⟩ | ⟨-, rfl⟩
    · exact absurd h hkne
    · exact absurd hlt (lt_asymm hgt)
    · simpa [Tree.toList] using hpost

/-- The neighbour of C18 on the tree with root 3 and right child 5, for the key 4: the
node of 5 is found and becomes the root, and no key is left of it. -/
theorem C18_closest_is_neighbour_witness :
    ∃ m1 rn, (TreeMap.mk [⟨5, 1, some 1, none, none⟩, ⟨3, 2, none, none, some 0⟩]
        (some 1) 2 : TreeMap Nat Nat).findClosest 4 = some (some 0) ∧
      (TreeMap.mk [⟨5, 1, some 1, none, none⟩, ⟨3, 2, none, none, some 0⟩]
        (some 1) 2 : TreeMap Nat Nat).contains 4 = some (false, m1) ∧
      m1.root = some 0 ∧ m1.nodes[0]? = some rn ∧ rn.key = 5 ∧
      ∀ x ∈ m1.entriesBelow rn.left, x.1 < 4 := by
  obtain ⟨e, n, m1, rn, h1, h2, -, -, -, -, h7, h8, h9, h10, h11, -⟩ :=
    C18_closest_is_neighbour (TreeMap.mk [⟨5, 1, some 1, none, none⟩,
      ⟨3, 2, none, none, some 0⟩] (some 1) 2 : TreeMap Nat Nat)
      ⟨.node 1 .nil 3 2 (.node 0 .nil 5 1 .nil), ⟨rfl, by simp [Tree.Rep], by decide⟩,
        by simp [Tree.BST, Tree.toList]⟩ rfl 4 (by decide)
  have he : e = 0 := by
    have : (TreeMap.mk [⟨5, 1, some 1, none, none⟩, ⟨3, 2, none, none, some 0⟩]
      (some 1) 2 : TreeMap Nat Nat).findClosest 4 = some (some 0) := rfl
    rw [this] at h1
    simpa using h1.symm
  subst he
  simp only [List.getElem?_cons_zero, Option.some.injEq] at h2
  subst h2
  exact ⟨m1, rn, h1, h7, h8, h9, h10, h11 (by rw [h10]; decide)⟩

/-- C19 (contract of `findClosest`): on every tree that satisfies the BST order and for
every key `k`, `findClosest(k)` returns, and what it returns is the last node of the
root-to-leaf search path for `k`; it returns no node if and only if the tree is empty; if
`k` is stored it returns a node of the tree whose key equals `k`; if `k` is not stored it
returns a node of the tree whose key differs from `k` and whose child link on the side of
`k` (left if `k` is less than its key, right if greater) is null.  The method returns a
pointer and no map: it does not modify the tree. -/
theorem C19_findClosest_contract [LinearOrder K] (m : TreeMap K V) (hm : IsBST m) (k : K) :
    ∃ p, m.findClosest k = some p ∧ p = (m.searchPath k).getLast? ∧
      (p = none ↔ m.isEmpty = true) ∧
      (k ∈ m.keys → ∃ e n, p = some e ∧ e ∈ m.reachable ∧ m.nodes[e]? = some n ∧
        n.key = k) ∧
      (k ∉ m.keys → m.isEmpty = false → ∃ e n, p = some e ∧ e ∈ m.reachable ∧
        m.nodes[e]? = some n ∧ n.key ≠ k ∧
        (k < n.key → n.left = none) ∧ (n.key < k → n.right = none)) := by
  obtain ⟨t, ht, hb⟩ := hm
  have hfind := findClosest_models k ht
  have hpath := findClosest_searchPath k ht
  refine ⟨_, hfind, by rw [hfind] at hpath; exact Option.some.inj hpath, ?_⟩
  cases hpt : t.ptr with
  | none =>
    have htn : t = .nil := Tree.ptr_eq_none.1 hpt
    subst htn
    have hroot : m.root = none := ht.1
    have hkeys : m.keys = [] := by rw [ht.keys_eq]; rfl
    simp [descend, isEmpty, hroot, hkeys]
  | some a =>
    have hsome : t.ptr.isSome := by simp [hpt]
    have hroot : m.root = some a := ht.1.trans hpt
    obtain ⟨path, e, l, k1, v1, r, hd, hplug, hpre, hpost, hc⟩ := descend_found k t hb hsome
    obtain ⟨l2, r2, hsp, -, -⟩ := splayUp_spec path e l r k1 v1
    have hT : splayT k t = .node e l2 k1 v1 r2 := by simp [splayT, hd, hsp]
    have hlook := rootLookup_splayT k hb
    have hkeys := ht.keys_eq
    have hreach := ht.reachable_eq
    rw [hT] at hlook
    simp only [Tree.rootLookup] at hlook
    have hmem : (k1, v1) ∈ t.toList := by
      rw [hplug, toList_plug]
      simp [Tree.toList]
    have he : e ∈ m.reachable := by
      rw [hreach, hplug]
      exact (addrs_plug _ _).mem_iff.2 (by simp [Tree.addrs])
    subst hplug
    rw [hd]
    refine ⟨by simp [isEmpty, hroot], ?_, ?_⟩
    · intro hk
      rw [hkeys] at hk
      simp only [List.mem_map, Prod.exists, exists_and_right, exists_eq_right] at hk
      obtain ⟨w, hw⟩ := hk
      have := (hlook w).2 hw
      have hk1 : k1 = k := by
        by_contra hne
        simp [hne] at this
      exact ⟨e, _, rfl, he, ht.cell, hk1⟩
    · intro hk _
      have hk1 : k1 ≠ k := by
        rintro rfl
        exact hk (by rw [hkeys]; exact List.mem_map_of_mem Prod.fst hmem)
      refine ⟨e, _, rfl, he, ht.cell, hk1, ?_, ?_⟩
      · intro hlt
        rcases hc with h | ⟨-, rfl⟩ | ⟨hgt, -⟩
        · exact absurd h hk1
        · rfl
        · exact absurd hlt (lt_asymm hgt)
      · intro hgt
        rcases hc with h | ⟨hlt, -⟩ | ⟨-, rfl⟩
        · exact absurd h hk1
        · exact absurd hlt (lt_asymm hgt)
        · rfl

/-- The contract of C19 on the tree with root 3 and right child 5, for the key 4: the
search path is the node of 3 and then the node of 5, which `findClosest` returns. -/
theorem C19_findClosest_contract_witness :
    ∃ n, (TreeMap.mk [⟨5, 1, some 1, none, none⟩, ⟨3, 2, none, none, some 0⟩]
        (some 1) 2 : TreeMap Nat Nat).findClosest 4 = some (some 0) ∧
      (TreeMap.mk [⟨5, 1, some 1, none, none⟩, ⟨3, 2, none, none, some 0⟩]
        (some 1) 2 : TreeMap Nat Nat).searchPath 4 = [1, 0] ∧
      (TreeMap.mk [⟨5, 1, some 1, none, none⟩, ⟨3, 2, none, none, some 0⟩]
        (some 1) 2 : TreeMap Nat Nat).nodes[0]? = some n ∧ n.key ≠ 4 ∧ n.left = none := by
  obtain ⟨p, h1, h2, -, -, h5⟩ :=
    C19_findClosest_contract (TreeMap.mk [⟨5, 1, some 1, none, none⟩,
      ⟨3, 2, none, none, some 0⟩] (some 1) 2 : TreeMap Nat Nat)
      ⟨.node 1 .nil 3 2 (.node 0 .nil 5 1 .nil), ⟨rfl, by simp [Tree.Rep], by decide⟩,
        by simp [Tree.BST, Tree.toList]⟩ 4
  obtain ⟨e, n, he, -, hn, hne, hl, -⟩ := h5 (by decide) rfl
  have hp : p = some 0 := h2
  rw [hp] at he h1
  simp only [Option.some.injEq] at he
  subst he
  have hn0 := hn
  simp only [List.getElem?_cons_zero, Option.some.injEq] at hn0
  exact ⟨n, h1, rfl, hn, hne, hl (by rw [← hn0]; decide)⟩

/-- C20 (termination of `splay`): on every non-empty parent-consistent tree and for every
key `k`, the loop of `splay(k)` on the node `findClosest(k)` returns, at depth `d`, ends
within `(d + 1) / 2` iterations, which is at most `d` (a budget of `n + 1` tests of the
loop condition allows `n` iterations); at exit that node is the root and its parent link is
null.  One iteration on a node that is not the root returns a parent-consistent tree in
which the depth of the node is less by exactly one if its parent was the root (zig) and by
exactly two otherwise (zig-zig and zig-zag). -/
theorem C20_splay_termination [LinearOrder K] (m : TreeMap K V)
    (hm : ParentConsistent m) (hne : m.isEmpty = false) (k : K) :
    (∃ e d m1 rn, m.findClosest k = some (some e) ∧ m.depthOf e = some d ∧
      (∀ fuel, (d + 1) / 2 < fuel → splayLoop fuel m (some e) = some m1) ∧
      m.splay k = some m1 ∧ m1.root = some e ∧ m1.nodes[e]? = some rn ∧
      rn.parent = none ∧ m1.depthOf e = some 0) ∧
    ∀ x d, x ∈ m.reachable → m.depthOf x = some d → 0 < d →
      ∃ m1, splayStep m (some x) = some m1 ∧ ParentConsistent m1 ∧ x ∈ m1.reachable ∧
        m1.depthOf x = some (if d = 1 then 0 else d - 2) := by
  obtain ⟨t, ht⟩ := isTree_of_parentConsistent hm
  constructor
  · obtain ⟨path, e, l, k1, v1, r, hd, hplug⟩ := descend_zipper k t (ht.isEmpty_false hne)
    have hfind := findClosest_models k ht
    rw [hd] at hfind
    subst hplug
    obtain ⟨m1, hloop, hm1⟩ := splayLoop_iterations path ((path.length + 1) / 2 + 1) m e l r
      k1 v1 (by omega) ht
    obtain ⟨l2, r2, hsp, -, -⟩ := splayUp_spec path e l r k1 v1
    rw [hsp] at hm1
    have hm2 : Models m1 (plug [] (.node e l2 k1 v1 r2)) := hm1
    have hlen := ht.path_length_lt
    refine ⟨e, path.length, m1, _, hfind, ht.depthOf_eq, ?_, ?_, hm1.1, hm1.2.1.1, rfl,
      by simpa using hm2.depthOf_eq⟩
    · intro fuel hf
      exact splayLoop_mono _ m m1 _ hloop fuel (by omega)
    · have := splayLoop_mono _ m m1 _ hloop (m.nodes.length + 1) (by omega)
      simp [splay, hfind, this]
  · intro x d hx hdx hpos
    rw [ht.reachable_eq] at hx
    obtain ⟨path, l, k1, v1, r, rfl⟩ := zipper_of_mem hx
    rw [ht.depthOf_eq] at hdx
    simp only [Option.some.injEq] at hdx
    subst hdx
    cases path with
    | nil => simp at hpos
    | cons f rest =>
      obtain ⟨m1, h1, h2, h3, h4⟩ := splayStep_depth ht
      refine ⟨m1, h1, IsTree.parentConsistent h2, h3, ?_⟩
      rw [h4]
      congr 1
      simp only [List.length_cons]
      split_ifs with h
      · omega
      · omega

/-- The termination of C20 on the right spine 1, 3, 5, 8 for the key 8, whose node is at
depth 3: two iterations bring it to the root. -/
theorem C20_splay_termination_witness :
    ∃ m1, splayLoop 3 (TreeMap.mk [⟨5, 1, some 1, none, some 2⟩,
        ⟨3, 2, some 3, none, some 0⟩, ⟨8, 3, some 0, none, none⟩,
        ⟨1, 4, none, none, some 1⟩] (some 3) 4 : TreeMap Nat Nat) (some 2) = some m1 ∧
      (TreeMap.mk [⟨5, 1, some 1, none, some 2⟩, ⟨3, 2, some 3, none, some 0⟩,
        ⟨8, 3, some 0, none, none⟩, ⟨1, 4, none, none, some 1⟩] (some 3) 4 :
        TreeMap Nat Nat).splay 8 = some m1 ∧
      m1.root = some 2 ∧ m1.depthOf 2 = some 0 := by
  obtain ⟨⟨e, d, m1, rn, h1, h2, h3, h4, h5, -, -, h8⟩, -⟩ :=
    C20_splay_termination (TreeMap.mk [⟨5, 1, some 1, none, some 2⟩,
      ⟨3, 2, some 3, none, some 0⟩, ⟨8, 3, some 0, none, none⟩,
      ⟨1, 4, none, none, some 1⟩] (some 3) 4 : TreeMap Nat Nat)
      (IsTree.parentConsistent
        ⟨.node 3 .nil 1 4 (.node 1 .nil 3 2 (.node 0 .nil 5 1 (.node 2 .nil 8 3 .nil))),
          rfl, by simp [Tree.Rep], by decide⟩) rfl 8
  have he : e = 2 := by
    have : (TreeMap.mk [⟨5, 1, some 1, none, some 2⟩, ⟨3, 2, some 3, none, some 0⟩,
      ⟨8, 3, some 0, none, none⟩, ⟨1, 4, none, none, some 1⟩] (some 3) 4 :
      TreeMap Nat Nat).findClosest 8 = some (some 2) := rfl
    rw [this] at h1
    simpa using h1.symm
  subst he
  have hd : d = 3 := by
    have : (TreeMap.mk [⟨5, 1, some 1, none, some 2⟩, ⟨3, 2, some 3, none, some 0⟩,
      ⟨8, 3, some 0, none, none⟩, ⟨1, 4, none, none, some 1⟩] (some 3) 4 :
      TreeMap Nat Nat).depthOf 2 = some 3 := rfl
    rw [this] at h2
    simpa using h2.symm
  subst hd
  exact ⟨m1, h3 3 (by decide), h4, h5, h8⟩

end SplayTree
